import Mathlib

/-! # CS144 sponge: ByteStream and StreamReassembler

A shallow embedding of `libsponge/byte_stream.cc` and
`libsponge/stream_reassembler.cc`, followed by the properties proved about
them.

Conventions of the embedding.

* `std::string` and `std::deque<char>` are lists of characters.
* `size_t` values are natural numbers.  Arithmetic on values a caller supplies
  (`index`, `data.size()`, the capacity) wraps modulo `2 ^ 64` exactly where
  the source computes it (`wadd`, `wsub`).  The two traffic counters
  `_bytes_pushed` and `_bytes_popped` are kept unbounded: they only ever grow
  by the number of bytes that went through the stream, and no stream carries
  `2 ^ 64` bytes.
* A failed `assert` aborts the program: the operation has no result, `none`.
-/

/-- Number of values of a `size_t`, `2 ^ 64`. -/
abbrev SIZE_MOD : Nat := 18446744073709551616

/-- Addition of two `size_t` values. -/
def wadd (a b : Nat) : Nat := (a + b) % SIZE_MOD

/-- Subtraction of two `size_t` values (both below `2 ^ 64`): exact when it
does not underflow, wrapping around otherwise. -/
def wsub (a b : Nat) : Nat := if b ≤ a then a - b else a + SIZE_MOD - b

/-! ## ByteStream (`byte_stream.cc`) -/

/-- The members of `ByteStream`: `_stream`, `_capacity`, `_bytes_popped`,
`_bytes_pushed`, `_end`. -/
structure ByteStream where
  stream : List Char
  capacity : Nat
  bytes_popped : Nat
  bytes_pushed : Nat
  end_ : Bool
  deriving DecidableEq

namespace ByteStream

/-- The constructor `ByteStream::ByteStream(capacity)`. -/
def init (capacity : Nat) : ByteStream :=
  { stream := [], capacity := capacity, bytes_popped := 0, bytes_pushed := 0, end_ := false }

/-- Method `ByteStream::write`: the new stream and the returned count.  The loop
pushes `data[0] .. data[bytes_to_write - 1]` to the back of `_stream`. -/
def write (s : ByteStream) (data : List Char) : ByteStream × Nat :=
  let bytes_to_write := min data.length (wsub s.capacity s.stream.length)
  ({ s with bytes_pushed := s.bytes_pushed + bytes_to_write,
            stream := s.stream ++ data.take bytes_to_write }, bytes_to_write)

/-- Method `ByteStream::peek_output`: `none` when the `assert` fails. -/
def peek_output (s : ByteStream) (len : Nat) : Option (List Char) :=
  if s.stream.length ≤ s.capacity then
    let bytes_to_read := min len s.stream.length
    some (s.stream.take bytes_to_read)
  else none

/-- Method `ByteStream::pop_output`: `none` when the `assert` fails.  The loop pops
`bytes_to_pop` bytes from the front of `_stream`. -/
def pop_output (s : ByteStream) (len : Nat) : Option ByteStream :=
  if s.stream.length ≤ s.capacity then
    let bytes_to_pop := min len s.stream.length
    some { s with bytes_popped := s.bytes_popped + bytes_to_pop,
                  stream := s.stream.drop bytes_to_pop }
  else none

/-- Method `ByteStream::read`: the returned string and the new stream. -/
def read (s : ByteStream) (len : Nat) : Option (List Char × ByteStream) :=
  if s.stream.length ≤ s.capacity then
    match s.peek_output len with
    | none => none
    | some res =>
      match s.pop_output len with
      | none => none
      | some s' => some (res, s')
  else none

/-- Method `ByteStream::end_input`. -/
def end_input (s : ByteStream) : ByteStream := { s with end_ := true }

/-- Method `ByteStream::input_ended`. -/
def input_ended (s : ByteStream) : Bool := s.end_

/-- Method `ByteStream::buffer_size`. -/
def buffer_size (s : ByteStream) : Nat := s.stream.length

/-- Method `ByteStream::buffer_empty`. -/
def buffer_empty (s : ByteStream) : Bool := s.stream.isEmpty

/-- Method `ByteStream::eof`. -/
def eof (s : ByteStream) : Bool := s.end_ && s.stream.isEmpty

/-- Method `ByteStream::bytes_written`. -/
def bytes_written (s : ByteStream) : Nat := s.bytes_pushed

/-- Method `ByteStream::bytes_read`. -/
def bytes_read (s : ByteStream) : Nat := s.bytes_popped

/-- Method `ByteStream::remaining_capacity`. -/
def remaining_capacity (s : ByteStream) : Nat := wsub s.capacity s.stream.length

/-- The calls that change or observe a `ByteStream`. -/
inductive Call where
  | write (data : List Char)
  | peek_output (len : Nat)
  | pop_output (len : Nat)
  | read (len : Nat)
  | end_input
  deriving DecidableEq

/-- One call on a stream: the stream afterwards, `none` when an `assert`
fails. -/
def step (s : ByteStream) : Call → Option ByteStream
  | .write data => some (s.write data).1
  | .peek_output len => (s.peek_output len).map fun _ => s
  | .pop_output len => s.pop_output len
  | .read len => (s.read len).map Prod.snd
  | .end_input => some s.end_input

/-- A sequence of calls, left to right. -/
def run (s : ByteStream) : List Call → Option ByteStream
  | [] => some s
  | c :: cs => (s.step c).bind fun s' => run s' cs

end ByteStream

/-! ## StreamReassembler (`stream_reassembler.cc`) -/

/-- The `std::map<size_t, char>` behind `_receving_window`: at most one entry
per key.  The source only uses `operator[]` assignment, `find`, `erase` and
`size`, none of which observes the order of the entries. -/
abbrev Window := List (Nat × Char)

namespace Window

/-- Lookup `map::find(k)`: the stored byte, `none` for `end()`. -/
def find : Window → Nat → Option Char
  | [], _ => none
  | (k', c') :: w, k => if k = k' then some c' else find w k

/-- Assignment `map[k] = c`: overwrite the entry of `k`, or add one. -/
def assign : Window → Nat → Char → Window
  | [], k, c => [(k, c)]
  | (k', c') :: w, k, c => if k = k' then (k, c) :: w else (k', c') :: assign w k c

/-- Removal `map::erase(k)`. -/
def erase (w : Window) (k : Nat) : Window := w.filter fun p => p.1 != k

/-- Number of entries, `map::size()`. -/
def size (w : Window) : Nat := w.length

end Window

/-- The members of `StreamReassembler`: `_output`, `_capacity`,
`_receving_window`, `_first_unread`, `_first_unassembled`, `_eof_idx`,
`_eof`. -/
structure StreamReassembler where
  output : ByteStream
  capacity : Nat
  receving_window : Window
  first_unread : Nat
  first_unassembled : Nat
  eof_idx : Nat
  eof : Bool
  deriving DecidableEq

namespace StreamReassembler

/-- The constructor `StreamReassembler::StreamReassembler(capacity)`. -/
def init (capacity : Nat) : StreamReassembler :=
  { output := ByteStream.init capacity, capacity := capacity, receving_window := [],
    first_unread := 0, first_unassembled := 0, eof_idx := 0, eof := false }

/-- Modelled from the spec: `first_unacceptable()` is declared in
`stream_reassembler.hh`, which is not among the sources; the specification
gives `first_unacceptable = first_unread + capacity`, here on the members
`_first_unread` and `_capacity`, in `size_t` arithmetic. -/
def first_unacceptable (r : StreamReassembler) : Nat := wadd r.first_unread r.capacity

/-- The loops `for (i = 0; i < len; ++i) _receving_window[base + i] = data[i + start_idx]`
of cases 2 (`base = index`, `start_idx = 0`) and 4 (`base = _first_unassembled`).
Every `data[..]` the source reads is inside `data`; the default byte is never
taken. -/
def store (w : Window) (base : Nat) (data : List Char) (start_idx len : Nat) : Window :=
  (List.range len).foldl
    (fun w i => w.assign (wadd base i) (data.getD (i + start_idx) (Char.ofNat 0))) w

/-- The loop `for (i = _first_unassembled; i <= old_first_unacceptable; ++i)` of
part B, from its current `i`.  Each round that goes on erases one key of the
window, so `fuel` larger than the window's size is never used up; `none` is the
loop still running when the fuel is gone. -/
def drain (old_first_unacceptable : Nat) :
    Nat → Nat → StreamReassembler → Option StreamReassembler
  | 0, _, _ => none
  | fuel + 1, i, r =>
    if i ≤ old_first_unacceptable then
      if i = r.eof_idx ∧ r.eof = true then
        some { r with output := r.output.end_input }
      else if i = old_first_unacceptable then some r
      else
        match r.receving_window.find i with
        | none => some r
        | some c =>
          drain old_first_unacceptable fuel (i + 1)
            { r with output := (r.output.write [c]).1,
                     receving_window := r.receving_window.erase i }
    else some r

/-- Lines 111 to 145 of `push_substring`: record the eof, drain the window into
the output, refresh `_first_unread` and `_first_unassembled`. -/
def finish (r : StreamReassembler) (data : List Char) (index : Nat) (eof : Bool)
    (last_idx : Nat) : Option StreamReassembler :=
  let r :=
    if eof = true ∧ wadd index data.length ≤ r.first_unacceptable then
      { r with eof := true, eof_idx := last_idx }
    else r
  let old_first_unacceptable := r.first_unacceptable
  (drain old_first_unacceptable (r.receving_window.size + 1) r.first_unassembled r).map fun r =>
    { r with first_unread := r.output.bytes_read, first_unassembled := r.output.bytes_written }

/-- Method `StreamReassembler::push_substring`; `none` when the `assert` of case 4
fails. -/
def push_substring (r : StreamReassembler) (data : List Char) (index : Nat) (eof : Bool) :
    Option StreamReassembler :=
  if data.isEmpty = true ∧ eof = false then some r
  else if data.isEmpty = true ∧ eof = true then
    some { r with eof := true, eof_idx := index, output := r.output.end_input }
  else
    let r := { r with first_unread := r.output.bytes_read,
                      first_unassembled := r.output.bytes_written }
    if wadd index data.length < r.first_unassembled then some r
    else if index ≥ r.first_unassembled ∧ index < r.first_unacceptable then
      let len :=
        if wsub (wadd index data.length) 1 ≥ r.first_unacceptable then
          wsub r.first_unacceptable index
        else data.length
      let r := { r with receving_window := store r.receving_window index data 0 len }
      finish r data index eof (wadd index len)
    else if index ≥ r.first_unacceptable then some r
    else if index < r.first_unassembled ∧ wadd index data.length ≥ r.first_unassembled then
      let len := min (wsub (wadd index data.length) r.first_unassembled)
                     (wsub r.first_unacceptable r.first_unassembled)
      if len < data.length then
        let start_idx := wsub r.first_unassembled index
        let r := { r with receving_window :=
                            store r.receving_window r.first_unassembled data start_idx len }
        finish r data index eof (wadd r.first_unassembled len)
      else none
    else some r

/-- Method `StreamReassembler::unassembled_bytes`. -/
def unassembled_bytes (r : StreamReassembler) : Nat := r.receving_window.size

/-- Method `StreamReassembler::empty`. -/
def empty (r : StreamReassembler) : Bool :=
  r.unassembled_bytes == 0 && r.output.buffer_empty

/-- What a caller does to a reassembler: push a substring, or read from the
output stream (`stream_out().read(len)`). -/
inductive Op where
  | push (data : List Char) (index : Nat) (eof : Bool)
  | read (len : Nat)
  deriving DecidableEq

/-- One operation: the reassembler afterwards and the bytes the caller got out
of the output stream. -/
def step (r : StreamReassembler) : Op → Option (StreamReassembler × List Char)
  | .push data index eof => (r.push_substring data index eof).map fun r' => (r', [])
  | .read len => (r.output.read len).map fun p => ({ r with output := p.2 }, p.1)

/-- A sequence of operations, left to right, with everything read from the
output stream so far, in order. -/
def run (r : StreamReassembler) (got : List Char) :
    List Op → Option (StreamReassembler × List Char)
  | [] => some (r, got)
  | op :: ops => (r.step op).bind fun p => run p.1 (got ++ p.2) ops

end StreamReassembler

/-- Scenario S3 on a stream of capacity 4: what `write("Hello")`,
`peek_output(3)`, (after `pop_output(2)`) `write("!")` and `read(10)` return. -/
def ByteStream.scenario_S3 : Option (Nat × List Char × Nat × List Char) :=
  let w1 := (ByteStream.init 4).write "Hello".toList
  (w1.1.peek_output 3).bind fun peeked =>
  (w1.1.pop_output 2).bind fun s2 =>
  let w2 := s2.write "!".toList
  (w2.1.read 10).map fun r => (w1.2, peeked, w2.2, r.1)

/-- Scenario S4 on a reassembler of capacity 8: the three pushes. -/
def StreamReassembler.scenario_S4 : Option StreamReassembler :=
  ((StreamReassembler.init 8).push_substring "abc".toList 0 false).bind fun r1 =>
  (r1.push_substring "ef".toList 4 false).bind fun r2 =>
  r2.push_substring "de".toList 3 true

/-! ## Invariants and the vocabulary of the statements -/

namespace ByteStream

/-- The class invariant: the counters account for the buffer and the buffer
fits the capacity. -/
def Inv (s : ByteStream) : Prop :=
  s.bytes_pushed = s.bytes_popped + s.stream.length ∧ s.stream.length ≤ s.capacity

end ByteStream

namespace StreamReassembler

/-- The drain loop started on `r` stops at once, writing nothing: the loop
bound is already passed, or the recorded eof, the first unacceptable index or a
gap sits at `bytes_written`. -/
def Stable (A : Nat) (r : StreamReassembler) : Prop :=
  ¬ (r.output.bytes_pushed ≤ A) ∨
  (r.output.bytes_pushed = r.eof_idx ∧ r.eof = true) ∨
  r.output.bytes_pushed = A ∨
  r.receving_window.find r.output.bytes_pushed = none

/-- What the drain loop, started at `i = bytes_written` on `r`, leaves in
`r'`: it wrote the window's bytes of `[i, bytes_written')` to the output, in
order, erased them, and touched nothing else but the output's end flag. -/
structure Drained (A i : Nat) (r r' : StreamReassembler) : Prop where
  capacity_eq : r'.capacity = r.capacity
  first_unread_eq : r'.first_unread = r.first_unread
  first_unassembled_eq : r'.first_unassembled = r.first_unassembled
  eof_eq : r'.eof = r.eof
  eof_idx_eq : r'.eof_idx = r.eof_idx
  out_capacity_eq : r'.output.capacity = r.output.capacity
  popped_eq : r'.output.bytes_popped = r.output.bytes_popped
  out_inv : ByteStream.Inv r'.output
  start_le : i ≤ r'.output.bytes_pushed
  bound : r'.output.bytes_pushed ≤ A ∨ r'.output.bytes_pushed = i
  written : ∃ written : List Char, r'.output.stream = r.output.stream ++ written ∧
    written.length + i = r'.output.bytes_pushed ∧
    ∀ j, j < written.length → r.receving_window.find (i + j) = written[j]?
  window : ∀ k, r'.receving_window.find k
    = if i ≤ k ∧ k < r'.output.bytes_pushed then none else r.receving_window.find k
  size_le : r'.receving_window.length ≤ r.receving_window.length
  end_flag : r'.output.end_
    = (r.output.end_ ||
        decide (r'.output.bytes_pushed ≤ A ∧ r'.output.bytes_pushed = r.eof_idx ∧ r.eof = true))
  stable : Stable A r'
  eof_bound : r.eof = true → i ≤ r.eof_idx → r'.output.bytes_pushed ≤ r.eof_idx

/-- The indices `k` whose byte `data[k - index]` a push of `data` at `index`
stores into the window of `r`: the part of `[index, index + |data|)` from
`bytes_written` on and below the first unacceptable index `A` (no such cut when
`A`, wrapped around, lies below `bytes_written`). -/
def Accepts (r : StreamReassembler) (data : List Char) (index k : Nat) : Prop :=
  r.output.bytes_pushed ≤ index + data.length ∧
  index < wadd r.output.bytes_popped r.capacity ∧
  index ≤ k ∧ r.output.bytes_pushed ≤ k ∧ k < index + data.length ∧
  (k < wadd r.output.bytes_popped r.capacity ∨
    wadd r.output.bytes_popped r.capacity < r.output.bytes_pushed)

instance (r : StreamReassembler) (data : List Char) (index k : Nat) :
    Decidable (Accepts r data index k) := by
  unfold Accepts
  infer_instance

/-- The reassembler between parts A and B of `push_substring`: the cached
counters refreshed, the window `w1` after the insertion, the eof recorded when
the substring ends inside the window. -/
def staged (r : StreamReassembler) (data : List Char) (index : Nat) (eof : Bool)
    (w1 : Window) : StreamReassembler :=
  { r with
    first_unread := r.output.bytes_popped
    first_unassembled := r.output.bytes_pushed
    receving_window := w1
    eof := r.eof || (eof && decide (index + data.length ≤ wadd r.output.bytes_popped r.capacity))
    eof_idx :=
      if eof = true ∧ index + data.length ≤ wadd r.output.bytes_popped r.capacity then
        index + data.length
      else r.eof_idx }

/-- The last two assignments of `push_substring`. -/
def refreshed (r : StreamReassembler) : StreamReassembler :=
  { r with first_unread := r.output.bytes_popped, first_unassembled := r.output.bytes_pushed }

/-- An operation whose index arithmetic stays inside `size_t`: the end index
`index + |data|` of a pushed substring is below `2 ^ 64`. -/
def Op.InRange : Op → Prop
  | .push data index _ => index + data.length < SIZE_MOD
  | .read _ => True

/-- An operation on the source string `s`: a pushed `data` is
`s[index .. index + |data|)`, the `|data|` bytes of `s` from `index` on. -/
def Op.FromSource (s : List Char) : Op → Prop
  | .push data index _ =>
    data = (s.drop index).take data.length
  | .read _ => True

instance (op : Op) : Decidable op.InRange := by
  cases op <;> unfold Op.InRange <;> infer_instance

instance (s : List Char) (op : Op) : Decidable (op.FromSource s) := by
  cases op <;> unfold Op.FromSource <;> infer_instance

/-- The window-bounds invariant, with the facts about the output stream it
rests on. -/
def WInv (r : StreamReassembler) : Prop :=
  ByteStream.Inv r.output ∧ r.output.capacity = r.capacity ∧
  ∀ k, r.receving_window.find k ≠ none →
    r.output.bytes_pushed ≤ k ∧ k < r.output.bytes_popped + r.capacity

/-- The committed-prefix invariant for a source string `s`: everything read
from the output followed by what it still buffers is the start of `s`, and
every byte of the window is the byte of `s` at its index. -/
def SInv (s : List Char) (r : StreamReassembler) (got : List Char) : Prop :=
  ByteStream.Inv r.output ∧ r.output.capacity = r.capacity ∧
  got ++ r.output.stream = s.take r.output.bytes_pushed ∧
  r.output.bytes_pushed ≤ s.length ∧
  ∀ k c, r.receving_window.find k = some c → s[k]? = some c

/-- The part of the invariants that every reachable reassembler has. -/
def OInv (r : StreamReassembler) : Prop :=
  ByteStream.Inv r.output ∧ r.output.capacity = r.capacity

/-- The state of a reassembler of capacity `cap`, at least `|s|`, into which
substrings of `s` covering the indices `C` have been pushed with no read in
between; `F` says that one of them carried the eof flag. -/
structure RInv (s : List Char) (cap : Nat) (C : Nat → Prop) (F : Prop)
    (r : StreamReassembler) : Prop where
  out_inv : ByteStream.Inv r.output
  out_capacity : r.output.capacity = r.capacity
  capacity_eq : r.capacity = cap
  popped : r.output.bytes_popped = 0
  stream_eq : r.output.stream = s.take r.output.bytes_pushed
  pushed_le : r.output.bytes_pushed ≤ s.length
  window : ∀ k c, r.receving_window.find k = some c →
    r.output.bytes_pushed ≤ k ∧ s[k]? = some c
  covered : ∀ k, C k → k < r.output.bytes_pushed ∨ r.receving_window.find k ≠ none
  gap : r.receving_window.find r.output.bytes_pushed = none
  eof_seen : F → r.eof = true
  eof_at_end : r.eof = true → r.eof_idx = s.length
  ended : r.eof = true → r.output.bytes_pushed = s.length → r.output.end_ = true

/-- The push of a substring given as `(data, index, eof)`. -/
def Op.ofSub (p : List Char × Nat × Bool) : Op := .push p.1 p.2.1 p.2.2

end StreamReassembler

namespace StreamReassembler

/-- The reassemblers reached from a fresh one of capacity `capacity` when the
stream ends at index `N`: by output reads, by pushes of non-empty substrings
whose end index is below `2 ^ 64` and is `N` whenever they carry the eof flag,
and by empty eof-only substrings pushed at index `N` once `bytes_written` is
`N`. -/
inductive EofReach (capacity N : Nat) : StreamReassembler → Prop
  | init : EofReach capacity N (init capacity)
  | push (r r' : StreamReassembler) (data : List Char) (index : Nat) (eof : Bool) :
      EofReach capacity N r → data ≠ [] → index + data.length < SIZE_MOD →
      (eof = true → index + data.length = N) →
      r.push_substring data index eof = some r' → EofReach capacity N r'
  | close (r r' : StreamReassembler) :
      EofReach capacity N r → r.output.bytes_written = N →
      r.push_substring [] N true = some r' → EofReach capacity N r'
  | read (r : StreamReassembler) (len : Nat) (p : List Char × ByteStream) :
      EofReach capacity N r → r.output.read len = some p →
      EofReach capacity N { r with output := p.2 }

end StreamReassembler

/-! ## WrappingInt32 and TCPSegment

Neither `wrapping_integers.cc` nor the headers `wrapping_integers.hh`,
`tcp_segment.hh`, `tcp_header.hh`, `tcp_config.hh` and `tcp_sender.hh` are among
the sources; what `tcp_sender.cc` uses of them is taken from the
specification. -/

/-- Number of values of a `WrappingInt32`, `2 ^ 32`. -/
abbrev SEQ_MOD : Nat := 4294967296

/-- Modelled from the spec: the function `wrap` of `wrapping_integers.cc`, which
is not among the sources; section 4.1 gives
`wrap(n, isn) = (isn + (n mod 2^32)) mod 2^32`. -/
def wrap (n isn : Nat) : Nat := (isn + n % SEQ_MOD) % SEQ_MOD

/-- Modelled from the spec: the function `unwrap` of `wrapping_integers.cc`,
which is not among the sources; section 4.1: with
`offset = (s - isn) mod 2^32` and `base = checkpoint & ~0xFFFF_FFFF`, the
candidate `c0 = base + offset` is adjusted by `2^32` up or down to the value
closest to `checkpoint`, not going below 0 nor up to `2^64`, a tie going to the
smaller value. -/
def unwrap (s isn checkpoint : Nat) : Nat :=
  let offset := (s + SEQ_MOD - isn) % SEQ_MOD
  let base := checkpoint - checkpoint % SEQ_MOD
  let c0 := base + offset
  if c0 > checkpoint then
    if SEQ_MOD ≤ c0 ∧ checkpoint - (c0 - SEQ_MOD) ≤ c0 - checkpoint then c0 - SEQ_MOD else c0
  else
    if c0 + SEQ_MOD < SIZE_MOD ∧ c0 + SEQ_MOD - checkpoint < checkpoint - c0 then c0 + SEQ_MOD
    else c0

/-- Modelled from the spec: the constant `TCPConfig::MAX_PAYLOAD_SIZE` of
`tcp_config.hh`, which is not among the sources; sections 3 and 6 give 1460. -/
def TCPConfig.MAX_PAYLOAD_SIZE : Nat := 1460

/-- Modelled from the spec: the part of `TCPSegment` (`tcp_segment.hh`, not
among the sources) that the sender writes: the header fields `seqno`, `syn`,
`fin`, `rst` and the payload (section 3). -/
structure TCPSegment where
  seqno : Nat
  syn : Bool
  fin : Bool
  rst : Bool
  payload : List Char
  deriving DecidableEq

/-- Modelled from the spec: the length in sequence space of a segment,
`syn + payload_len + fin` (section 3). -/
def TCPSegment.length_in_sequence_space (seg : TCPSegment) : Nat :=
  seg.payload.length + (if seg.syn then 1 else 0) + (if seg.fin then 1 else 0)

/-! ## Timer and TCPSender (`tcp_sender.cc`) -/

/-- The members of `Timer`: `_active`, `_alarm`, `_initial_alarm`. -/
structure Timer where
  active : Bool
  alarm : Nat
  initial_alarm : Nat
  deriving DecidableEq

namespace Timer

/-- A default-constructed timer (`_timer{}`): not running. -/
def init : Timer := { active := false, alarm := 0, initial_alarm := 0 }

/-- Method `Timer::start`. -/
def start (_t : Timer) (initial_alarm : Nat) : Timer :=
  { active := true, initial_alarm := initial_alarm, alarm := initial_alarm }

/-- Method `Timer::elapse`: the timer afterwards and whether it has expired;
`none` for the `throw "unstart"` of a timer that is not running. -/
def elapse (t : Timer) (elapsed : Nat) : Option (Timer × Bool) :=
  if t.active = false then none
  else if t.alarm > elapsed then some ({ t with alarm := t.alarm - elapsed }, false)
  else some ({ t with alarm := 0 }, true)

/-- Method `Timer::reset`. -/
def reset (_t : Timer) : Timer := { active := false, alarm := 0, initial_alarm := 0 }

end Timer

/-- The members of `TCPSender`: `_isn`, `_send_window` (the outstanding queue),
`_receive_window_size`, `_initial_retransmission_timeout`, `_timer`, `_stream`,
`_consecutive_retransmissions_cnt`, `_next_seqno` and `_segments_out`.  The
counter `_next_seqno` of sequence numbers sent is kept unbounded, like the
counters of the byte stream. -/
structure TCPSender where
  isn : Nat
  send_window : List TCPSegment
  receive_window_size : Nat
  initial_retransmission_timeout : Nat
  timer : Timer
  stream : ByteStream
  consecutive_retransmissions_cnt : Nat
  next_seqno : Nat
  segments_out : List TCPSegment
  deriving DecidableEq

namespace TCPSender

/-- The values of `TCPSender::State` that `tcp_sender.cc` and the
specification name. -/
inductive State where
  | CLOSED
  | SYN_SENT
  | SYN_ACKED_1
  | SYN_ACKED_2
  | FIN_SENT
  | FIN_ACKED
  deriving DecidableEq

/-- The constructor `TCPSender::TCPSender(capacity, retx_timeout, fixed_isn)`,
with the initial sequence number `isn` that is fixed or drawn. -/
def init (capacity retx_timeout isn : Nat) : TCPSender :=
  { isn := isn, send_window := [], receive_window_size := 1,
    initial_retransmission_timeout := retx_timeout, timer := Timer.init,
    stream := ByteStream.init capacity, consecutive_retransmissions_cnt := 0,
    next_seqno := 0, segments_out := [] }

/-- Method `TCPSender::bytes_in_flight`. -/
def bytes_in_flight (s : TCPSender) : Nat :=
  s.send_window.foldl (fun send_window_size seg => send_window_size + seg.length_in_sequence_space)
    0

/-- Modelled from the spec: `TCPSender::state()` is defined with the header
`tcp_sender.hh`, which is not among the sources.  Section 4.5 derives the state
from `next_seqno`, the stream and the outstanding queue: `CLOSED` when
`next_seqno = 0`; `SYN_SENT` when `next_seqno > 0` and
`next_seqno = bytes_in_flight`; then `SYN_ACKED` while the stream is not at EOF
(`SYN_ACKED_1`) or is at EOF with the FIN not yet emitted (`SYN_ACKED_2`, the
state in which `send_segment` sets `fin`); `FIN_SENT` while the FIN is not fully
acknowledged; `FIN_ACKED` after.  The FIN has been emitted when `next_seqno`
counts the SYN, every byte written to the stream and the FIN:
`next_seqno = bytes_written + 2`. -/
def state (s : TCPSender) : State :=
  if s.next_seqno = 0 then .CLOSED
  else if s.next_seqno = s.bytes_in_flight then .SYN_SENT
  else if s.stream.eof = false then .SYN_ACKED_1
  else if s.next_seqno < s.stream.bytes_written + 2 then .SYN_ACKED_2
  else if s.bytes_in_flight ≠ 0 then .FIN_SENT
  else .FIN_ACKED

/-- Method `TCPSender::send_segment`: the sender afterwards and the returned
length in sequence space; `none` when the `assert` of `_stream.read` fails. -/
def send_segment (s : TCPSender) (remaining_recv_window_sz : Nat) : Option (TCPSender × Nat) :=
  let syn : Bool := decide (s.state = .CLOSED) && decide (remaining_recv_window_sz ≥ 1)
  let payload_sz :=
    min TCPConfig.MAX_PAYLOAD_SIZE
      (min (wsub remaining_recv_window_sz (if syn then 1 else 0)) s.stream.buffer_size)
  match s.stream.read payload_sz with
  | none => none
  | some (payload, stream) =>
    let s := { s with stream := stream }
    let fin : Bool :=
      decide (s.state = .SYN_ACKED_2) &&
        decide (remaining_recv_window_sz > payload_sz + (if syn then 1 else 0))
    let seg : TCPSegment :=
      { seqno := wrap s.next_seqno s.isn, syn := syn, fin := fin, rst := false,
        payload := payload }
    if seg.length_in_sequence_space ≠ 0 then
      some ({ s with segments_out := s.segments_out ++ [seg],
                     send_window := s.send_window ++ [seg] },
            seg.length_in_sequence_space)
    else some (s, seg.length_in_sequence_space)

/-- Method `TCPSender::timer_when_filling`. -/
def timer_when_filling (s : TCPSender) : TCPSender :=
  if s.timer.active = false then
    { s with timer := (s.timer.reset).start s.initial_retransmission_timeout }
  else s

/-- Method `TCPSender::update_when_filling`: the sender and the remaining
window afterwards. -/
def update_when_filling (s : TCPSender) (seg_len_in_seq_space remaining_recv_window_sz : Nat) :
    TCPSender × Nat :=
  ({ s with next_seqno := s.next_seqno + seg_len_in_seq_space },
   wsub remaining_recv_window_sz seg_len_in_seq_space)

/-- The loop `while (remaining_recv_window_sz > 0)` of `fill_window`.  Each
round that goes on takes at least one sequence number off the remaining
window, so `fuel` larger than the remaining window is never used up; `none` is
a failed `assert` or the loop still running when the fuel is gone. -/
def fill_loop : Nat → TCPSender → Nat → Option TCPSender
  | 0, _, _ => none
  | fuel + 1, s, remaining_recv_window_sz =>
    if remaining_recv_window_sz > 0 then
      match s.send_segment remaining_recv_window_sz with
      | none => none
      | some (s, seg_len_in_seq_space) =>
        if seg_len_in_seq_space = 0 then some s
        else
          let s := s.timer_when_filling
          let p := s.update_when_filling seg_len_in_seq_space remaining_recv_window_sz
          fill_loop fuel p.1 p.2
    else some s

/-- Method `TCPSender::fill_window`. -/
def fill_window (s : TCPSender) : Option TCPSender :=
  let remaining_recv_window_sz :=
    if s.receive_window_size = 0 then 1 else s.receive_window_size
  if s.bytes_in_flight > remaining_recv_window_sz then some s
  else
    let remaining_recv_window_sz := wsub remaining_recv_window_sz s.bytes_in_flight
    fill_loop (remaining_recv_window_sz + 1) s remaining_recv_window_sz

/-- The removal loop of `ack_received` over `_send_window`: the queue
afterwards and `seg_acked`.  The sum `abs_idx + len` is not wrapped: it stays
at or below `_next_seqno` for the segments of the queue. -/
def remove_acked (isn next_seqno abs_ackno : Nat) : List TCPSegment → List TCPSegment × Bool
  | [] => ([], false)
  | seg :: rest =>
    let abs_idx := unwrap seg.seqno isn next_seqno
    let len := seg.length_in_sequence_space
    if abs_idx ≥ abs_ackno then (seg :: rest, false)
    else if abs_idx + len ≤ abs_ackno then
      ((remove_acked isn next_seqno abs_ackno rest).1, true)
    else
      (seg :: (remove_acked isn next_seqno abs_ackno rest).1,
       (remove_acked isn next_seqno abs_ackno rest).2)

/-- Method `TCPSender::ack_received`. -/
def ack_received (s : TCPSender) (ackno window_size : Nat) : Option TCPSender :=
  let s := { s with receive_window_size := window_size }
  let abs_ackno := unwrap ackno s.isn s.next_seqno
  if abs_ackno > s.next_seqno then some s
  else if s.send_window.isEmpty = true then some s
  else
    let removed := remove_acked s.isn s.next_seqno abs_ackno s.send_window
    let s := { s with send_window := removed.1 }
    if removed.2 = false then s.fill_window
    else
      let s := { s with consecutive_retransmissions_cnt := 0 }
      let s :=
        if s.send_window.isEmpty = false then
          { s with timer := (s.timer.reset).start s.initial_retransmission_timeout }
        else { s with timer := s.timer.reset }
      s.fill_window

/-- Method `TCPSender::tick`; `none` for the `throw` of `Timer::elapse` and for
`front()` of an empty `_send_window`.  The shift `timeout <<= 1` is on 64
bits, the increment of the counter on 32. -/
def tick (s : TCPSender) (ms_since_last_tick : Nat) : Option TCPSender :=
  if s.timer.active = false then some s
  else
    match s.timer.elapse ms_since_last_tick with
    | none => none
    | some (timer, expired) =>
      let s := { s with timer := timer }
      if expired = true then
        match s.send_window with
        | [] => none
        | oldest_seg :: _ =>
          let timeout := s.timer.initial_alarm
          let s :=
            if s.receive_window_size > 0 then
              { s with consecutive_retransmissions_cnt :=
                  (s.consecutive_retransmissions_cnt + 1) % SEQ_MOD }
            else s
          let timeout := if s.receive_window_size > 0 then (timeout * 2) % SIZE_MOD else timeout
          some { s with timer := (s.timer.reset).start timeout,
                        segments_out := s.segments_out ++ [oldest_seg] }
      else some s

/-- Method `TCPSender::consecutive_retransmissions`. -/
def consecutive_retransmissions (s : TCPSender) : Nat := s.consecutive_retransmissions_cnt

/-- Method `TCPSender::send_empty_segment`. -/
def send_empty_segment (s : TCPSender) (rst : Bool) : TCPSender :=
  let seg : TCPSegment :=
    { seqno := wrap s.next_seqno s.isn, syn := false, fin := false, rst := rst, payload := [] }
  { s with segments_out := s.segments_out ++ [seg] }

/-- What a caller does to a sender: its four operations, and a write to or the
end of input of the outbound stream (`stream_in()`). -/
inductive Op where
  | fill_window
  | ack_received (ackno window_size : Nat)
  | tick (ms_since_last_tick : Nat)
  | send_empty_segment (rst : Bool)
  | write (data : List Char)
  | end_input
  deriving DecidableEq

/-- One operation on a sender. -/
def step (s : TCPSender) : Op → Option TCPSender
  | .fill_window => s.fill_window
  | .ack_received ackno window_size => s.ack_received ackno window_size
  | .tick ms => s.tick ms
  | .send_empty_segment rst => some (s.send_empty_segment rst)
  | .write data => some { s with stream := (s.stream.write data).1 }
  | .end_input => some { s with stream := s.stream.end_input }

/-- A sequence of operations, left to right. -/
def run (s : TCPSender) : List Op → Option TCPSender
  | [] => some s
  | op :: ops => (s.step op).bind fun s' => run s' ops

end TCPSender

namespace TCPSender

/-- Total length in sequence space of a list of segments. -/
def flight (q : List TCPSegment) : Nat :=
  (q.map TCPSegment.length_in_sequence_space).sum

/-- Segments emitted one after the other into a window with `room` sequence
numbers left: each has a length between 1 and the room left when it is
emitted. -/
def Fits : Nat → List TCPSegment → Prop
  | _, [] => True
  | room, seg :: rest =>
    1 ≤ seg.length_in_sequence_space ∧ seg.length_in_sequence_space ≤ room ∧
    Fits (room - seg.length_in_sequence_space) rest

/-- Segments that follow each other in sequence space from the absolute
sequence number `start` on: each is stamped with the wrapped number it starts
at, has a length of at least 1, and the next one starts where it ends. -/
def Chained (isn : Nat) : Nat → List TCPSegment → Prop
  | _, [] => True
  | start, seg :: rest =>
    seg.seqno = wrap start isn ∧ 1 ≤ seg.length_in_sequence_space ∧
    Chained isn (start + seg.length_in_sequence_space) rest

/-- The largest window stored so far, at least `W`. -/
def Op.window (W : Nat) : Op → Nat
  | .ack_received _ window_size => max W window_size
  | _ => W

/-- The largest of 1 and the window sizes of all `ack_received` calls of a
sequence of operations. -/
def largest_window (ops : List Op) : Nat := ops.foldl Op.window 1

/-- An operation whose arguments fit their C++ types: `ackno` a
`WrappingInt32`, `window_size` a `uint16_t`, `ms_since_last_tick` a
`size_t`. -/
def Op.Typed : Op → Prop
  | .ack_received ackno window_size => ackno < SEQ_MOD ∧ window_size < 65536
  | .tick ms => ms < SIZE_MOD
  | _ => True

instance (op : Op) : Decidable op.Typed := by
  cases op <;> unfold Op.Typed <;> infer_instance

/-- What holds of every sender reached from the constructor: the stream's
invariant, at most `W` sequence numbers in flight where `W` bounds the stored
window, and the timer running exactly when segments are outstanding. -/
structure Inv (W : Nat) (s : TCPSender) : Prop where
  stream_inv : ByteStream.Inv s.stream
  flight_le : flight s.send_window ≤ W
  window_le : s.receive_window_size ≤ W
  one_le : 1 ≤ W
  timer_iff : s.timer.active = true ↔ s.send_window ≠ []

/-- The shape of the outstanding queue: its segments follow each other in
sequence space and the last one ends at `next_seqno`. -/
structure Ordered (s : TCPSender) : Prop where
  isn_lt : s.isn < SEQ_MOD
  flight_le_next : flight s.send_window ≤ s.next_seqno
  chained : Chained s.isn (s.next_seqno - flight s.send_window) s.send_window

/-- The absolute sequence number `ack_received` computes for a segment of the
outstanding queue. -/
def abs_start (s : TCPSender) (seg : TCPSegment) : Nat := unwrap seg.seqno s.isn s.next_seqno

end TCPSender

namespace TCPSender

/-- What `fill_window` leaves in `s'` when it emitted the segments `new` from
`s` into a window with `room` sequence numbers left: the segments are appended
to `_segments_out` and to the outstanding queue, they fit the room and follow
each other from the old `next_seqno` on, `next_seqno` moved to their end, the
timer was started with the initial timeout if it was not running, and nothing
else but the stream changed. -/
structure Filled (s : TCPSender) (room : Nat) (s' : TCPSender) (new : List TCPSegment) :
    Prop where
  same : new = [] → s' = s
  isn_eq : s'.isn = s.isn
  window_eq : s'.receive_window_size = s.receive_window_size
  rto_eq : s'.initial_retransmission_timeout = s.initial_retransmission_timeout
  cnt_eq : s'.consecutive_retransmissions_cnt = s.consecutive_retransmissions_cnt
  queue_eq : s'.send_window = s.send_window ++ new
  out_eq : s'.segments_out = s.segments_out ++ new
  next_eq : s'.next_seqno = s.next_seqno + flight new
  timer_eq : new ≠ [] →
    s'.timer = if s.timer.active = true then s.timer
      else Timer.start s.timer s.initial_retransmission_timeout
  stream_inv : ByteStream.Inv s'.stream
  fits : Fits room new
  chained : Chained s.isn s.next_seqno new

end TCPSender

namespace TCPSender

/-- The specification's removal, step 3 of `ack_received` in section 4.5, in
the spec's words and not taken from the code: while the ack fully covers the
absolute span of the head of the outstanding queue, remove the head. -/
def remove_covered_heads (isn next_seqno abs_ack : Nat) : List TCPSegment → List TCPSegment
  | [] => []
  | seg :: rest =>
    if unwrap seg.seqno isn next_seqno + seg.length_in_sequence_space ≤ abs_ack then
      remove_covered_heads isn next_seqno abs_ack rest
    else seg :: rest

/-- The specification's `ack_received`: the five steps of section 4.5, in the
spec's words and not taken from the code, to be compared with `ack_received`,
which embeds the code:
store the window; ignore an ack beyond `next_seqno`; remove the fully covered
heads of the outstanding queue; if at least one segment was removed, reset the
counter and restart the timer at the initial timeout when segments are still
outstanding, stop it otherwise; call `fill_window`. -/
def ack_received_by_steps (s : TCPSender) (ackno window_size : Nat) : Option TCPSender :=
  let s1 := { s with receive_window_size := window_size }
  let abs_ack := unwrap ackno s1.isn s1.next_seqno
  if abs_ack > s1.next_seqno then some s1
  else
    let outstanding := remove_covered_heads s1.isn s1.next_seqno abs_ack s1.send_window
    let s3 := { s1 with send_window := outstanding }
    let s4 :=
      if outstanding.length < s1.send_window.length then
        { s3 with
            consecutive_retransmissions_cnt := 0,
            timer :=
              if outstanding ≠ [] then Timer.start s3.timer s3.initial_retransmission_timeout
              else Timer.reset s3.timer }
      else s3
    s4.fill_window

end TCPSender

namespace TCPSender

/-- The calls of the scenario behind `scenario_abc_outstanding`, on a sender of
capacity 8 with initial sequence number 0 and a timeout of 1000. -/
def scenario_abc_calls : List Op :=
  [.write ['a', 'b', 'c', 'd', 'e', 'f'], .fill_window, .ack_received 1 3]

/-- The sender after `scenario_abc_calls`: the SYN is acknowledged, the segment
`"abc"` at sequence number 1 is outstanding in a window of 3, `"def"` waits in
the stream. -/
def scenario_abc_outstanding : TCPSender :=
  { isn := 0, send_window := [TCPSegment.mk 1 false false false ['a', 'b', 'c']],
    receive_window_size := 3, initial_retransmission_timeout := 1000,
    timer := Timer.mk true 1000 1000,
    stream := ByteStream.mk ['d', 'e', 'f'] 8 3 6 false,
    consecutive_retransmissions_cnt := 0, next_seqno := 4,
    segments_out := [TCPSegment.mk 0 true false false [],
      TCPSegment.mk 1 false false false ['a', 'b', 'c']] }

end TCPSender

namespace TCPSender

end TCPSender

namespace ByteStream

/-- The history of a sequence of calls on a stream, each part concatenated in
call order: the accepted prefixes of all writes, the bytes that `pop_output` and
`read` removed from the buffer, and the bytes that `read` returned. -/
structure Log where
  accepted : List Char
  removed : List Char
  returned : List Char
  deriving DecidableEq

/-- One call on a stream, with the history kept: `write` accepts the first
`bytes_to_write` bytes of `data`, `pop_output` removes the first `bytes_to_pop`
bytes of the buffer, `read` removes and returns what it returns. -/
def step_log (s : ByteStream) (l : Log) : Call → Option (ByteStream × Log)
  | .write data =>
    some ((s.write data).1, { l with accepted := l.accepted ++ data.take (s.write data).2 })
  | .peek_output len => (s.peek_output len).map fun _ => (s, l)
  | .pop_output len =>
    (s.pop_output len).map fun s' =>
      (s', { l with removed := l.removed ++ s.stream.take (min len s.stream.length) })
  | .read len =>
    (s.read len).map fun p =>
      (p.2, { l with removed := l.removed ++ p.1, returned := l.returned ++ p.1 })
  | .end_input => some (s.end_input, l)

/-- A sequence of calls, left to right, with the history kept. -/
def run_log (s : ByteStream) (l : Log) : List Call → Option (ByteStream × Log)
  | [] => some (s, l)
  | c :: cs => (s.step_log l c).bind fun p => run_log p.1 p.2 cs

/-- No call of the sequence is a `pop_output`. -/
def NoPop (calls : List Call) : Prop := ∀ c ∈ calls, ∀ len, c ≠ Call.pop_output len

/-- The first-in first-out invariant: the buffer is the accepted bytes without
the first `bytes_read`, which are the removed ones. -/
def Fifo (s : ByteStream) (l : Log) : Prop :=
  Inv s ∧ s.stream = l.accepted.drop s.bytes_popped ∧ l.accepted.length = s.bytes_pushed ∧
  l.removed = l.accepted.take s.bytes_popped

end ByteStream

namespace StreamReassembler

end StreamReassembler

namespace StreamReassembler

/-- An operation on a stream that ends at index `N`: a pushed substring that
carries the eof flag ends at `N`. -/
def Op.EndsAt (N : Nat) : Op → Prop
  | .push data index eof => eof = true → index + data.length = N
  | .read _ => True

/-- An operation that keeps the index arithmetic of a reassembler of capacity
`capacity` inside `size_t`: the end index of a pushed substring plus the
capacity is below `2 ^ 64`, so that neither `index + |data|` nor
`bytes_read + capacity` wraps around. -/
def Op.NoWrap (capacity : Nat) : Op → Prop
  | .push data index _ => index + data.length + capacity < SIZE_MOD
  | .read _ => True

instance (N : Nat) (op : Op) : Decidable (op.EndsAt N) := by
  cases op <;> unfold Op.EndsAt <;> infer_instance

instance (capacity : Nat) (op : Op) : Decidable (op.NoWrap capacity) := by
  cases op <;> unfold Op.NoWrap <;> infer_instance

/-- The invariant behind the drain loop leaving no committable byte: the
window bounds, no index near `2 ^ 64`, one end index `N` for the stream, and a
byte waiting at `bytes_written` only behind the recorded end of the stream. -/
structure DInv (capacity N : Nat) (r : StreamReassembler) : Prop where
  winv : WInv r
  capacity_eq : r.capacity = capacity
  pushed_lt : r.output.bytes_pushed + capacity < SIZE_MOD
  keys_lt : ∀ k, r.receving_window.find k ≠ none → k + 1 + capacity < SIZE_MOD
  eof_at : r.eof = true → r.eof_idx = N
  drained : r.receving_window.find r.output.bytes_pushed ≠ none →
    r.eof = true ∧ r.eof_idx = r.output.bytes_pushed

end StreamReassembler

namespace TCPSender

/-- The segments that a call placed in the outstanding queue: `send_segment`,
the only place that pushes onto `_send_window`, pushes the same segment onto
`_segments_out`, and `fill_window` and `ack_received` push nothing else onto
`_segments_out`; `tick` and `send_empty_segment` place nothing in the queue. -/
def placed_by (s : TCPSender) (op : Op) (s' : TCPSender) : List TCPSegment :=
  match op with
  | .fill_window => s'.segments_out.drop s.segments_out.length
  | .ack_received _ _ => s'.segments_out.drop s.segments_out.length
  | _ => []

/-- A sequence of operations, left to right, with all the segments ever placed
in the outstanding queue, in order. -/
def run_placed (s : TCPSender) (placed : List TCPSegment) :
    List Op → Option (TCPSender × List TCPSegment)
  | [] => some (s, placed)
  | op :: ops => (s.step op).bind fun s' => run_placed s' (placed ++ placed_by s op s') ops

/-- The segments of a queue follow each other in absolute sequence space from
`start` on, each at least one sequence number long, and end at `next_seqno`. -/
def Abutting (s : TCPSender) : Nat → List TCPSegment → Prop
  | start, [] => start = s.next_seqno
  | start, seg :: rest =>
    s.abs_start seg = start ∧ 1 ≤ seg.length_in_sequence_space ∧
    Abutting s (start + seg.length_in_sequence_space) rest

end TCPSender

namespace TCPSender

/-- A FIN has been sent: a segment pushed onto `_segments_out` carries `fin`. -/
def fin_sent (s : TCPSender) : Bool := s.segments_out.any fun seg => seg.fin

/-- A write to the outbound stream. -/
def Op.isWrite : Op → Bool
  | .write _ => true
  | _ => false

/-- No write to the outbound stream follows the end of its input. -/
def quiet_after_end : List Op → Bool
  | [] => true
  | .end_input :: ops => ops.all fun op => !op.isWrite
  | _ :: ops => quiet_after_end ops

/-- The `syn` flag that `send_segment` sets. -/
def seg_syn (s : TCPSender) (remaining_recv_window_sz : Nat) : Bool :=
  decide (s.state = .CLOSED) && decide (remaining_recv_window_sz ≥ 1)

/-- The `payload_sz` that `send_segment` computes. -/
def seg_size (s : TCPSender) (remaining_recv_window_sz : Nat) : Nat :=
  min TCPConfig.MAX_PAYLOAD_SIZE
    (min (wsub remaining_recv_window_sz (if s.seg_syn remaining_recv_window_sz then 1 else 0))
      s.stream.buffer_size)

/-- The stream after `send_segment` has read the payload. -/
def seg_stream (s : TCPSender) (remaining_recv_window_sz : Nat) : ByteStream :=
  { s.stream with
    bytes_popped := s.stream.bytes_popped + s.seg_size remaining_recv_window_sz
    stream := s.stream.stream.drop (s.seg_size remaining_recv_window_sz) }

/-- The `fin` flag that `send_segment` sets. -/
def seg_fin (s : TCPSender) (remaining_recv_window_sz : Nat) : Bool :=
  decide (({ s with stream := s.seg_stream remaining_recv_window_sz } : TCPSender).state
      = .SYN_ACKED_2) &&
    decide (remaining_recv_window_sz
      > s.seg_size remaining_recv_window_sz
        + (if s.seg_syn remaining_recv_window_sz then 1 else 0))

/-- The segment that `send_segment` builds. -/
def seg_built (s : TCPSender) (remaining_recv_window_sz : Nat) : TCPSegment :=
  TCPSegment.mk (wrap s.next_seqno s.isn) (s.seg_syn remaining_recv_window_sz)
    (s.seg_fin remaining_recv_window_sz) false
    (s.stream.stream.take (s.seg_size remaining_recv_window_sz))

/-- The sender after a round of the loop of `fill_window` that sent the segment
built by `send_segment`: payload read, segment pushed onto both queues, timer
started if it was not running, `next_seqno` advanced. -/
def after_segment (s : TCPSender) (remaining_recv_window_sz : Nat) : TCPSender :=
  { s with
    stream := s.seg_stream remaining_recv_window_sz
    segments_out := s.segments_out ++ [s.seg_built remaining_recv_window_sz]
    send_window := s.send_window ++ [s.seg_built remaining_recv_window_sz]
    timer :=
      if s.timer.active = false then Timer.start s.timer.reset s.initial_retransmission_timeout
      else s.timer
    next_seqno :=
      s.next_seqno + (s.seg_built remaining_recv_window_sz).length_in_sequence_space }

/-- The sequence-number accounting of a sender whose stream is not written
after its input ended: `next_seqno` counts the SYN, the bytes read from the
stream and the FIN; once the FIN is sent the stream is at EOF; the outstanding
segments are among the segments sent and not longer than `next_seqno`. -/
structure Acct (s : TCPSender) : Prop where
  seqno : s.next_seqno
    = (if s.next_seqno = 0 then 0 else 1) + s.stream.bytes_popped
      + (if s.fin_sent = true then 1 else 0)
  fin_eof : s.fin_sent = true → s.stream.end_ = true ∧ s.stream.stream = []
  flight_le : flight s.send_window ≤ s.next_seqno
  queue_sub : ∀ seg ∈ s.send_window, seg ∈ s.segments_out
  stream_inv : ByteStream.Inv s.stream

/-- What `fill_window` did to the stream and which segments carry `fin`, when
it emitted the segments `new` from `s` into a window with `room` sequence
numbers left and returned `s'`. -/
structure Sent (s : TCPSender) (room : Nat) (s' : TCPSender) (new : List TCPSegment) :
    Prop where
  same : new = [] → s' = s
  out_eq : s'.segments_out = s.segments_out ++ new
  queue_eq : s'.send_window = s.send_window ++ new
  next_eq : s'.next_seqno = s.next_seqno + flight new
  isn_eq : s'.isn = s.isn
  end_eq : s'.stream.end_ = s.stream.end_
  pushed_eq : s'.stream.bytes_pushed = s.stream.bytes_pushed
  consumed : s.stream.stream = (new.map TCPSegment.payload).flatten ++ s'.stream.stream
  popped_eq : s'.stream.bytes_popped
    = s.stream.bytes_popped + ((new.map TCPSegment.payload).flatten).length
  acct : Acct s'
  fin_rule : ∀ before seg after, new = before ++ seg :: after → seg.fin = true →
    after = [] ∧ s.next_seqno ≠ flight s.send_window ∧ s'.stream.eof = true ∧
    s.fin_sent = false ∧ (∀ x ∈ before, x.fin = false) ∧
    seg.payload.length < room - flight before

end TCPSender

namespace TCPSender

/-- A SYN has been sent: a segment pushed onto `_segments_out` carries `syn`. -/
def syn_sent (s : TCPSender) : Bool := s.segments_out.any fun seg => seg.syn

/-- The bytes of a list of segments, in order. -/
def payloads (q : List TCPSegment) : List Char := (q.map TCPSegment.payload).flatten

/-- The bytes that a call appended to the outbound stream: the part of `data`
that `write` accepted. -/
def accepted_by (s : TCPSender) : Op → List Char
  | .write data => data.take (s.stream.write data).2
  | _ => []

/-- What a run has seen: the segments placed in the outstanding queue, in the
order of their emission, and the bytes that the outbound stream accepted, in
the order of the writes. -/
structure Trace where
  placed : List TCPSegment
  accepted : List Char
  deriving DecidableEq

/-- A sequence of operations, left to right, with the trace of the segments
placed and the bytes accepted. -/
def run_traced (s : TCPSender) (t : Trace) : List Op → Option (TCPSender × Trace)
  | [] => some (s, t)
  | op :: ops =>
    (s.step op).bind fun s' =>
      run_traced s'
        { placed := t.placed ++ placed_by s op s', accepted := t.accepted ++ accepted_by s op }
        ops

/-- What a call of `fill_window` or `ack_received` that took `s` to `s1` did
when it emitted the segments `new`: they are stamped from the old `next_seqno`
on, `next_seqno` moved to their end, their payloads are the bytes the call
read off the front of the stream, and the outstanding queue is the old one,
less what an acknowledgement removed, followed by them. -/
structure Emitted (s s1 : TCPSender) (new : List TCPSegment) : Prop where
  out_eq : s1.segments_out = s.segments_out ++ new
  isn_eq : s1.isn = s.isn
  next_eq : s1.next_seqno = s.next_seqno + flight new
  chained : Chained s.isn s.next_seqno new
  consumed : s.stream.stream = payloads new ++ s1.stream.stream
  popped_eq : s1.stream.bytes_popped = s.stream.bytes_popped + (payloads new).length
  queue_sub : ∀ seg ∈ s1.send_window, seg ∈ s.send_window ∨ seg ∈ new
  syn_iff : (s.syn_sent = true ↔ s.next_seqno ≠ 0) → (s1.syn_sent = true ↔ s1.next_seqno ≠ 0)

/-- The trace of a run agrees with the sender: a SYN has been sent exactly when
`next_seqno` has left 0, the outstanding segments are among the segments sent,
the segments placed follow each other in sequence space from 0 to
`next_seqno`, and the bytes accepted are the payloads placed followed by the
bytes still buffered. -/
structure Traced (s : TCPSender) (t : Trace) : Prop where
  syn_iff : s.syn_sent = true ↔ s.next_seqno ≠ 0
  queue_sub : ∀ seg ∈ s.send_window, seg ∈ s.segments_out
  chained : Chained s.isn 0 t.placed
  next_eq : s.next_seqno = flight t.placed
  accepted_eq : t.accepted = payloads t.placed ++ s.stream.stream
  popped_eq : s.stream.bytes_popped = (payloads t.placed).length

/-- The number of segments of a list that carry `syn`. -/
def syn_count (q : List TCPSegment) : Nat := q.countP fun seg => seg.syn

/-- The number of segments of a list that carry `fin`. -/
def fin_count (q : List TCPSegment) : Nat := q.countP fun seg => seg.fin

end TCPSender

namespace TCPSender

end TCPSender

/-! ## Properties of ByteStream -/

namespace ByteStream

theorem wsub_of_le {a b : Nat} (h : b ≤ a) : wsub a b = a - b := by
  simp [wsub, h]

theorem inv_init (capacity : Nat) : Inv (init capacity) := by
  simp [Inv, init]

theorem inv_write {s : ByteStream} (h : Inv s) (data : List Char) : Inv (s.write data).1 := by
  obtain ⟨h1, h2⟩ := h
  simp only [Inv, write, wsub_of_le h2, List.length_append, List.length_take]
  omega

theorem inv_end_input {s : ByteStream} (h : Inv s) : Inv s.end_input := h

theorem inv_pop_output {s s' : ByteStream} (h : Inv s) {len : Nat}
    (hp : s.pop_output len = some s') : Inv s' := by
  obtain ⟨h1, h2⟩ := h
  simp only [pop_output, h2, if_true, Option.some.injEq] at hp
  subst hp
  simp only [Inv, List.length_drop]
  omega

theorem read_eq {s : ByteStream} (h : s.stream.length ≤ s.capacity) (len : Nat) :
    s.read len = some (s.stream.take (min len s.stream.length),
      { s with bytes_popped := s.bytes_popped + min len s.stream.length,
               stream := s.stream.drop (min len s.stream.length) }) := by
  simp [read, peek_output, pop_output, h]

theorem inv_read {s : ByteStream} (h : Inv s) {len : Nat} {p : List Char × ByteStream}
    (hp : s.read len = some p) : Inv p.2 := by
  obtain ⟨h1, h2⟩ := h
  rw [read_eq h2] at hp
  simp only [Option.some.injEq] at hp
  subst hp
  simp only [Inv, List.length_drop]
  omega

theorem step_some {s : ByteStream} (h : Inv s) (c : Call) :
    ∃ s', s.step c = some s' ∧ Inv s' ∧ s'.capacity = s.capacity := by
  cases c with
  | write data => exact ⟨_, rfl, inv_write h data, rfl⟩
  | peek_output len =>
    refine ⟨s, ?_, h, rfl⟩
    simp [step, peek_output, h.2]
  | pop_output len =>
    have e : s.pop_output len
        = some { s with bytes_popped := s.bytes_popped + min len s.stream.length,
                        stream := s.stream.drop (min len s.stream.length) } := by
      simp only [pop_output, h.2, if_true]
    exact ⟨_, e, inv_pop_output h e, rfl⟩
  | read len =>
    have e := read_eq h.2 len
    refine ⟨_, ?_, inv_read h e, rfl⟩
    simp [step, e]
  | end_input => exact ⟨_, rfl, inv_end_input h, rfl⟩

theorem run_some {s : ByteStream} (h : Inv s) (calls : List Call) :
    ∃ s', s.run calls = some s' ∧ Inv s' ∧ s'.capacity = s.capacity := by
  induction calls generalizing s with
  | nil => exact ⟨s, rfl, h, rfl⟩
  | cons c cs ih =>
    obtain ⟨s1, e1, h1, c1⟩ := step_some h c
    obtain ⟨s2, e2, h2, c2⟩ := ih h1
    exact ⟨s2, by simp [run, e1, e2], h2, c2.trans c1⟩

end ByteStream

/-- C1. `write(data)` on a stream whose buffer fits its capacity appends the
first `min(|data|, capacity - buffer_size)` bytes of `data` to the back of the
buffer, returns that number, adds it to `bytes_written`, and leaves
`bytes_read` and `input_ended` as they were. -/
theorem ByteStream.write_accepts_capacity_bounded_start (s : ByteStream) (data : List Char)
    (h : s.buffer_size ≤ s.capacity) :
    (s.write data).2 = min data.length (s.capacity - s.buffer_size) ∧
    (s.write data).1.stream
      = s.stream ++ data.take (min data.length (s.capacity - s.buffer_size)) ∧
    (s.write data).1.bytes_written
      = s.bytes_written + min data.length (s.capacity - s.buffer_size) ∧
    (s.write data).1.bytes_read = s.bytes_read ∧
    (s.write data).1.input_ended = s.input_ended := by
  have h' : s.stream.length ≤ s.capacity := h
  simp [write, buffer_size, bytes_written, bytes_read, input_ended, wsub_of_le h']

/-- Witness of C1: a stream of capacity 4 holding "ab" is offered "xyz". -/
theorem ByteStream.write_accepts_capacity_bounded_start_witness :
    (⟨['a', 'b'], 4, 0, 2, false⟩ : ByteStream).buffer_size ≤ 4 ∧
    ((⟨['a', 'b'], 4, 0, 2, false⟩ : ByteStream).write ['x', 'y', 'z']).2 = 2 ∧
    ((⟨['a', 'b'], 4, 0, 2, false⟩ : ByteStream).write ['x', 'y', 'z']).1.stream
      = ['a', 'b', 'x', 'y'] :=
  ⟨by decide,
   (ByteStream.write_accepts_capacity_bounded_start ⟨['a', 'b'], 4, 0, 2, false⟩
      ['x', 'y', 'z'] (by decide)).1,
   (ByteStream.write_accepts_capacity_bounded_start ⟨['a', 'b'], 4, 0, 2, false⟩
      ['x', 'y', 'z'] (by decide)).2.1⟩

/-- C2 fails: on an empty stream of capacity 4 whose input has ended,
`write("a")` returns 1 and the byte enters the buffer. -/
theorem ByteStream.write_after_end_input_not_noop :
    (ByteStream.init 4).end_input.input_ended = true ∧
    ((ByteStream.init 4).end_input.write ['a']).2 = 1 ∧
    ((ByteStream.init 4).end_input.write ['a']).1.stream = ['a'] ∧
    ((ByteStream.init 4).end_input.write ['a']).1.bytes_written = 1 ∧
    ¬ (((ByteStream.init 4).end_input.write ['a']).2 = 0 ∧
       ((ByteStream.init 4).end_input.write ['a']).1.stream
         = (ByteStream.init 4).end_input.stream ∧
       ((ByteStream.init 4).end_input.write ['a']).1.bytes_written
         = (ByteStream.init 4).end_input.bytes_written) := by
  decide

/-- C2 as amended. `write` does not look at `input_ended`: once `end_input` has
been called, `write(data)` still accepts and returns
`min(|data|, capacity - buffer_size)` bytes, as it would have before the call,
and the flag stays set; it returns 0 and leaves the stream as it was exactly
when `data` is empty or the buffer is full. -/
theorem ByteStream.write_after_end_input (s : ByteStream) (data : List Char)
    (h : s.buffer_size ≤ s.capacity) :
    (s.end_input.write data).2 = min data.length (s.capacity - s.buffer_size) ∧
    (s.end_input.write data).2 = (s.write data).2 ∧
    (s.end_input.write data).1 = (s.write data).1.end_input ∧
    (s.end_input.write data).1.input_ended = true ∧
    ((s.end_input.write data).2 = 0 ↔ data = [] ∨ s.buffer_size = s.capacity) ∧
    ((s.end_input.write data).2 = 0 → (s.end_input.write data).1 = s.end_input) := by
  have h' : s.stream.length ≤ s.capacity := h
  refine ⟨?_, ?_, ?_, ?_, ?_, ?_⟩
  · simp [write, end_input, buffer_size, wsub_of_le h']
  · simp [write, end_input]
  · simp [write, end_input]
  · simp [write, end_input, input_ended]
  · simp only [write, end_input, buffer_size, wsub_of_le h']
    constructor
    · intro h0
      rcases Nat.eq_zero_or_pos data.length with hl | hl
      · exact Or.inl (List.length_eq_zero.mp hl)
      · right
        have : min data.length (s.capacity - s.stream.length) = 0 := h0
        omega
    · rintro (rfl | hfull)
      · simp
      · simp [hfull]
  · simp only [write, end_input, wsub_of_le h']
    intro h0
    simp [h0]

/-- Witness of the amended C2: a full stream of capacity 2 after `end_input`. -/
theorem ByteStream.write_after_end_input_witness :
    (⟨['a', 'b'], 2, 0, 2, false⟩ : ByteStream).buffer_size ≤ 2 ∧
    ((⟨['a', 'b'], 2, 0, 2, false⟩ : ByteStream).end_input.write ['x']).2 = 0 :=
  ⟨by decide,
   ((ByteStream.write_after_end_input ⟨['a', 'b'], 2, 0, 2, false⟩ ['x']
      (by decide)).2.2.2.2.1).mpr (Or.inr (by decide))⟩

/-- C3. Every sequence of `write`, `peek_output`, `pop_output`, `read` and
`end_input` calls on `ByteStream(capacity)` runs to the end with no `assert`
failing, and the stream it reaches has
`bytes_written = bytes_read + buffer_size` and `buffer_size ≤ capacity`, so
that `remaining_capacity` is `capacity - buffer_size` without underflow and the
asserts of `peek_output`, `pop_output` and `read` pass on it. -/
theorem ByteStream.conservation (capacity : Nat) (calls : List ByteStream.Call) :
    ∃ s, (ByteStream.init capacity).run calls = some s ∧
      s.bytes_written = s.bytes_read + s.buffer_size ∧
      s.buffer_size ≤ capacity ∧
      s.remaining_capacity + s.buffer_size = capacity ∧
      ∀ len, (s.peek_output len).isSome = true ∧ (s.pop_output len).isSome = true ∧
        (s.read len).isSome = true := by
  obtain ⟨s, e, ⟨h1, h2⟩, hc⟩ := ByteStream.run_some (ByteStream.inv_init capacity) calls
  have hc' : s.capacity = capacity := hc
  refine ⟨s, e, h1, hc' ▸ h2, ?_, fun len => ?_⟩
  · simp only [remaining_capacity, buffer_size, wsub_of_le h2]
    omega
  · simp [peek_output, pop_output, read, h2]

/-- C4. On every stream reached from the constructor, `read(len)` returns what
`peek_output(len)` returns, the first `min(len, buffer_size)` buffered bytes,
and leaves the stream `pop_output(len)` leaves: those bytes gone from the
front, the rest in order, `bytes_read` larger by that number, `bytes_written`
and `input_ended` as before; `peek_output` changes nothing. -/
theorem ByteStream.read_is_peek_then_pop (capacity : Nat) (calls : List ByteStream.Call)
    (s : ByteStream) (hs : (ByteStream.init capacity).run calls = some s) (len : Nat) :
    ∃ s', s.peek_output len = some (s.stream.take (min len s.buffer_size)) ∧
      s.pop_output len = some s' ∧
      s.read len = some (s.stream.take (min len s.buffer_size), s') ∧
      s.stream = s.stream.take (min len s.buffer_size) ++ s'.stream ∧
      s'.bytes_read = s.bytes_read + min len s.buffer_size ∧
      s'.bytes_written = s.bytes_written ∧
      s'.input_ended = s.input_ended ∧
      s.step (.peek_output len) = some s := by
  obtain ⟨s0, e, ⟨_, h2⟩, _⟩ := ByteStream.run_some (ByteStream.inv_init capacity) calls
  rw [hs] at e
  cases e
  refine ⟨_, ?_, ?_, read_eq h2 len, ?_, rfl, rfl, rfl, ?_⟩
  · simp [peek_output, h2, buffer_size]
  · simp [pop_output, h2, buffer_size]
  · simp [buffer_size]
  · simp [step, peek_output, h2]

/-- Witness of C4: the stream reached by writing "Hello" at capacity 4. -/
theorem ByteStream.read_is_peek_then_pop_witness :
    (ByteStream.init 4).run [.write ['H', 'e', 'l', 'l', 'o']]
      = some ⟨['H', 'e', 'l', 'l'], 4, 0, 4, false⟩ ∧
    ∃ s', (⟨['H', 'e', 'l', 'l'], 4, 0, 4, false⟩ : ByteStream).peek_output 3
        = some ((['H', 'e', 'l', 'l'] : List Char).take
            (min 3 (⟨['H', 'e', 'l', 'l'], 4, 0, 4, false⟩ : ByteStream).buffer_size)) ∧
      (⟨['H', 'e', 'l', 'l'], 4, 0, 4, false⟩ : ByteStream).pop_output 3 = some s' :=
  ⟨by decide,
   (ByteStream.read_is_peek_then_pop 4 [.write ['H', 'e', 'l', 'l', 'o']]
      ⟨['H', 'e', 'l', 'l'], 4, 0, 4, false⟩ (by decide) 3).imp
      fun _ h => ⟨h.1, h.2.1⟩⟩

/-- C5 fails: in scenario S3 the last `read(10)` does not return "llo!"; the
'o' of "Hello" never entered the stream of capacity 4. -/
theorem ByteStream.scenario_S3_read_is_not_llo :
    ByteStream.scenario_S3
      ≠ some (4, ['H', 'e', 'l'], 1, ['l', 'l', 'o', '!']) := by
  decide

/-- C5 as amended. In scenario S3 `write("Hello")` returns 4, `peek_output(3)`
returns "Hel", after `pop_output(2)` `write("!")` returns 1, and `read(10)`
returns "ll!". -/
theorem ByteStream.scenario_S3_results :
    ByteStream.scenario_S3 = some (4, ['H', 'e', 'l'], 1, ['l', 'l', '!']) := by
  decide

/-! ## Properties of the reassembly window -/

namespace Window

theorem find_assign (w : Window) (k j : Nat) (c : Char) :
    (w.assign k c).find j = if j = k then some c else w.find j := by
  induction w with
  | nil => simp [assign, find]
  | cons p w ih =>
    obtain ⟨k', c'⟩ := p
    by_cases hk : k = k'
    · subst hk
      simp only [assign, if_true, find]
      split <;> rfl
    · simp only [assign, hk, if_false, find, ih]
      by_cases hj : j = k'
      · subst hj
        simp [Ne.symm hk]
      · simp [hj]

theorem find_erase (w : Window) (k j : Nat) :
    (w.erase k).find j = if j = k then none else w.find j := by
  induction w with
  | nil => simp [erase, find]
  | cons p w ih =>
    obtain ⟨k', c'⟩ := p
    simp only [erase] at ih
    by_cases hk : k' = k
    · subst hk
      simp only [erase, List.filter_cons, bne_self_eq_false, Bool.false_eq_true, if_false, ih,
        find]
      by_cases hj : j = k' <;> simp [hj]
    · have hb : (k' != k) = true := by simpa using hk
      simp only [erase, List.filter_cons, hb, if_true, find, ih]
      by_cases hj : j = k'
      · subst hj
        simp [hk]
      · simp [hj]

theorem assign_eq_self {w : Window} {k : Nat} {c : Char} (h : w.find k = some c) :
    w.assign k c = w := by
  induction w with
  | nil => simp [find] at h
  | cons p w ih =>
    obtain ⟨k', c'⟩ := p
    by_cases hk : k = k'
    · subst hk
      simp only [find, if_true, Option.some.injEq] at h
      simp [assign, h]
    · simp only [find, hk, if_false] at h
      simp [assign, hk, ih h]

theorem length_erase_le (w : Window) (k : Nat) : (w.erase k).length ≤ w.length := by
  simp only [erase]
  exact List.length_filter_le _ _

theorem length_erase_lt {w : Window} {k : Nat} {c : Char} (h : w.find k = some c) :
    (w.erase k).length < w.length := by
  induction w with
  | nil => simp [find] at h
  | cons p w ih =>
    obtain ⟨k', c'⟩ := p
    by_cases hk : k = k'
    · subst hk
      have := length_erase_le w k
      simp only [erase] at this
      simp only [erase, List.filter_cons, bne_self_eq_false, Bool.false_eq_true, if_false,
        List.length_cons]
      omega
    · simp only [find, hk, if_false] at h
      have hb : (k' != k) = true := by simpa using Ne.symm hk
      have := ih h
      simp only [erase] at this
      simp only [erase, List.filter_cons, hb, if_true, List.length_cons]
      omega

theorem eq_nil_of_find_none (w : Window) (h : ∀ k, w.find k = none) : w = [] := by
  cases w with
  | nil => rfl
  | cons p w =>
    obtain ⟨k', c'⟩ := p
    have := h k'
    simp [find] at this

end Window

namespace StreamReassembler

theorem wadd_of_lt {a b : Nat} (h : a + b < SIZE_MOD) : wadd a b = a + b := by
  simp only [wadd]
  exact Nat.mod_eq_of_lt h

theorem wadd_le (a b : Nat) : wadd a b ≤ a + b := by
  simp only [wadd]
  exact Nat.mod_le _ _

theorem store_succ (w : Window) (base : Nat) (data : List Char) (start_idx len : Nat) :
    store w base data start_idx (len + 1)
      = (store w base data start_idx len).assign (wadd base len)
          (data.getD (len + start_idx) (Char.ofNat 0)) := by
  simp [store, List.range_succ, List.foldl_append]

theorem find_store (w : Window) (base : Nat) (data : List Char) (start_idx len j : Nat)
    (h : base + len ≤ SIZE_MOD) :
    (store w base data start_idx len).find j
      = if base ≤ j ∧ j < base + len then
          some (data.getD (j - base + start_idx) (Char.ofNat 0))
        else w.find j := by
  induction len with
  | zero =>
    have : ¬ (base ≤ j ∧ j < base + 0) := by omega
    rw [if_neg this]
    rfl
  | succ n ih =>
    have hw : wadd base n = base + n := wadd_of_lt (by omega)
    rw [store_succ, Window.find_assign, ih (by omega), hw]
    by_cases hj : j = base + n
    · subst hj
      have : base ≤ base + n ∧ base + n < base + (n + 1) := by omega
      simp [this]
    · simp only [hj, if_false]
      by_cases h1 : base ≤ j ∧ j < base + n
      · have : base ≤ j ∧ j < base + (n + 1) := by omega
        simp [h1, this]
      · have : ¬ (base ≤ j ∧ j < base + (n + 1)) := by omega
        simp [h1, this]

theorem store_eq_self (w : Window) (base : Nat) (data : List Char) (start_idx len : Nat)
    (h : ∀ i, i < len →
      w.find (wadd base i) = some (data.getD (i + start_idx) (Char.ofNat 0))) :
    store w base data start_idx len = w := by
  induction len with
  | zero => simp [store]
  | succ n ih =>
    rw [store_succ, ih (fun i hi => h i (by omega))]
    exact Window.assign_eq_self (h n (by omega))

theorem write_one {s : ByteStream} (h : s.stream.length < s.capacity) (c : Char) :
    (s.write [c]).1 = { s with bytes_pushed := s.bytes_pushed + 1, stream := s.stream ++ [c] } := by
  have h1 : min 1 (s.capacity - s.stream.length) = 1 := by omega
  simp [ByteStream.write, ByteStream.wsub_of_le (Nat.le_of_lt h), h1]

theorem drained_refl {A i : Nat} {r : StreamReassembler} (hinv : ByteStream.Inv r.output)
    (hi : i = r.output.bytes_pushed) (hs : Stable A r)
    (he : ¬ (r.output.bytes_pushed ≤ A ∧ r.output.bytes_pushed = r.eof_idx ∧ r.eof = true)) :
    Drained A i r r where
  capacity_eq := rfl
  first_unread_eq := rfl
  first_unassembled_eq := rfl
  eof_eq := rfl
  eof_idx_eq := rfl
  out_capacity_eq := rfl
  popped_eq := rfl
  out_inv := hinv
  start_le := by omega
  bound := Or.inr hi.symm
  written := ⟨[], by simp, by simp [hi], by simp⟩
  window := fun k => by
    have : ¬ (i ≤ k ∧ k < r.output.bytes_pushed) := by omega
    simp [this]
  size_le := Nat.le_refl _
  end_flag := by simp [he]
  stable := hs
  eof_bound := fun _ h => by omega

theorem drain_out {A i : Nat} (fuel : Nat) (r : StreamReassembler) (h1 : ¬ i ≤ A) :
    drain A (fuel + 1) i r = some r := by
  rw [drain, if_neg h1]

theorem drain_eof {A i : Nat} (fuel : Nat) {r : StreamReassembler} (h1 : i ≤ A)
    (h2 : i = r.eof_idx ∧ r.eof = true) :
    drain A (fuel + 1) i r = some { r with output := r.output.end_input } := by
  rw [drain, if_pos h1, if_pos h2]

theorem drain_end {A i : Nat} (fuel : Nat) {r : StreamReassembler} (h1 : i ≤ A)
    (h2 : ¬ (i = r.eof_idx ∧ r.eof = true)) (h3 : i = A) :
    drain A (fuel + 1) i r = some r := by
  rw [drain, if_pos h1, if_neg h2, if_pos h3]

theorem drain_gap {A i : Nat} (fuel : Nat) {r : StreamReassembler} (h1 : i ≤ A)
    (h2 : ¬ (i = r.eof_idx ∧ r.eof = true)) (h3 : ¬ i = A)
    (h4 : r.receving_window.find i = none) :
    drain A (fuel + 1) i r = some r := by
  rw [drain, if_pos h1, if_neg h2, if_neg h3]
  simp only [h4]

theorem drain_step {A i : Nat} (fuel : Nat) {r : StreamReassembler} {c : Char} (h1 : i ≤ A)
    (h2 : ¬ (i = r.eof_idx ∧ r.eof = true)) (h3 : ¬ i = A)
    (h4 : r.receving_window.find i = some c) :
    drain A (fuel + 1) i r
      = drain A fuel (i + 1)
          { r with output := (r.output.write [c]).1,
                   receving_window := r.receving_window.erase i } := by
  rw [drain, if_pos h1, if_neg h2, if_neg h3]
  simp only [h4]

theorem drain_spec (A : Nat) (fuel : Nat) :
    ∀ (i : Nat) (r : StreamReassembler), ByteStream.Inv r.output →
      i = r.output.bytes_pushed → A ≤ r.output.bytes_popped + r.output.capacity →
      r.receving_window.length < fuel →
      ∃ r', drain A fuel i r = some r' ∧ Drained A i r r' := by
  induction fuel with
  | zero => intro i r _ _ _ hf; omega
  | succ fuel ih =>
    intro i r hinv hi hA hf
    by_cases h1 : i ≤ A
    · by_cases h2 : i = r.eof_idx ∧ r.eof = true
      · refine ⟨{ r with output := r.output.end_input }, drain_eof fuel h1 h2, ?_⟩
        exact
          { capacity_eq := rfl, first_unread_eq := rfl, first_unassembled_eq := rfl,
            eof_eq := rfl, eof_idx_eq := rfl, out_capacity_eq := rfl, popped_eq := rfl,
            out_inv := ByteStream.inv_end_input hinv,
            start_le := by simp only [ByteStream.end_input]; omega,
            bound := Or.inr (by simp only [ByteStream.end_input]; omega),
            written := ⟨[], by simp [ByteStream.end_input],
              by simp [ByteStream.end_input, hi], by simp⟩,
            window := fun k => by
              have : ¬ (i ≤ k ∧ k < r.output.bytes_pushed) := by omega
              simp [ByteStream.end_input, this],
            size_le := Nat.le_refl _,
            end_flag := by
              have h3 : r.output.bytes_pushed ≤ A := by omega
              have h4 : r.output.bytes_pushed = r.eof_idx := by omega
              have h5 : r.eof_idx ≤ A := by omega
              simp [ByteStream.end_input, h4, h5, h2.2],
            stable := Or.inr (Or.inl ⟨by simp only [ByteStream.end_input]; omega, h2.2⟩),
            eof_bound := fun _ h => by simp only [ByteStream.end_input]; omega }
      · by_cases h3 : i = A
        · refine ⟨r, drain_end fuel h1 h2 h3, ?_⟩
          refine drained_refl hinv hi (Or.inr (Or.inr (Or.inl (by omega)))) ?_
          rintro ⟨_, h5, h6⟩
          exact h2 ⟨by omega, h6⟩
        · cases hfind : r.receving_window.find i with
          | none =>
            refine ⟨r, drain_gap fuel h1 h2 h3 hfind, ?_⟩
            refine drained_refl hinv hi (Or.inr (Or.inr (Or.inr (hi ▸ hfind)))) ?_
            rintro ⟨_, h5, h6⟩
            exact h2 ⟨by omega, h6⟩
          | some c =>
            obtain ⟨hp, hc⟩ := hinv
            have hlen : r.output.stream.length < r.output.capacity := by omega
            have hw := write_one hlen c
            have hinv2 : ByteStream.Inv (r.output.write [c]).1 := by
              rw [hw]
              simp only [ByteStream.Inv, List.length_append, List.length_singleton]
              omega
            have hlt := Window.length_erase_lt hfind
            obtain ⟨r', hr', hd⟩ := ih (i + 1)
              { r with output := (r.output.write [c]).1,
                       receving_window := r.receving_window.erase i }
              hinv2 (by rw [hw]; simp only; omega) (by rw [hw]; exact hA) (by simp only; omega)
            refine ⟨r', by rw [drain_step fuel h1 h2 h3 hfind, hr'], ?_⟩
            have hpush := hd.start_le
            obtain ⟨written, hw1, hw2, hw3⟩ := hd.written
            exact
              { capacity_eq := hd.capacity_eq, first_unread_eq := hd.first_unread_eq,
                first_unassembled_eq := hd.first_unassembled_eq, eof_eq := hd.eof_eq,
                eof_idx_eq := hd.eof_idx_eq,
                out_capacity_eq := by rw [hd.out_capacity_eq, hw],
                popped_eq := by rw [hd.popped_eq, hw],
                out_inv := hd.out_inv,
                start_le := by omega,
                bound := by
                  rcases hd.bound with hb | hb
                  · exact Or.inl hb
                  · left; omega,
                written := by
                  refine ⟨c :: written, ?_, ?_, ?_⟩
                  · rw [hw1, hw]; simp
                  · simp only [List.length_cons]; omega
                  · intro j hj
                    cases j with
                    | zero => simpa using hfind
                    | succ j =>
                      have := hw3 j (by simpa using hj)
                      simp only [Window.find_erase] at this
                      have hne : ¬ (i + 1 + j = i) := by omega
                      simp only [hne, if_false] at this
                      have e : i + (j + 1) = i + 1 + j := by omega
                      rw [e, this]
                      simp,
                window := fun k => by
                  rw [hd.window k]
                  simp only [Window.find_erase]
                  by_cases hk : k = i
                  · subst hk
                    have : k ≤ k ∧ k < r'.output.bytes_pushed := by omega
                    simp [this]
                  · by_cases hk2 : i + 1 ≤ k ∧ k < r'.output.bytes_pushed
                    · have : i ≤ k ∧ k < r'.output.bytes_pushed := by omega
                      simp [hk2, this]
                    · have : ¬ (i ≤ k ∧ k < r'.output.bytes_pushed) := by omega
                      simp [hk2, this, hk],
                size_le := by
                  have := hd.size_le
                  simp only at this
                  omega,
                end_flag := by
                  rw [hd.end_flag, hw],
                stable := hd.stable,
                eof_bound := fun he hle => hd.eof_bound he (by
                  have hne : i ≠ r.eof_idx := fun e => h2 ⟨e, he⟩
                  simp only
                  omega) }
    · refine ⟨r, drain_out fuel r h1, ?_⟩
      refine drained_refl hinv hi (Or.inl (by omega)) ?_
      rintro ⟨h4, _, _⟩
      omega

theorem finish_spec (r : StreamReassembler) (data : List Char) (index : Nat) (eof : Bool)
    (w1 : Window) (last_idx : Nat) (hinv : ByteStream.Inv r.output)
    (hcap : r.output.capacity = r.capacity) (hE : index + data.length < SIZE_MOD)
    (hlast : eof = true ∧ index + data.length ≤ wadd r.output.bytes_popped r.capacity →
      last_idx = index + data.length) :
    ∃ r3, finish { r with first_unread := r.output.bytes_popped,
                          first_unassembled := r.output.bytes_pushed,
                          receving_window := w1 } data index eof last_idx
        = some (refreshed r3) ∧
      Drained (wadd r.output.bytes_popped r.capacity) r.output.bytes_pushed
        (staged r data index eof w1) r3 := by
  have hstage :
      (if eof = true ∧ wadd index data.length
            ≤ ({ r with first_unread := r.output.bytes_popped,
                        first_unassembled := r.output.bytes_pushed,
                        receving_window := w1 } : StreamReassembler).first_unacceptable then
          { ({ r with first_unread := r.output.bytes_popped,
                      first_unassembled := r.output.bytes_pushed,
                      receving_window := w1 } : StreamReassembler) with
            eof := true, eof_idx := last_idx }
        else { r with first_unread := r.output.bytes_popped,
                      first_unassembled := r.output.bytes_pushed,
                      receving_window := w1 })
        = staged r data index eof w1 := by
    simp only [first_unacceptable, wadd_of_lt hE]
    by_cases hc : eof = true ∧ index + data.length ≤ wadd r.output.bytes_popped r.capacity
    · rw [if_pos hc]
      simp [staged, hc.1, hc.2, hlast hc]
    · rw [if_neg hc]
      simp only [staged, if_neg hc]
      have : (eof && decide (index + data.length ≤ wadd r.output.bytes_popped r.capacity))
          = false := by
        cases eof <;> simp at hc ⊢
        omega
      simp [this]
  obtain ⟨r3, h3, hd⟩ := drain_spec (wadd r.output.bytes_popped r.capacity)
    (w1.length + 1) r.output.bytes_pushed (staged r data index eof w1)
    (by simpa [staged] using hinv) (by simp [staged])
    (by simp only [staged]; rw [hcap]; exact wadd_le _ _) (by simp [staged])
  refine ⟨r3, ?_, hd⟩
  simp only [finish]
  rw [hstage]
  have e1 : (staged r data index eof w1).first_unacceptable
      = wadd r.output.bytes_popped r.capacity := by
    simp [staged, first_unacceptable]
  have e2 : (staged r data index eof w1).receving_window.size + 1 = w1.length + 1 := by
    simp [staged, Window.size]
  have e3 : (staged r data index eof w1).first_unassembled = r.output.bytes_pushed := by
    simp [staged]
  rw [e1, e2, e3, h3]
  rfl

theorem push_empty_no_eof (r : StreamReassembler) (index : Nat) :
    push_substring r [] index false = some r := by
  simp [push_substring]

theorem push_empty_eof (r : StreamReassembler) (index : Nat) :
    push_substring r [] index true
      = some { r with eof := true, eof_idx := index, output := r.output.end_input } := by
  simp [push_substring]

/-- The body of `push_substring` on a non-empty `data` whose end index does not wrap around,
with the cached counters and `first_unacceptable()` written out. -/
theorem push_nonempty (r : StreamReassembler) (data : List Char) (index : Nat) (eof : Bool)
    (hd : data ≠ []) (hE : index + data.length < SIZE_MOD) :
    push_substring r data index eof
      = (if index + data.length < r.output.bytes_pushed then some (refreshed r)
        else if index ≥ r.output.bytes_pushed ∧ index < wadd r.output.bytes_popped r.capacity then
          finish { r with first_unread := r.output.bytes_popped,
                          first_unassembled := r.output.bytes_pushed,
                          receving_window := store r.receving_window index data 0
                            (if wsub (index + data.length) 1
                                ≥ wadd r.output.bytes_popped r.capacity then
                              wsub (wadd r.output.bytes_popped r.capacity) index
                             else data.length) }
            data index eof
            (wadd index (if wsub (index + data.length) 1
                            ≥ wadd r.output.bytes_popped r.capacity then
                          wsub (wadd r.output.bytes_popped r.capacity) index
                         else data.length))
        else if index ≥ wadd r.output.bytes_popped r.capacity then some (refreshed r)
        else if index < r.output.bytes_pushed ∧ index + data.length ≥ r.output.bytes_pushed then
          if min (wsub (index + data.length) r.output.bytes_pushed)
                (wsub (wadd r.output.bytes_popped r.capacity) r.output.bytes_pushed)
              < data.length then
            finish { r with first_unread := r.output.bytes_popped,
                            first_unassembled := r.output.bytes_pushed,
                            receving_window := store r.receving_window r.output.bytes_pushed data
                              (wsub r.output.bytes_pushed index)
                              (min (wsub (index + data.length) r.output.bytes_pushed)
                                (wsub (wadd r.output.bytes_popped r.capacity)
                                  r.output.bytes_pushed)) }
              data index eof
              (wadd r.output.bytes_pushed
                (min (wsub (index + data.length) r.output.bytes_pushed)
                  (wsub (wadd r.output.bytes_popped r.capacity) r.output.bytes_pushed)))
          else none
        else some (refreshed r)) := by
  have hne : data.isEmpty = false := by
    cases data with
    | nil => exact absurd rfl hd
    | cons _ _ => rfl
  simp only [push_substring, hne, Bool.false_eq_true, false_and, if_false, first_unacceptable,
    wadd_of_lt hE, ByteStream.bytes_read, ByteStream.bytes_written, refreshed]

/-- What `push_substring` does with a non-empty `data` whose end index does not
wrap around: either the substring lies wholly outside the window and only the
cached counters are refreshed, or its accepted part is stored and the window is
drained. -/
theorem push_spec (r : StreamReassembler) (data : List Char) (index : Nat) (eof : Bool)
    (hinv : ByteStream.Inv r.output) (hcap : r.output.capacity = r.capacity)
    (hd : data ≠ []) (hE : index + data.length < SIZE_MOD) :
    ((index + data.length < r.output.bytes_pushed ∨
        wadd r.output.bytes_popped r.capacity ≤ index) ∧
      push_substring r data index eof = some (refreshed r)) ∨
    (r.output.bytes_pushed ≤ index + data.length ∧
      index < wadd r.output.bytes_popped r.capacity ∧
      ∃ w1 r3,
        (∀ k, Window.find w1 k
          = if Accepts r data index k then some (data.getD (k - index) (Char.ofNat 0))
            else r.receving_window.find k) ∧
        Drained (wadd r.output.bytes_popped r.capacity) r.output.bytes_pushed
          (staged r data index eof w1) r3 ∧
        push_substring r data index eof = some (refreshed r3)) := by
  have hlen : 0 < data.length := List.length_pos.mpr hd
  rw [push_nonempty r data index eof hd hE]
  by_cases c1 : index + data.length < r.output.bytes_pushed
  · exact Or.inl ⟨Or.inl c1, by rw [if_pos c1]⟩
  rw [if_neg c1]
  by_cases c2 : index ≥ r.output.bytes_pushed ∧ index < wadd r.output.bytes_popped r.capacity
  · rw [if_pos c2]
    right
    refine ⟨by omega, c2.2, ?_⟩
    have hlenv : (if wsub (index + data.length) 1 ≥ wadd r.output.bytes_popped r.capacity then
          wsub (wadd r.output.bytes_popped r.capacity) index
        else data.length)
        = if index + data.length - 1 ≥ wadd r.output.bytes_popped r.capacity then
            wadd r.output.bytes_popped r.capacity - index
          else data.length := by
      rw [ByteStream.wsub_of_le (by omega : 1 ≤ index + data.length),
        ByteStream.wsub_of_le (by omega : index ≤ wadd r.output.bytes_popped r.capacity)]
    rw [hlenv]
    obtain ⟨r3, h3, hdr⟩ := finish_spec r data index eof
      (store r.receving_window index data 0
        (if index + data.length - 1 ≥ wadd r.output.bytes_popped r.capacity then
            wadd r.output.bytes_popped r.capacity - index
          else data.length))
      (wadd index (if index + data.length - 1 ≥ wadd r.output.bytes_popped r.capacity then
            wadd r.output.bytes_popped r.capacity - index
          else data.length)) hinv hcap hE
      (by
        rintro ⟨_, h⟩
        rw [if_neg (by omega)]
        exact wadd_of_lt hE)
    refine ⟨_, r3, fun k => ?_, hdr, h3⟩
    rw [find_store _ _ _ _ _ _ (by split <;> omega)]
    simp only [Accepts, Nat.add_zero]
    by_cases hk : index + data.length - 1 ≥ wadd r.output.bytes_popped r.capacity
    · simp only [hk, if_true]
      congr 1
      apply propext
      constructor <;> intro h <;> omega
    · simp only [hk, if_false]
      congr 1
      apply propext
      constructor <;> intro h <;> omega
  rw [if_neg c2]
  by_cases c3 : index ≥ wadd r.output.bytes_popped r.capacity
  · exact Or.inl ⟨Or.inr c3, by rw [if_pos c3]⟩
  rw [if_neg c3]
  have c4 : index < r.output.bytes_pushed ∧ index + data.length ≥ r.output.bytes_pushed := by
    omega
  rw [if_pos c4]
  right
  refine ⟨by omega, by omega, ?_⟩
  have hs1 : wsub (index + data.length) r.output.bytes_pushed
      = index + data.length - r.output.bytes_pushed := ByteStream.wsub_of_le c4.2
  have hs2 : wsub r.output.bytes_pushed index = r.output.bytes_pushed - index :=
    ByteStream.wsub_of_le (by omega)
  rw [hs1, hs2]
  have hassert : min (index + data.length - r.output.bytes_pushed)
      (wsub (wadd r.output.bytes_popped r.capacity) r.output.bytes_pushed) < data.length := by
    omega
  rw [if_pos hassert]
  have hmin : r.output.bytes_pushed + min (index + data.length - r.output.bytes_pushed)
      (wsub (wadd r.output.bytes_popped r.capacity) r.output.bytes_pushed)
      = if r.output.bytes_pushed ≤ wadd r.output.bytes_popped r.capacity then
          min (index + data.length) (wadd r.output.bytes_popped r.capacity)
        else index + data.length := by
    simp only [wsub]
    split <;> omega
  obtain ⟨r3, h3, hdr⟩ := finish_spec r data index eof
    (store r.receving_window r.output.bytes_pushed data (r.output.bytes_pushed - index)
      (min (index + data.length - r.output.bytes_pushed)
        (wsub (wadd r.output.bytes_popped r.capacity) r.output.bytes_pushed)))
    (wadd r.output.bytes_pushed (min (index + data.length - r.output.bytes_pushed)
        (wsub (wadd r.output.bytes_popped r.capacity) r.output.bytes_pushed))) hinv hcap hE
    (by
      rintro ⟨_, h⟩
      rw [wadd_of_lt (by omega), hmin]
      split <;> omega)
  refine ⟨_, r3, fun k => ?_, hdr, h3⟩
  rw [find_store _ _ _ _ _ _ (by omega), hmin]
  simp only [Accepts]
  by_cases hk : r.output.bytes_pushed ≤ wadd r.output.bytes_popped r.capacity
  · simp only [hk, if_true]
    by_cases hacc : r.output.bytes_pushed ≤ k ∧
        k < min (index + data.length) (wadd r.output.bytes_popped r.capacity)
    · rw [if_pos hacc, if_pos (by omega)]
      congr 2
      omega
    · rw [if_neg hacc, if_neg (by omega)]
  · simp only [hk, if_false]
    by_cases hacc : r.output.bytes_pushed ≤ k ∧ k < index + data.length
    · rw [if_pos hacc, if_pos (by omega)]
      congr 2
      omega
    · rw [if_neg hacc, if_neg (by omega)]

theorem run_induction (I : StreamReassembler → List Char → Prop) (Q : Op → Prop)
    (hstep : ∀ r got op, I r got → Q op →
      ∃ r' out, r.step op = some (r', out) ∧ I r' (got ++ out)) :
    ∀ (ops : List Op) (r : StreamReassembler) (got : List Char), I r got →
      (∀ op ∈ ops, Q op) → ∃ r' got', run r got ops = some (r', got') ∧ I r' got' := by
  intro ops
  induction ops with
  | nil => intro r got h _; exact ⟨r, got, rfl, h⟩
  | cons op ops ih =>
    intro r got h hq
    obtain ⟨r1, out, e1, h1⟩ := hstep r got op h (hq op (List.mem_cons_self _ _))
    obtain ⟨r2, got2, e2, h2⟩ := ih r1 (got ++ out) h1
      (fun o ho => hq o (List.mem_cons_of_mem _ ho))
    exact ⟨r2, got2, by simp [run, e1, e2], h2⟩

theorem step_read {r : StreamReassembler} (h : r.output.stream.length ≤ r.output.capacity)
    (len : Nat) :
    r.step (.read len)
      = some ({ r with output :=
                  { r.output with
                    bytes_popped := r.output.bytes_popped + min len r.output.stream.length
                    stream := r.output.stream.drop (min len r.output.stream.length) } },
              r.output.stream.take (min len r.output.stream.length)) := by
  simp [step, ByteStream.read_eq h]

theorem winv_init (capacity : Nat) : WInv (init capacity) := by
  refine ⟨ByteStream.inv_init capacity, rfl, ?_⟩
  intro k hk
  simp [init, Window.find] at hk

theorem wrapped_first_unacceptable {P cap U len : Nat} (h1 : U = P + len) (h2 : len ≤ cap)
    (h3 : wadd P cap < U) : SIZE_MOD ≤ P + cap := by
  by_contra hlt
  rw [wadd_of_lt (by omega)] at h3
  omega

theorem winv_push {r : StreamReassembler} (h : WInv r) (data : List Char) (index : Nat)
    (eof : Bool) (hE : index + data.length < SIZE_MOD) :
    ∃ r', r.push_substring data index eof = some r' ∧ WInv r' := by
  obtain ⟨hinv, hcap, hw⟩ := h
  by_cases hd : data = []
  · subst hd
    cases eof with
    | false => exact ⟨r, push_empty_no_eof r index, hinv, hcap, hw⟩
    | true => exact ⟨_, push_empty_eof r index, ByteStream.inv_end_input hinv, hcap, hw⟩
  · rcases push_spec r data index eof hinv hcap hd hE with ⟨_, hp⟩ | ⟨h1, h2, w1, r3, hw1, hdr, hp⟩
    · exact ⟨_, hp, hinv, hcap, hw⟩
    · refine ⟨_, hp, hdr.out_inv, ?_, ?_⟩
      · simp only [refreshed]
        rw [hdr.out_capacity_eq, hdr.capacity_eq]
        exact hcap
      · intro k hk
        simp only [refreshed] at hk ⊢
        rw [hdr.window k] at hk
        rw [hdr.popped_eq, hdr.capacity_eq]
        simp only [staged] at hk ⊢
        have hstart := hdr.start_le
        by_cases hin : r.output.bytes_pushed ≤ k ∧ k < r3.output.bytes_pushed
        · simp [hin] at hk
        · rw [if_neg hin, hw1 k] at hk
          by_cases hacc : Accepts r data index k
          · obtain ⟨a1, a2, a3, a4, a5, a6⟩ := hacc
            have hA := wadd_le r.output.bytes_popped r.capacity
            refine ⟨by omega, ?_⟩
            rcases a6 with a6 | a6
            · omega
            · have := wrapped_first_unacceptable hinv.1 (hcap ▸ hinv.2) a6
              omega
          · rw [if_neg hacc] at hk
            have := hw k hk
            omega

theorem winv_read {r : StreamReassembler} (h : WInv r) (len : Nat) :
    ∃ r' out, r.step (.read len) = some (r', out) ∧ WInv r' := by
  obtain ⟨hinv, hcap, hw⟩ := h
  refine ⟨_, _, step_read hinv.2 len, ?_, hcap, ?_⟩
  · obtain ⟨h1, h2⟩ := hinv
    simp only [ByteStream.Inv, List.length_drop]
    omega
  · intro k hk
    have := hw k hk
    simp only
    omega

theorem winv_step (r : StreamReassembler) (_got : List Char) (op : Op) (h : WInv r)
    (hop : op.InRange) : ∃ r' out, r.step op = some (r', out) ∧ WInv r' := by
  cases op with
  | push data index eof =>
    obtain ⟨r', e, h'⟩ := winv_push h data index eof hop
    exact ⟨r', [], by simp [step, e], h'⟩
  | read len => exact winv_read h len

theorem find_ne_none_of_mem {w : Window} {p : Nat × Char} (h : p ∈ w) :
    w.find p.1 ≠ none := by
  induction w with
  | nil => simp at h
  | cons q w ih =>
    obtain ⟨k', c'⟩ := q
    by_cases hk : p.1 = k'
    · simp [Window.find, hk]
    · simp only [Window.find, hk, if_false]
      rcases List.mem_cons.mp h with rfl | h'
      · exact absurd rfl hk
      · exact ih h'

end StreamReassembler

/-- C7 fails when the end index of a substring wraps around `2 ^ 64`: on a
reassembler of capacity `2 ^ 64 - 1`, `push_substring("abc", 2 ^ 64 - 2, false)`
computes `index + data.size() = 1`, takes case 2 with `len = 3`, stores 'a' and
'b' at `2 ^ 64 - 2` and `2 ^ 64 - 1` and 'c' at the wrapped index 0, and drains
'c' as byte 0 of the output.  The window then holds the index `2 ^ 64 - 1`,
which is not below `bytes_read + capacity = 2 ^ 64 - 1`. -/
theorem StreamReassembler.window_bounds_fail_on_wrap :
    StreamReassembler.run (StreamReassembler.init 18446744073709551615) []
        [.push ['a', 'b', 'c'] 18446744073709551614 false]
      = some (⟨⟨['c'], 18446744073709551615, 0, 1, false⟩, 18446744073709551615,
          [(18446744073709551614, 'a'), (18446744073709551615, 'b')], 0, 1, 0, false⟩, []) ∧
    ¬ (∀ p ∈ ([(18446744073709551614, 'a'), (18446744073709551615, 'b')] : Window),
        (⟨['c'], 18446744073709551615, 0, 1, false⟩ : ByteStream).bytes_written ≤ p.1 ∧
        p.1 < (⟨['c'], 18446744073709551615, 0, 1, false⟩ : ByteStream).bytes_read
            + 18446744073709551615) := by
  decide

/-- C7 as amended. After any sequence of output reads and of `push_substring`
calls whose end index `index + |data|` is below `2 ^ 64`, every index `k` held
in the reassembly window satisfies `bytes_written ≤ k < bytes_read + capacity`;
the sequence runs to its end with no `assert` failing. -/
theorem StreamReassembler.window_bounds (capacity : Nat) (ops : List StreamReassembler.Op)
    (hops : ∀ op ∈ ops, op.InRange) :
    ∃ r got, StreamReassembler.run (StreamReassembler.init capacity) [] ops = some (r, got) ∧
      ∀ p ∈ r.receving_window,
        r.output.bytes_written ≤ p.1 ∧ p.1 < r.output.bytes_read + r.capacity := by
  obtain ⟨r, got, e, h⟩ := StreamReassembler.run_induction (fun r _ => StreamReassembler.WInv r)
    StreamReassembler.Op.InRange StreamReassembler.winv_step ops _ []
    (StreamReassembler.winv_init capacity) hops
  exact ⟨r, got, e, fun p hp => h.2.2 p.1 (StreamReassembler.find_ne_none_of_mem hp)⟩

/-- Witness of C7: two out-of-order pushes and a read at capacity 8. -/
theorem StreamReassembler.window_bounds_witness :
    (∀ op ∈ [StreamReassembler.Op.push ['e', 'f'] 4 false, .push ['a', 'b'] 0 false, .read 1],
      op.InRange) ∧
    ∃ r got, StreamReassembler.run (StreamReassembler.init 8) []
        [.push ['e', 'f'] 4 false, .push ['a', 'b'] 0 false, .read 1] = some (r, got) ∧
      ∀ p ∈ r.receving_window,
        r.output.bytes_written ≤ p.1 ∧ p.1 < r.output.bytes_read + r.capacity :=
  ⟨by decide,
   StreamReassembler.window_bounds 8
     [.push ['e', 'f'] 4 false, .push ['a', 'b'] 0 false, .read 1] (by decide)⟩

namespace StreamReassembler

theorem take_append_written (s w : List Char) (U : Nat) (hU : U ≤ s.length)
    (h : ∀ j, j < w.length → s[U + j]? = w[j]?) :
    s.take U ++ w = s.take (U + w.length) ∧ U + w.length ≤ s.length := by
  have hlen : U + w.length ≤ s.length := by
    rcases Nat.eq_zero_or_pos w.length with h0 | h0
    · omega
    · have := h (w.length - 1) (by omega)
      rw [List.getElem?_eq_getElem (by omega : w.length - 1 < w.length)] at this
      have := (List.getElem?_eq_some.mp this).1
      omega
  refine ⟨?_, hlen⟩
  rw [List.take_add]
  congr 1
  apply List.ext_getElem?
  intro j
  rw [List.getElem?_take]
  split
  · rename_i hj
    rw [List.getElem?_drop, ← h j hj]
  · rename_i hj
    exact List.getElem?_eq_none (by omega)

theorem source_bound {s data : List Char} {index : Nat}
    (h : data = (s.drop index).take data.length) (hd : data ≠ []) :
    index + data.length ≤ s.length := by
  have hlen : 0 < data.length := List.length_pos.mpr hd
  have := congrArg List.length h
  simp only [List.length_take, List.length_drop] at this
  omega

theorem source_byte {s data : List Char} {index : Nat}
    (h : data = (s.drop index).take data.length) {j : Nat} (hj : j < data.length) :
    s[index + j]? = some (data.getD j (Char.ofNat 0)) := by
  have e : data[j]? = s[index + j]? := by
    have := congrArg (fun l : List Char => l[j]?) h
    simp only [List.getElem?_take, hj, if_true, List.getElem?_drop] at this
    exact this
  rw [← e, List.getD_eq_getElem?_getD, List.getElem?_eq_getElem hj]
  rfl

theorem sinv_init (s : List Char) (capacity : Nat) : SInv s (init capacity) [] := by
  refine ⟨ByteStream.inv_init capacity, rfl, by simp [init, ByteStream.init], by
    simp [init, ByteStream.init], ?_⟩
  intro k c hk
  simp [init, Window.find] at hk

theorem sinv_push {s : List Char} {r : StreamReassembler} {got : List Char}
    (hs : s.length < SIZE_MOD) (h : SInv s r got) (data : List Char) (index : Nat) (eof : Bool)
    (hsrc : data = (s.drop index).take data.length) :
    ∃ r', r.push_substring data index eof = some r' ∧ SInv s r' got := by
  obtain ⟨hinv, hcap, hpre, hle, hw⟩ := h
  by_cases hd : data = []
  · subst hd
    cases eof with
    | false => exact ⟨r, push_empty_no_eof r index, hinv, hcap, hpre, hle, hw⟩
    | true =>
      exact ⟨_, push_empty_eof r index, ByteStream.inv_end_input hinv, hcap, hpre, hle, hw⟩
  · have hbound := source_bound hsrc hd
    rcases push_spec r data index eof hinv hcap hd (by omega) with
      ⟨_, hp⟩ | ⟨h1, h2, w1, r3, hw1, hdr, hp⟩
    · exact ⟨_, hp, hinv, hcap, hpre, hle, hw⟩
    · have hw1s : ∀ k c, Window.find w1 k = some c → s[k]? = some c := by
        intro k c hk
        rw [hw1 k] at hk
        by_cases hacc : Accepts r data index k
        · rw [if_pos hacc] at hk
          obtain ⟨a1, a2, a3, a4, a5, a6⟩ := hacc
          have := source_byte hsrc (by omega : k - index < data.length)
          rw [← Option.some.inj hk, ← this]
          congr 1
          omega
        · rw [if_neg hacc] at hk
          exact hw k c hk
      obtain ⟨written, hwr1, hwr2, hwr3⟩ := hdr.written
      simp only [staged] at hwr1 hwr3
      have htake := take_append_written s written r.output.bytes_pushed hle (by
        intro j hj
        have e := hwr3 j hj
        rw [List.getElem?_eq_getElem hj] at e ⊢
        exact hw1s _ _ e)
      refine ⟨_, hp, hdr.out_inv, ?_, ?_, ?_, ?_⟩
      · simp only [refreshed]
        rw [hdr.out_capacity_eq, hdr.capacity_eq]
        exact hcap
      · simp only [refreshed]
        rw [hwr1, ← List.append_assoc, hpre, htake.1]
        congr 1
        omega
      · simp only [refreshed]
        omega
      · intro k c hk
        simp only [refreshed] at hk
        rw [hdr.window k] at hk
        split at hk
        · exact absurd hk (by simp)
        · exact hw1s k c hk

theorem sinv_read {s : List Char} {r : StreamReassembler} {got : List Char} (h : SInv s r got)
    (len : Nat) :
    ∃ r' out, r.step (.read len) = some (r', out) ∧ SInv s r' (got ++ out) := by
  obtain ⟨hinv, hcap, hpre, hle, hw⟩ := h
  refine ⟨_, _, step_read hinv.2 len, ?_, hcap, ?_, hle, hw⟩
  · obtain ⟨h1, h2⟩ := hinv
    simp only [ByteStream.Inv, List.length_drop]
    omega
  · simp only [List.append_assoc, List.take_append_drop]
    exact hpre

theorem sinv_step (s : List Char) (hs : s.length < SIZE_MOD) (r : StreamReassembler)
    (got : List Char) (op : Op) (h : SInv s r got) (hop : op.FromSource s) :
    ∃ r' out, r.step op = some (r', out) ∧ SInv s r' (got ++ out) := by
  cases op with
  | push data index eof =>
    obtain ⟨r', e, h'⟩ := sinv_push hs h data index eof hop
    exact ⟨r', [], by simp [step, e], by simpa using h'⟩
  | read len => exact sinv_read h len

end StreamReassembler

/-- C6. For every source string `s` (of a length a `size_t` holds), every
capacity and every sequence of output reads and of `push_substring(data, index,
eof)` calls with `data = s[index .. index + |data|)`, the sequence runs to its
end with no `assert` failing, and the bytes written to the output stream, that
is everything read from it so far followed by what it still buffers, are
exactly `s[0 .. bytes_written)`. -/
theorem StreamReassembler.committed_bytes_match_source (s : List Char) (hs : s.length < SIZE_MOD)
    (capacity : Nat) (ops : List StreamReassembler.Op) (hops : ∀ op ∈ ops, op.FromSource s) :
    ∃ r got, StreamReassembler.run (StreamReassembler.init capacity) [] ops = some (r, got) ∧
      got ++ r.output.stream = s.take r.output.bytes_written ∧
      r.output.bytes_written ≤ s.length := by
  obtain ⟨r, got, e, h⟩ := StreamReassembler.run_induction (StreamReassembler.SInv s)
    (StreamReassembler.Op.FromSource s) (StreamReassembler.sinv_step s hs) ops _ []
    (StreamReassembler.sinv_init s capacity) hops
  exact ⟨r, got, e, h.2.2.1, h.2.2.2.1⟩

/-- Witness of C6: "abcdef" pushed out of order at capacity 4, with a read. -/
theorem StreamReassembler.committed_bytes_match_source_witness :
    (['a', 'b', 'c', 'd', 'e', 'f'] : List Char).length < SIZE_MOD ∧
    (∀ op ∈ [StreamReassembler.Op.push ['c', 'd'] 2 false, .push ['a', 'b', 'c'] 0 false,
        .read 2, .push ['d', 'e', 'f'] 3 true],
      op.FromSource ['a', 'b', 'c', 'd', 'e', 'f']) ∧
    ∃ r got, StreamReassembler.run (StreamReassembler.init 4) []
        [.push ['c', 'd'] 2 false, .push ['a', 'b', 'c'] 0 false, .read 2,
          .push ['d', 'e', 'f'] 3 true] = some (r, got) ∧
      got ++ r.output.stream
        = (['a', 'b', 'c', 'd', 'e', 'f'] : List Char).take r.output.bytes_written ∧
      r.output.bytes_written ≤ (['a', 'b', 'c', 'd', 'e', 'f'] : List Char).length :=
  ⟨by decide, by decide,
   StreamReassembler.committed_bytes_match_source ['a', 'b', 'c', 'd', 'e', 'f'] (by decide) 4
     [.push ['c', 'd'] 2 false, .push ['a', 'b', 'c'] 0 false, .read 2,
       .push ['d', 'e', 'f'] 3 true] (by decide)⟩

namespace StreamReassembler

theorem drain_stable {A : Nat} (fuel : Nat) {r : StreamReassembler} (hs : Stable A r)
    (he : r.output.bytes_pushed ≤ A ∧ r.output.bytes_pushed = r.eof_idx ∧ r.eof = true →
      r.output.end_ = true) :
    drain A (fuel + 1) r.output.bytes_pushed r = some r := by
  by_cases h1 : r.output.bytes_pushed ≤ A
  · by_cases h2 : r.output.bytes_pushed = r.eof_idx ∧ r.eof = true
    · rw [drain_eof fuel h1 h2]
      have hend := he ⟨h1, h2.1, h2.2⟩
      obtain ⟨⟨st, cp, pp, ps, en⟩, c, w, fr, fa, ei, e⟩ := r
      simp only at hend
      subst hend
      rfl
    · by_cases h3 : r.output.bytes_pushed = A
      · exact drain_end fuel h1 h2 h3
      · rcases hs with hs | hs | hs | hs
        · exact absurd h1 hs
        · exact absurd hs h2
        · exact absurd hs h3
        · exact drain_gap fuel h1 h2 h3 hs
  · exact drain_out fuel r h1

theorem finish_stable (r : StreamReassembler) (data : List Char) (index : Nat) (eof : Bool)
    (last_idx : Nat) (hE : index + data.length < SIZE_MOD)
    (hfr : r.first_unread = r.output.bytes_popped)
    (hfa : r.first_unassembled = r.output.bytes_pushed)
    (heof : eof = true ∧ index + data.length ≤ wadd r.output.bytes_popped r.capacity →
      r.eof = true ∧ r.eof_idx = last_idx)
    (hs : Stable (wadd r.output.bytes_popped r.capacity) r)
    (he : r.output.bytes_pushed ≤ wadd r.output.bytes_popped r.capacity ∧
        r.output.bytes_pushed = r.eof_idx ∧ r.eof = true → r.output.end_ = true) :
    finish r data index eof last_idx = some r := by
  have hstage :
      (if eof = true ∧ wadd index data.length ≤ r.first_unacceptable then
          { r with eof := true, eof_idx := last_idx }
        else r) = r := by
    by_cases hc : eof = true ∧ wadd index data.length ≤ r.first_unacceptable
    · rw [if_pos hc]
      have hc' : eof = true ∧ index + data.length ≤ wadd r.output.bytes_popped r.capacity := by
        simpa [first_unacceptable, wadd_of_lt hE, hfr] using hc
      obtain ⟨h1, h2⟩ := heof hc'
      obtain ⟨o, c, w, fr, fa, ei, e⟩ := r
      simp only at h1 h2
      subst h1 h2
      rfl
    · rw [if_neg hc]
  simp only [finish]
  rw [hstage]
  have e1 : r.first_unacceptable = wadd r.output.bytes_popped r.capacity := by
    simp [first_unacceptable, hfr]
  rw [e1, hfa, Window.size, drain_stable _ hs he]
  obtain ⟨o, c, w, fr, fa, ei, e⟩ := r
  simp only at hfr hfa
  subst hfr hfa
  rfl

/-- Pushing the same substring a second time changes nothing, in any state in
which the output stream's invariant holds. -/
theorem push_twice {r : StreamReassembler} (hinv : ByteStream.Inv r.output)
    (hcap : r.output.capacity = r.capacity) (data : List Char) (index : Nat) (eof : Bool)
    (hE : index + data.length < SIZE_MOD) :
    ∃ r1, r.push_substring data index eof = some r1 ∧
      r1.push_substring data index eof = some r1 := by
  by_cases hd : data = []
  · subst hd
    cases eof with
    | false => exact ⟨r, push_empty_no_eof r index, push_empty_no_eof r index⟩
    | true => exact ⟨_, push_empty_eof r index, by rw [push_empty_eof]; rfl⟩
  have hlen : 0 < data.length := List.length_pos.mpr hd
  rcases push_spec r data index eof hinv hcap hd hE with
    ⟨hout, hp⟩ | ⟨h1, h2, w1, r3, hw1, hdr, hp⟩
  · refine ⟨_, hp, ?_⟩
    rcases push_spec (refreshed r) data index eof hinv hcap hd hE with
      ⟨_, hp'⟩ | ⟨h1', h2', _⟩
    · rw [hp']; rfl
    · simp only [refreshed] at h1' h2'
      omega
  · refine ⟨_, hp, ?_⟩
    have hP : r3.output.bytes_popped = r.output.bytes_popped := hdr.popped_eq
    have hC : r3.capacity = r.capacity := hdr.capacity_eq
    have hU : r.output.bytes_pushed ≤ r3.output.bytes_pushed := hdr.start_le
    have hB : r3.output.bytes_pushed ≤ wadd r.output.bytes_popped r.capacity ∨
        r3.output.bytes_pushed = r.output.bytes_pushed := hdr.bound
    have hEof : r3.eof = (r.eof ||
        (eof && decide (index + data.length ≤ wadd r.output.bytes_popped r.capacity))) :=
      hdr.eof_eq
    have hEofIdx : r3.eof_idx
        = if eof = true ∧ index + data.length ≤ wadd r.output.bytes_popped r.capacity then
            index + data.length
          else r.eof_idx := hdr.eof_idx_eq
    have hfind : ∀ k, r3.output.bytes_pushed ≤ k → Accepts r data index k →
        r3.receving_window.find k = some (data.getD (k - index) (Char.ofNat 0)) := by
      intro k hk hacc
      rw [hdr.window k, if_neg (by omega)]
      simp only [staged]
      rw [hw1 k, if_pos hacc]
    have hA : wadd r3.output.bytes_popped r3.capacity = wadd r.output.bytes_popped r.capacity := by
      rw [hP, hC]
    have hstable : Stable (wadd r3.output.bytes_popped r3.capacity) (refreshed r3) := by
      rw [hA]
      exact hdr.stable
    have hend : (refreshed r3).output.bytes_pushed ≤ wadd r3.output.bytes_popped r3.capacity ∧
        (refreshed r3).output.bytes_pushed = (refreshed r3).eof_idx ∧
        (refreshed r3).eof = true → (refreshed r3).output.end_ = true := by
      rw [hA]
      simp only [refreshed]
      intro hc
      rw [hdr.end_flag, ← hdr.eof_eq, ← hdr.eof_idx_eq, Bool.or_eq_true, decide_eq_true_eq]
      exact Or.inr hc
    have hfin : ∀ last_idx,
        (eof = true ∧ index + data.length ≤ wadd r3.output.bytes_popped r3.capacity →
          last_idx = index + data.length) →
        finish (refreshed r3) data index eof last_idx = some (refreshed r3) := by
      intro last_idx hl
      refine finish_stable (refreshed r3) data index eof last_idx hE rfl rfl ?_ hstable hend
      simp only [refreshed]
      intro hc
      have hc' : eof = true ∧ index + data.length ≤ wadd r.output.bytes_popped r.capacity := by
        rw [← hA]
        exact hc
      rw [hEof, hEofIdx, if_pos hc', hl hc]
      simp [hc'.1, hc'.2]
    rw [push_nonempty (refreshed r3) data index eof hd hE]
    simp only [refreshed] at hfin ⊢
    by_cases c1 : index + data.length < r3.output.bytes_pushed
    · rw [if_pos c1]
    rw [if_neg c1]
    by_cases c2 : index ≥ r3.output.bytes_pushed ∧ index < wadd r3.output.bytes_popped r3.capacity
    · rw [if_pos c2, ByteStream.wsub_of_le (by omega : 1 ≤ index + data.length),
        ByteStream.wsub_of_le (by omega : index ≤ wadd r3.output.bytes_popped r3.capacity)]
      rw [store_eq_self]
      · apply hfin
        rintro ⟨_, h⟩
        rw [if_neg (by omega)]
        exact wadd_of_lt hE
      · intro i hi
        have hi' : index + i < index + data.length ∧
            (index + i < wadd r.output.bytes_popped r.capacity) := by
          split at hi <;> omega
        rw [wadd_of_lt (by omega), hfind (index + i) (by omega)
          ⟨by omega, by omega, by omega, by omega, by omega, Or.inl hi'.2⟩]
        congr 2
        omega
    rw [if_neg c2,
      if_neg (by omega : ¬ index ≥ wadd r3.output.bytes_popped r3.capacity)]
    have c4 : index < r3.output.bytes_pushed ∧ index + data.length ≥ r3.output.bytes_pushed := by
      omega
    rw [if_pos c4, ByteStream.wsub_of_le c4.2,
      ByteStream.wsub_of_le (by omega : index ≤ r3.output.bytes_pushed)]
    have hmin : r3.output.bytes_pushed + min (index + data.length - r3.output.bytes_pushed)
        (wsub (wadd r3.output.bytes_popped r3.capacity) r3.output.bytes_pushed)
        = if r3.output.bytes_pushed ≤ wadd r3.output.bytes_popped r3.capacity then
            min (index + data.length) (wadd r3.output.bytes_popped r3.capacity)
          else index + data.length := by
      simp only [wsub]
      split <;> omega
    rw [if_pos (by omega)]
    rw [store_eq_self]
    · apply hfin
      rintro ⟨_, h⟩
      rw [wadd_of_lt (by omega), hmin]
      split <;> omega
    · intro i hi
      have hi' : r3.output.bytes_pushed + i < index + data.length ∧
          (r3.output.bytes_pushed + i < wadd r.output.bytes_popped r.capacity ∨
            wadd r.output.bytes_popped r.capacity < r.output.bytes_pushed) := by
        split at hmin <;> omega
      rw [wadd_of_lt (by omega), hfind (r3.output.bytes_pushed + i) (by omega)
        ⟨by omega, by omega, by omega, by omega, by omega, hi'.2⟩]
      congr 2
      omega

theorem finish_out_inv (r : StreamReassembler) (data : List Char) (index : Nat) (eof : Bool)
    (last_idx : Nat) (hinv : ByteStream.Inv r.output) (hcap : r.output.capacity = r.capacity)
    (hfr : r.first_unread = r.output.bytes_popped)
    (hfa : r.first_unassembled = r.output.bytes_pushed) (r' : StreamReassembler)
    (h : finish r data index eof last_idx = some r') :
    ByteStream.Inv r'.output ∧ r'.output.capacity = r'.capacity := by
  simp only [finish] at h
  by_cases hc : eof = true ∧ wadd index data.length ≤ r.first_unacceptable
  · rw [if_pos hc] at h
    obtain ⟨r3, h3, hdr⟩ := drain_spec (wadd r.first_unread r.capacity)
      (r.receving_window.length + 1) r.first_unassembled
      { r with eof := true, eof_idx := last_idx } hinv hfa
      (by simp only [hfr]; rw [hcap]; exact wadd_le _ _) (by simp)
    simp only [first_unacceptable, Window.size] at h
    rw [h3] at h
    simp only [Option.map_some', Option.some.injEq] at h
    subst h
    exact ⟨hdr.out_inv, by
      simp only
      rw [hdr.out_capacity_eq, hdr.capacity_eq]
      exact hcap⟩
  · rw [if_neg hc] at h
    obtain ⟨r3, h3, hdr⟩ := drain_spec (wadd r.first_unread r.capacity)
      (r.receving_window.length + 1) r.first_unassembled r hinv hfa
      (by simp only [hfr]; rw [hcap]; exact wadd_le _ _) (by simp)
    simp only [first_unacceptable, Window.size] at h
    rw [h3] at h
    simp only [Option.map_some', Option.some.injEq] at h
    subst h
    exact ⟨hdr.out_inv, by
      simp only
      rw [hdr.out_capacity_eq, hdr.capacity_eq]
      exact hcap⟩

/-- Whatever is pushed, the output stream keeps its invariant and its
capacity. -/
theorem push_out_inv (r : StreamReassembler) (data : List Char) (index : Nat) (eof : Bool)
    (hinv : ByteStream.Inv r.output) (hcap : r.output.capacity = r.capacity)
    (r' : StreamReassembler) (h : r.push_substring data index eof = some r') :
    ByteStream.Inv r'.output ∧ r'.output.capacity = r'.capacity := by
  simp only [push_substring] at h
  split_ifs at h
  all_goals first
    | (simp only [Option.some.injEq] at h
       subst h
       exact ⟨hinv, hcap⟩)
    | (refine finish_out_inv _ data index eof _ ?_ ?_ ?_ ?_ r' h
       · exact hinv
       · exact hcap
       · rfl
       · rfl)

theorem oinv_run : ∀ (ops : List Op) (r : StreamReassembler) (got : List Char)
    (r' : StreamReassembler) (got' : List Char), OInv r →
    run r got ops = some (r', got') → OInv r' := by
  intro ops
  induction ops with
  | nil =>
    intro r got r' got' h e
    simp only [run, Option.some.injEq, Prod.mk.injEq] at e
    exact e.1 ▸ h
  | cons op ops ih =>
    intro r got r' got' h e
    simp only [run] at e
    cases hs : r.step op with
    | none => simp [hs] at e
    | some p =>
      rw [hs] at e
      simp only [Option.some_bind] at e
      refine ih p.1 _ r' got' ?_ e
      cases op with
      | push data index eof =>
        simp only [step] at hs
        cases hp : r.push_substring data index eof with
        | none => simp [hp] at hs
        | some r1 =>
          rw [hp] at hs
          simp only [Option.map_some', Option.some.injEq] at hs
          subst hs
          exact push_out_inv r data index eof h.1 h.2 r1 hp
      | read len =>
        rw [step_read h.1.2] at hs
        simp only [Option.some.injEq] at hs
        subst hs
        refine ⟨?_, h.2⟩
        obtain ⟨h1, h2⟩ := h.1
        simp only [ByteStream.Inv, List.length_drop]
        omega

end StreamReassembler

/-- C8 fails when the end index of the substring wraps around `2 ^ 64`: on a
fresh reassembler of capacity `2 ^ 64 - 1`, one
`push_substring("abc", 2 ^ 64 - 2, false)` leaves the window
`{2 ^ 64 - 2: 'a', 2 ^ 64 - 1: 'b'}`, 2 unassembled bytes; a second one stores
'c' at the wrapped index 0 again, where nothing is drained any more since
`bytes_written` is 1, and leaves 3 unassembled bytes. -/
theorem StreamReassembler.push_twice_differs_on_wrap :
    ((StreamReassembler.init 18446744073709551615).push_substring ['a', 'b', 'c']
        18446744073709551614 false).map
      (fun r => (r.receving_window, r.unassembled_bytes, r.output.bytes_written))
      = some ([(18446744073709551614, 'a'), (18446744073709551615, 'b')], 2, 1) ∧
    (((StreamReassembler.init 18446744073709551615).push_substring ['a', 'b', 'c']
        18446744073709551614 false).bind fun r =>
          r.push_substring ['a', 'b', 'c'] 18446744073709551614 false).map
      (fun r => (r.receving_window, r.unassembled_bytes, r.output.bytes_written))
      = some ([(18446744073709551614, 'a'), (18446744073709551615, 'b'), (0, 'c')], 3, 1) := by
  exact ⟨rfl, rfl⟩

/-- C8 as amended. In every state reached from a fresh reassembler by pushes
and output reads, for every `(data, index, eof)` whose end index
`index + |data|` is below `2 ^ 64`, `push_substring(data, index, eof)` returns,
and calling it a second time leaves the reassembler exactly as the first call
left it: the same output stream (`bytes_written`, buffered bytes,
`input_ended`), the same window and `unassembled_bytes`, the same recorded
eof. -/
theorem StreamReassembler.push_substring_idempotent (capacity : Nat)
    (ops : List StreamReassembler.Op) (r : StreamReassembler) (got : List Char)
    (hr : StreamReassembler.run (StreamReassembler.init capacity) [] ops = some (r, got))
    (data : List Char) (index : Nat) (eof : Bool) (hE : index + data.length < SIZE_MOD) :
    ∃ r1, r.push_substring data index eof = some r1 ∧
      r1.push_substring data index eof = some r1 := by
  have h := StreamReassembler.oinv_run ops _ [] r got
    ⟨ByteStream.inv_init capacity, rfl⟩ hr
  exact StreamReassembler.push_twice h.1 h.2 data index eof hE

/-- Witness of C8: "de" with eof pushed at index 3 after "abc" and "ef". -/
theorem StreamReassembler.push_substring_idempotent_witness :
    StreamReassembler.run (StreamReassembler.init 8) []
        [.push ['a', 'b', 'c'] 0 false, .push ['e', 'f'] 4 false]
      = some (⟨⟨['a', 'b', 'c'], 8, 0, 3, false⟩, 8, [(4, 'e'), (5, 'f')], 0, 3, 0, false⟩, []) ∧
    3 + (['d', 'e'] : List Char).length < SIZE_MOD ∧
    ∃ r1, (⟨⟨['a', 'b', 'c'], 8, 0, 3, false⟩, 8, [(4, 'e'), (5, 'f')], 0, 3, 0, false⟩ :
          StreamReassembler).push_substring ['d', 'e'] 3 true = some r1 ∧
      r1.push_substring ['d', 'e'] 3 true = some r1 :=
  ⟨by decide, by decide,
   StreamReassembler.push_substring_idempotent 8
     [.push ['a', 'b', 'c'] 0 false, .push ['e', 'f'] 4 false] _ [] (by decide)
     ['d', 'e'] 3 true (by decide)⟩

namespace StreamReassembler

theorem rinv_init (s : List Char) (cap : Nat) :
    RInv s cap (fun _ => False) False (init cap) where
  out_inv := ByteStream.inv_init cap
  out_capacity := rfl
  capacity_eq := rfl
  popped := rfl
  stream_eq := by simp [init, ByteStream.init]
  pushed_le := by simp [init, ByteStream.init]
  window := fun k c h => by simp [init, Window.find] at h
  covered := fun k h => h.elim
  gap := rfl
  eof_seen := fun h => h.elim
  eof_at_end := fun h => by simp [init] at h
  ended := fun h => by simp [init] at h

theorem rinv_mono {s : List Char} {cap : Nat} {C C' : Nat → Prop} {F F' : Prop}
    {r : StreamReassembler} (h : RInv s cap C F r) (hC : ∀ k, C' k → C k) (hF : F' → F) :
    RInv s cap C' F' r :=
  { h with covered := fun k hk => h.covered k (hC k hk), eof_seen := fun hf => h.eof_seen (hF hf) }

theorem rinv_push {s : List Char} {cap : Nat} {C : Nat → Prop} {F : Prop}
    {r : StreamReassembler} (h : RInv s cap C F r) (hcap : s.length ≤ cap)
    (hsz : cap < SIZE_MOD) (data : List Char) (index : Nat) (eof : Bool)
    (hsrc : data = (s.drop index).take data.length)
    (hend : eof = true → index + data.length = s.length) :
    ∃ r', r.push_substring data index eof = some r' ∧
      RInv s cap (fun k => C k ∨ (index ≤ k ∧ k < index + data.length)) (F ∨ eof = true) r' := by
  by_cases hd : data = []
  · subst hd
    cases eof with
    | false =>
      refine ⟨r, push_empty_no_eof r index, rinv_mono h ?_ ?_⟩
      · rintro k (hk | hk)
        · exact hk
        · simp only [List.length_nil] at hk
          omega
      · rintro (hf | hf)
        · exact hf
        · exact absurd hf (by simp)
    | true =>
      have hidx : index = s.length := by simpa using hend rfl
      refine ⟨_, push_empty_eof r index, ?_⟩
      exact
        { out_inv := ByteStream.inv_end_input h.out_inv
          out_capacity := h.out_capacity
          capacity_eq := h.capacity_eq
          popped := h.popped
          stream_eq := h.stream_eq
          pushed_le := h.pushed_le
          window := h.window
          covered := fun k hk => by
            rcases hk with hk | hk
            · exact h.covered k hk
            · simp only [List.length_nil] at hk
              omega
          gap := h.gap
          eof_seen := fun _ => rfl
          eof_at_end := fun _ => hidx
          ended := fun _ _ => rfl }
  have hlen : 0 < data.length := List.length_pos.mpr hd
  have hbound := source_bound hsrc hd
  have hA : wadd r.output.bytes_popped r.capacity = cap := by
    rw [h.popped, h.capacity_eq, wadd_of_lt (by omega)]
    omega
  have hle := h.pushed_le
  rcases push_spec r data index eof h.out_inv h.out_capacity hd (by omega) with
    ⟨hout, hp⟩ | ⟨h1, h2, w1, r3, hw1, hdr, hp⟩
  · have hlt : index + data.length < r.output.bytes_pushed := by omega
    refine ⟨_, hp, ?_⟩
    have hr : RInv s cap C F (refreshed r) :=
      { out_inv := h.out_inv, out_capacity := h.out_capacity, capacity_eq := h.capacity_eq,
        popped := h.popped, stream_eq := h.stream_eq, pushed_le := h.pushed_le,
        window := h.window, covered := h.covered, gap := h.gap, eof_seen := h.eof_seen,
        eof_at_end := h.eof_at_end, ended := h.ended }
    exact
      { hr with
        covered := fun k hk => by
          rcases hk with hk | hk
          · exact hr.covered k hk
          · left
            simp only [refreshed]
            omega
        eof_seen := fun hf => by
          rcases hf with hf | hf
          · exact hr.eof_seen hf
          · have := hend hf
            omega }
  · have hacc : ∀ k, r.output.bytes_pushed ≤ k → index ≤ k → k < index + data.length →
        Accepts r data index k := fun k a b c =>
      ⟨h1, h2, b, a, c, Or.inl (by omega)⟩
    have hw1s : ∀ k c, Window.find w1 k = some c →
        r.output.bytes_pushed ≤ k ∧ s[k]? = some c := by
      intro k c hk
      rw [hw1 k] at hk
      by_cases hac : Accepts r data index k
      · rw [if_pos hac] at hk
        obtain ⟨a1, a2, a3, a4, a5, a6⟩ := hac
        have := source_byte hsrc (by omega : k - index < data.length)
        refine ⟨a4, ?_⟩
        rw [← Option.some.inj hk, ← this]
        congr 1
        omega
      · rw [if_neg hac] at hk
        exact h.window k c hk
    obtain ⟨written, hwr1, hwr2, hwr3⟩ := hdr.written
    simp only [staged] at hwr1 hwr3
    have htake := take_append_written s written r.output.bytes_pushed hle (by
      intro j hj
      have e := hwr3 j hj
      rw [List.getElem?_eq_getElem hj] at e ⊢
      exact (hw1s _ _ e).2)
    have hU' : r3.output.bytes_pushed = r.output.bytes_pushed + written.length := by omega
    have hle' : r3.output.bytes_pushed ≤ s.length := by omega
    have hwin : ∀ k c, r3.receving_window.find k = some c →
        r3.output.bytes_pushed ≤ k ∧ s[k]? = some c := by
      intro k c hk
      rw [hdr.window k] at hk
      split at hk
      · exact absurd hk (by simp)
      · rename_i hnot
        have := hw1s k c hk
        exact ⟨by omega, this.2⟩
    have hnone_at_end : r3.output.bytes_pushed = s.length →
        r3.receving_window.find r3.output.bytes_pushed = none := by
      intro he
      cases hf : r3.receving_window.find r3.output.bytes_pushed with
      | none => rfl
      | some c =>
        have := (hwin _ c hf).2
        have := (List.getElem?_eq_some.mp this).1
        omega
    have hEof : r3.eof = (r.eof ||
        (eof && decide (index + data.length ≤ wadd r.output.bytes_popped r.capacity))) :=
      hdr.eof_eq
    have hEofIdx : r3.eof_idx
        = if eof = true ∧ index + data.length ≤ wadd r.output.bytes_popped r.capacity then
            index + data.length
          else r.eof_idx := hdr.eof_idx_eq
    have hfit : index + data.length ≤ wadd r.output.bytes_popped r.capacity := by omega
    have heofidx : r3.eof = true → r3.eof_idx = s.length := by
      intro he
      rw [hEofIdx]
      by_cases hc : eof = true
      · rw [if_pos ⟨hc, hfit⟩]
        exact hend hc
      · rw [if_neg (fun h' => hc h'.1)]
        apply h.eof_at_end
        rw [hEof] at he
        simpa [hc] using he
    refine ⟨_, hp, ?_⟩
    exact
      { out_inv := hdr.out_inv
        out_capacity := by
          simp only [refreshed]
          rw [hdr.out_capacity_eq, hdr.capacity_eq]
          exact h.out_capacity
        capacity_eq := by
          simp only [refreshed]
          rw [hdr.capacity_eq]
          exact h.capacity_eq
        popped := by
          simp only [refreshed]
          rw [hdr.popped_eq]
          exact h.popped
        stream_eq := by
          simp only [refreshed]
          rw [hwr1, h.stream_eq, htake.1, hU']
        pushed_le := hle'
        window := hwin
        covered := fun k hk => by
          simp only [refreshed]
          by_cases hk' : k < r3.output.bytes_pushed
          · exact Or.inl hk'
          · right
            rw [hdr.window k, if_neg (by omega)]
            simp only [staged]
            rw [hw1 k]
            by_cases hac : Accepts r data index k
            · rw [if_pos hac]
              simp
            · rw [if_neg hac]
              rcases hk with hk | hk
              · rcases h.covered k hk with hc | hc
                · omega
                · exact hc
              · exact absurd (hacc k (by omega) hk.1 hk.2) hac
        gap := by
          simp only [refreshed]
          rcases hdr.stable with hs | hs | hs | hs
          · omega
          · refine hnone_at_end ?_
            rw [hs.1]
            exact heofidx hs.2
          · exact hnone_at_end (by omega)
          · exact hs
        eof_seen := fun hf => by
          simp only [refreshed]
          rw [hEof]
          rcases hf with hf | hf
          · simp [h.eof_seen hf]
          · simp [hf, hfit]
        eof_at_end := heofidx
        ended := fun he hp' => by
          simp only [refreshed] at he hp' ⊢
          rw [hdr.end_flag, Bool.or_eq_true, decide_eq_true_eq]
          right
          refine ⟨by omega, ?_, ?_⟩
          · rw [← hdr.eof_idx_eq, heofidx he]
            exact hp'
          · rw [← hdr.eof_eq]
            exact he }

theorem rinv_run (s : List Char) (cap : Nat) (hcap : s.length ≤ cap) (hsz : cap < SIZE_MOD) :
    ∀ (subs : List (List Char × Nat × Bool)) (C : Nat → Prop) (F : Prop)
      (r : StreamReassembler), RInv s cap C F r →
      (∀ p ∈ subs, p.1 = (s.drop p.2.1).take p.1.length ∧
        (p.2.2 = true → p.2.1 + p.1.length = s.length)) →
      ∃ r', run r [] (subs.map Op.ofSub) = some (r', []) ∧
        RInv s cap (fun k => C k ∨ ∃ p ∈ subs, p.2.1 ≤ k ∧ k < p.2.1 + p.1.length)
          (F ∨ ∃ p ∈ subs, p.2.2 = true) r' := by
  intro subs
  induction subs with
  | nil =>
    intro C F r h _
    refine ⟨r, rfl, rinv_mono h ?_ ?_⟩
    · rintro k (hk | ⟨p, hp, _⟩)
      · exact hk
      · simp at hp
    · rintro (hf | ⟨p, hp, _⟩)
      · exact hf
      · simp at hp
  | cons p ps ih =>
    intro C F r h hv
    obtain ⟨hsrc, hend⟩ := hv p (List.mem_cons_self _ _)
    obtain ⟨r1, e1, h1⟩ := rinv_push h hcap hsz p.1 p.2.1 p.2.2 hsrc hend
    obtain ⟨r2, e2, h2⟩ := ih _ _ r1 h1 (fun q hq => hv q (List.mem_cons_of_mem _ hq))
    refine ⟨r2, ?_, rinv_mono h2 ?_ ?_⟩
    · simp only [List.map_cons, run, Op.ofSub, step, e1, Option.map_some', Option.some_bind,
        List.append_nil]
      exact e2
    · rintro k (hk | ⟨q, hq, hk⟩)
      · exact Or.inl (Or.inl hk)
      · rcases List.mem_cons.mp hq with rfl | hq'
        · exact Or.inl (Or.inr hk)
        · exact Or.inr ⟨q, hq', hk⟩
    · rintro (hf | ⟨q, hq, hk⟩)
      · exact Or.inl (Or.inl hf)
      · rcases List.mem_cons.mp hq with rfl | hq'
        · exact Or.inl (Or.inr hk)
        · exact Or.inr ⟨q, hq', hk⟩

end StreamReassembler

/-- C9. Let `s` be a string of length `N`, `capacity ≥ N` a `size_t`, and `subs`
substrings `(s[i .. i + l), i, eof)` that together cover `[0, N)`, at least one
of them carrying the eof flag and every one that carries it ending at `N`.
Pushed into a fresh reassembler in the order of the list, whatever it is, with
no read in between, they leave the output stream holding exactly `s`, with
`input_ended` set and `unassembled_bytes() = 0`. -/
theorem StreamReassembler.reordering_tolerance (s : List Char) (capacity : Nat)
    (hcap : s.length ≤ capacity) (hsz : capacity < SIZE_MOD)
    (subs : List (List Char × Nat × Bool))
    (hsub : ∀ p ∈ subs, p.1 = (s.drop p.2.1).take p.1.length)
    (hcover : ∀ k, k < s.length → ∃ p ∈ subs, p.2.1 ≤ k ∧ k < p.2.1 + p.1.length)
    (heof : ∃ p ∈ subs, p.2.2 = true)
    (hend : ∀ p ∈ subs, p.2.2 = true → p.2.1 + p.1.length = s.length) :
    ∃ r, StreamReassembler.run (StreamReassembler.init capacity) []
        (subs.map StreamReassembler.Op.ofSub) = some (r, []) ∧
      r.output.stream = s ∧ r.output.bytes_written = s.length ∧
      r.output.input_ended = true ∧ r.unassembled_bytes = 0 := by
  obtain ⟨r, e, h⟩ := StreamReassembler.rinv_run s capacity hcap hsz subs _ _ _
    (StreamReassembler.rinv_init s capacity) (fun p hp => ⟨hsub p hp, hend p hp⟩)
  have hU : r.output.bytes_pushed = s.length := by
    have hle := h.pushed_le
    by_contra hne
    rcases h.covered r.output.bytes_pushed (Or.inr (hcover _ (by omega))) with hc | hc
    · omega
    · exact hc h.gap
  have heof' : r.eof = true := h.eof_seen (Or.inr heof)
  have hwin : r.receving_window = [] := by
    apply Window.eq_nil_of_find_none
    intro k
    cases hf : r.receving_window.find k with
    | none => rfl
    | some c =>
      obtain ⟨h1, h2⟩ := h.window k c hf
      have := (List.getElem?_eq_some.mp h2).1
      omega
  refine ⟨r, e, ?_, hU, h.ended heof' hU, ?_⟩
  · rw [h.stream_eq, hU, List.take_length]
  · simp [unassembled_bytes, Window.size, hwin]

/-- Witness of C9: "abcdef" at capacity 6 from "ef" (eof), "abc" and "cde". -/
theorem StreamReassembler.reordering_tolerance_witness :
    ∃ r, StreamReassembler.run (StreamReassembler.init 6) []
        ([(['e', 'f'], 4, true), (['a', 'b', 'c'], 0, false), (['c', 'd', 'e'], 2, false)].map
          StreamReassembler.Op.ofSub) = some (r, []) ∧
      r.output.stream = ['a', 'b', 'c', 'd', 'e', 'f'] ∧
      r.output.bytes_written = (['a', 'b', 'c', 'd', 'e', 'f'] : List Char).length ∧
      r.output.input_ended = true ∧ r.unassembled_bytes = 0 :=
  StreamReassembler.reordering_tolerance ['a', 'b', 'c', 'd', 'e', 'f'] 6 (by decide) (by decide)
    [(['e', 'f'], 4, true), (['a', 'b', 'c'], 0, false), (['c', 'd', 'e'], 2, false)]
    (by decide)
    (by
      intro k hk
      have hk' : k < 6 := hk
      by_cases h2 : k < 3
      · exact ⟨(['a', 'b', 'c'], 0, false), by simp, by simp, by simpa using h2⟩
      · by_cases h4 : k < 4
        · exact ⟨(['c', 'd', 'e'], 2, false), by simp, by simp; omega, by simp; omega⟩
        · exact ⟨(['e', 'f'], 4, true), by simp, by simp; omega, by simp; omega⟩)
    ⟨(['e', 'f'], 4, true), by simp, rfl⟩
    (by decide)

/-- C10 fails: after the three pushes of scenario S4 the output does not hold
6 bytes with nothing left unassembled. -/
theorem StreamReassembler.scenario_S4_is_not_abcdef :
    StreamReassembler.scenario_S4.map
        (fun r => (r.output.bytes_written, r.output.stream, r.output.input_ended,
          r.unassembled_bytes))
      ≠ some (6, ['a', 'b', 'c', 'd', 'e', 'f'], true, 0) := by
  decide

/-- C10 as amended. After `push_substring("abc", 0, false)`,
`push_substring("ef", 4, false)` and `push_substring("de", 3, true)` at capacity
8, the output stream has `bytes_written = 5` (content "abcde"),
`input_ended = true`, and `unassembled_bytes() = 1`: the third push records the
end of the stream at index 5, where the drain loop stops, and the 'f' stored at
index 5 stays in the window. -/
theorem StreamReassembler.scenario_S4_results :
    StreamReassembler.scenario_S4.map
        (fun r => (r.output.bytes_written, r.output.stream, r.output.input_ended,
          r.unassembled_bytes, r.receving_window, r.eof_idx))
      = some (5, ['a', 'b', 'c', 'd', 'e'], true, 1, [(5, 'f')], 5) := by
  rfl

/-- C11 fails in two ways.  On a fresh reassembler of capacity 8,
`push_substring("", 3, true)` closes the output at once, with `bytes_written = 0`
and `eof_index = 3`.  And after `push_substring("ab", 0, true)` has closed the
output at `bytes_written = 2`, `push_substring("xyz", 5, true)` moves
`eof_index` to 8 while the output stays closed. -/
theorem StreamReassembler.closed_away_from_eof_index :
    ((StreamReassembler.init 8).push_substring [] 3 true).map
        (fun r => (r.output.input_ended, r.eof, r.output.bytes_written, r.eof_idx))
      = some (true, true, 0, 3) ∧
    (((StreamReassembler.init 8).push_substring ['a', 'b'] 0 true).bind fun r =>
        r.push_substring ['x', 'y', 'z'] 5 true).map
        (fun r => (r.output.input_ended, r.eof, r.output.bytes_written, r.eof_idx))
      = some (true, true, 2, 8) := by
  decide

namespace StreamReassembler

theorem eof_reach_inv {capacity N : Nat} {r : StreamReassembler}
    (h : EofReach capacity N r) :
    (ByteStream.Inv r.output ∧ r.output.capacity = r.capacity) ∧
    (r.output.end_ = true → r.eof = true ∧ r.output.bytes_pushed = r.eof_idx) ∧
    (r.eof = true → r.eof_idx = N) := by
  induction h with
  | init =>
    refine ⟨⟨ByteStream.inv_init capacity, rfl⟩, ?_, ?_⟩
    · intro h; simp [init, ByteStream.init] at h
    · intro h; simp [init] at h
  | push r r' data index eof _ hd hE hN hp ih =>
    obtain ⟨⟨hinv, hcap⟩, hend, hidx⟩ := ih
    rcases push_spec r data index eof hinv hcap hd hE with
      ⟨_, hp'⟩ | ⟨h1, h2, w1, r3, hw1, hdr, hp'⟩
    · rw [hp'] at hp
      cases hp
      exact ⟨⟨hinv, hcap⟩, hend, hidx⟩
    · rw [hp'] at hp
      cases hp
      have hEof : r3.eof = (r.eof ||
          (eof && decide (index + data.length ≤ wadd r.output.bytes_popped r.capacity))) :=
        hdr.eof_eq
      have hEofIdx : r3.eof_idx
          = if eof = true ∧ index + data.length ≤ wadd r.output.bytes_popped r.capacity then
              index + data.length
            else r.eof_idx := hdr.eof_idx_eq
      have hidx3 : r3.eof = true → r3.eof_idx = N := by
        intro he
        rw [hEofIdx]
        by_cases hc : eof = true ∧ index + data.length ≤ wadd r.output.bytes_popped r.capacity
        · rw [if_pos hc]
          exact hN hc.1
        · rw [if_neg hc]
          apply hidx
          rw [hEof] at he
          cases hr : r.eof with
          | true => rfl
          | false =>
            rw [hr] at he
            simp only [Bool.false_or, Bool.and_eq_true, decide_eq_true_eq] at he
            exact absurd he hc
      refine ⟨⟨hdr.out_inv, ?_⟩, ?_, hidx3⟩
      · simp only [refreshed]
        rw [hdr.out_capacity_eq, hdr.capacity_eq]
        exact hcap
      · simp only [refreshed]
        intro he
        rw [hdr.end_flag, Bool.or_eq_true, decide_eq_true_eq] at he
        rcases he with he | he
        · have hold := hend he
          have he3 : r3.eof = true := by
            rw [hEof, hold.1]
            rfl
          refine ⟨he3, ?_⟩
          have hb := hdr.eof_bound (by rw [← hdr.eof_eq]; exact he3)
            (by rw [← hdr.eof_idx_eq, hidx3 he3, hold.2, hidx hold.1])
          rw [← hdr.eof_idx_eq] at hb
          have hs := hdr.start_le
          rw [hidx3 he3] at hb ⊢
          have := hidx hold.1
          omega
        · refine ⟨?_, ?_⟩
          · rw [hdr.eof_eq]
            exact he.2.2
          · rw [hdr.eof_idx_eq]
            exact he.2.1
  | close r r' _ hN hp ih =>
    obtain ⟨⟨hinv, hcap⟩, hend, hidx⟩ := ih
    rw [push_empty_eof] at hp
    cases hp
    exact ⟨⟨ByteStream.inv_end_input hinv, hcap⟩, fun _ => ⟨rfl, hN⟩, fun _ => rfl⟩
  | read r len p _ hp ih =>
    obtain ⟨⟨hinv, hcap⟩, hend, hidx⟩ := ih
    rw [ByteStream.read_eq hinv.2] at hp
    cases hp
    refine ⟨⟨?_, hcap⟩, hend, hidx⟩
    obtain ⟨h1, h2⟩ := hinv
    simp only [ByteStream.Inv, List.length_drop]
    omega

end StreamReassembler

/-- C11 as amended. In every state reached from a fresh reassembler by output
reads, by pushes of non-empty substrings whose end index is below `2 ^ 64` and
whose eof flag, when set, always marks the same end index `N`, and by empty
eof-only substrings pushed at `N` when `bytes_written = N`: if the output's
`input_ended` is true then eof is known and `bytes_written = eof_index = N`. -/
theorem StreamReassembler.closed_only_at_eof_index (capacity N : Nat)
    (r : StreamReassembler) (h : StreamReassembler.EofReach capacity N r)
    (hend : r.output.input_ended = true) :
    r.eof = true ∧ r.output.bytes_written = r.eof_idx ∧ r.eof_idx = N := by
  obtain ⟨_, h1, h2⟩ := StreamReassembler.eof_reach_inv h
  obtain ⟨he, hb⟩ := h1 hend
  exact ⟨he, hb, h2 he⟩

/-- Witness of C11: "bc" with eof pushed at index 1, then "a" at index 0, at
capacity 8; the output is closed with `bytes_written = eof_index = 3`. -/
theorem StreamReassembler.closed_only_at_eof_index_witness :
    StreamReassembler.EofReach 8 3
      ⟨⟨['a', 'b', 'c'], 8, 0, 3, true⟩, 8, [], 0, 3, 3, true⟩ ∧
    (⟨['a', 'b', 'c'], 8, 0, 3, true⟩ : ByteStream).input_ended = true ∧
    ((⟨⟨['a', 'b', 'c'], 8, 0, 3, true⟩, 8, [], 0, 3, 3, true⟩ : StreamReassembler).eof = true ∧
      (⟨['a', 'b', 'c'], 8, 0, 3, true⟩ : ByteStream).bytes_written
        = (⟨⟨['a', 'b', 'c'], 8, 0, 3, true⟩, 8, [], 0, 3, 3, true⟩ : StreamReassembler).eof_idx ∧
      (⟨⟨['a', 'b', 'c'], 8, 0, 3, true⟩, 8, [], 0, 3, 3, true⟩ : StreamReassembler).eof_idx
        = 3) :=
  have hr : StreamReassembler.EofReach 8 3
      ⟨⟨['a', 'b', 'c'], 8, 0, 3, true⟩, 8, [], 0, 3, 3, true⟩ :=
    StreamReassembler.EofReach.push _ _ ['a'] 0 false
      (StreamReassembler.EofReach.push _
        ⟨⟨[], 8, 0, 0, false⟩, 8, [(1, 'b'), (2, 'c')], 0, 0, 3, true⟩ ['b', 'c'] 1 true
        StreamReassembler.EofReach.init (by decide) (by decide) (by decide) (by rfl))
      (by decide) (by decide) (by decide) (by rfl)
  ⟨hr, rfl, StreamReassembler.closed_only_at_eof_index 8 3 _ hr rfl⟩

/-- C12, the code at the failing input: on a reassembler of capacity 8, after
`push_substring("abc", 0, false)` the empty eof-only
`push_substring("", 1, true)` records `eof_index = 1` below
`bytes_written = 3` (and closes the output); the same eof flag on a non-empty
substring ending at index 1, `push_substring("a", 0, true)`, is dropped by case
1 and records nothing. -/
theorem StreamReassembler.empty_eof_recorded_below_bytes_written :
    (((StreamReassembler.init 8).push_substring ['a', 'b', 'c'] 0 false).bind fun r =>
        r.push_substring [] 1 true).map
        (fun r => (r.eof, r.eof_idx, r.output.bytes_written, r.output.input_ended))
      = some (true, 1, 3, true) ∧
    (((StreamReassembler.init 8).push_substring ['a', 'b', 'c'] 0 false).bind fun r =>
        r.push_substring ['a'] 0 true).map
        (fun r => (r.eof, r.eof_idx, r.output.bytes_written, r.output.input_ended))
      = some (false, 0, 3, false) := by
  decide

/-- C13 fails when a `size_t` sum wraps around `2 ^ 64`.  At capacity
`2 ^ 64 - 1`, `push_substring("abc", 2 ^ 64 - 2, true)` on a fresh reassembler
records the eof, with `eof_index = 1`, although `index + |data| = 2 ^ 64 + 1`
is above `bytes_read + capacity`; and after `push_substring("a", 0, false)` and
a read of one byte, `first_unacceptable()` is `1 + (2 ^ 64 - 1) = 0`, so that
`push_substring("b", 1, true)` is dropped by case 3 and records nothing,
although `bytes_written = 1 ≤ 2 ≤ bytes_read + capacity = 2 ^ 64`. -/
theorem StreamReassembler.eof_record_fails_on_wrap :
    ((StreamReassembler.init 18446744073709551615).push_substring ['a', 'b', 'c']
        18446744073709551614 true).map (fun r => (r.eof, r.eof_idx)) = some (true, 1) ∧
    ¬ (18446744073709551614 + (['a', 'b', 'c'] : List Char).length
        ≤ (StreamReassembler.init 18446744073709551615).output.bytes_read
          + 18446744073709551615) ∧
    StreamReassembler.run (StreamReassembler.init 18446744073709551615) []
        [.push ['a'] 0 false, .read 1]
      = some (⟨⟨[], 18446744073709551615, 1, 1, false⟩, 18446744073709551615, [], 0, 1, 0,
          false⟩, ['a']) ∧
    ((⟨⟨[], 18446744073709551615, 1, 1, false⟩, 18446744073709551615, [], 0, 1, 0, false⟩ :
        StreamReassembler).push_substring ['b'] 1 true).map (fun r => (r.eof, r.eof_idx))
      = some (false, 0) ∧
    ((⟨[], 18446744073709551615, 1, 1, false⟩ : ByteStream).bytes_written
        ≤ 1 + (['b'] : List Char).length ∧
      1 + (['b'] : List Char).length
        ≤ (⟨[], 18446744073709551615, 1, 1, false⟩ : ByteStream).bytes_read
          + 18446744073709551615) := by
  decide

/-- C13 as amended. In every state reached from a fresh reassembler by pushes
and output reads, for every `push_substring(data, index, true)` with non-empty
`data` such that neither `index + |data|` nor `bytes_read + capacity` reaches
`2 ^ 64`: the call returns; if `bytes_written ≤ index + |data| ≤ bytes_read +
capacity` (taken before the call) it records the eof, leaving eof known with
`eof_index = index + |data|`; otherwise the eof flag is discarded and the
recorded eof knowledge (`_eof`, `_eof_idx`) is as before the call. -/
theorem StreamReassembler.eof_record_rule (capacity : Nat)
    (ops : List StreamReassembler.Op) (r : StreamReassembler) (got : List Char)
    (hr : StreamReassembler.run (StreamReassembler.init capacity) [] ops = some (r, got))
    (data : List Char) (index : Nat) (hd : data ≠ [])
    (hE : index + data.length < SIZE_MOD)
    (hA : r.output.bytes_read + r.capacity < SIZE_MOD) :
    ∃ r', r.push_substring data index true = some r' ∧
      (r.output.bytes_written ≤ index + data.length ∧
          index + data.length ≤ r.output.bytes_read + r.capacity →
        r'.eof = true ∧ r'.eof_idx = index + data.length) ∧
      (¬ (r.output.bytes_written ≤ index + data.length ∧
          index + data.length ≤ r.output.bytes_read + r.capacity) →
        r'.eof = r.eof ∧ r'.eof_idx = r.eof_idx) := by
  have h := StreamReassembler.oinv_run ops _ [] r got
    ⟨ByteStream.inv_init capacity, rfl⟩ hr
  have hA' : wadd r.output.bytes_popped r.capacity = r.output.bytes_popped + r.capacity :=
    StreamReassembler.wadd_of_lt hA
  have hlen : 0 < data.length := List.length_pos.mpr hd
  simp only [ByteStream.bytes_read, ByteStream.bytes_written]
  rcases StreamReassembler.push_spec r data index true h.1 h.2 hd hE with
    ⟨hout, hp⟩ | ⟨h1, h2, w1, r3, hw1, hdr, hp⟩
  · refine ⟨_, hp, ?_, fun _ => ⟨rfl, rfl⟩⟩
    intro hc
    rw [hA'] at hout
    omega
  · refine ⟨_, hp, ?_, ?_⟩
    · intro hc
      have hfit : index + data.length ≤ wadd r.output.bytes_popped r.capacity := by
        rw [hA']
        exact hc.2
      refine ⟨?_, ?_⟩
      · simp only [StreamReassembler.refreshed]
        rw [hdr.eof_eq]
        simp [StreamReassembler.staged, hfit]
      · simp only [StreamReassembler.refreshed]
        rw [hdr.eof_idx_eq]
        simp [StreamReassembler.staged, hfit]
    · intro hc
      have hfit : ¬ index + data.length ≤ wadd r.output.bytes_popped r.capacity := by
        rw [hA']
        exact fun h' => hc ⟨h1, h'⟩
      refine ⟨?_, ?_⟩
      · simp only [StreamReassembler.refreshed]
        rw [hdr.eof_eq]
        simp [StreamReassembler.staged, hfit]
      · simp only [StreamReassembler.refreshed]
        rw [hdr.eof_idx_eq]
        simp [StreamReassembler.staged, hfit]

/-- Witness of C13: "de" with eof at index 3 after "abc", at capacity 8. -/
theorem StreamReassembler.eof_record_rule_witness :
    StreamReassembler.run (StreamReassembler.init 8) [] [.push ['a', 'b', 'c'] 0 false]
      = some (⟨⟨['a', 'b', 'c'], 8, 0, 3, false⟩, 8, [], 0, 3, 0, false⟩, []) ∧
    ∃ r', (⟨⟨['a', 'b', 'c'], 8, 0, 3, false⟩, 8, [], 0, 3, 0, false⟩ :
        StreamReassembler).push_substring ['d', 'e'] 3 true = some r' ∧
      r'.eof = true ∧ r'.eof_idx = 3 + (['d', 'e'] : List Char).length :=
  ⟨by decide,
   (StreamReassembler.eof_record_rule 8 [.push ['a', 'b', 'c'] 0 false] _ [] (by decide)
      ['d', 'e'] 3 (by decide) (by decide) (by decide)).imp
     fun _ h => ⟨h.1, h.2.1 (by decide)⟩⟩

/-! ## Properties of TCPSender -/

namespace TCPSender

theorem foldl_add_length (q : List TCPSegment) (a : Nat) :
    q.foldl (fun n seg => n + seg.length_in_sequence_space) a = a + flight q := by
  induction q generalizing a with
  | nil => simp [flight]
  | cons seg rest ih =>
    simp only [List.foldl_cons, ih, flight, List.map_cons, List.sum_cons]
    omega

theorem bytes_in_flight_eq (s : TCPSender) : s.bytes_in_flight = flight s.send_window := by
  simp [bytes_in_flight, foldl_add_length]

theorem flight_nil : flight [] = 0 := rfl

theorem flight_cons (seg : TCPSegment) (q : List TCPSegment) :
    flight (seg :: q) = seg.length_in_sequence_space + flight q := by
  simp [flight]

theorem flight_append (q q' : List TCPSegment) : flight (q ++ q') = flight q + flight q' := by
  simp [flight]

theorem read_zero {st : ByteStream} (h : st.stream.length ≤ st.capacity) :
    st.read 0 = some ([], st) := by
  rw [ByteStream.read_eq h]
  simp

end TCPSender

namespace TCPSender

theorem send_segment_spec (s : TCPSender) (remaining : Nat) (hinv : ByteStream.Inv s.stream) :
    ∃ s1 new, s.send_segment remaining = some (s1, flight new) ∧
      (new = [] → s1 = s) ∧
      s1 = { s with stream := s1.stream, send_window := s.send_window ++ new,
                    segments_out := s.segments_out ++ new } ∧
      ByteStream.Inv s1.stream ∧ Fits remaining new ∧ Chained s.isn s.next_seqno new := by
  obtain ⟨hp, hc⟩ := hinv
  generalize hsyn : (decide (s.state = .CLOSED) && decide (remaining ≥ 1)) = syn
  have hsyn1 : syn = true → 1 ≤ remaining := by
    intro h
    rw [h] at hsyn
    simp only [Bool.and_eq_true, decide_eq_true_eq] at hsyn
    exact hsyn.2
  generalize hsz : min TCPConfig.MAX_PAYLOAD_SIZE
      (min (wsub remaining (if syn = true then 1 else 0)) s.stream.buffer_size) = payload_sz
  have hsz1 : payload_sz ≤ s.stream.stream.length := by
    rw [← hsz]
    simp only [ByteStream.buffer_size]
    omega
  have hsz2 : payload_sz + (if syn = true then 1 else 0) ≤ remaining := by
    rw [← hsz]
    cases syn with
    | true =>
      have := hsyn1 rfl
      simp only [if_true, ByteStream.wsub_of_le this]
      omega
    | false =>
      simp only [Bool.false_eq_true, if_false, ByteStream.wsub_of_le (Nat.zero_le _)]
      omega
  have hmin : min payload_sz s.stream.stream.length = payload_sz := by omega
  generalize hfin : (decide (({ s with stream :=
      { s.stream with bytes_popped := s.stream.bytes_popped + payload_sz,
                      stream := s.stream.stream.drop payload_sz } } : TCPSender).state
        = .SYN_ACKED_2) &&
      decide (remaining > payload_sz + (if syn = true then 1 else 0))) = fin
  have hfin1 : fin = true → payload_sz + (if syn = true then 1 else 0) + 1 ≤ remaining := by
    intro h
    rw [h] at hfin
    simp only [Bool.and_eq_true, decide_eq_true_eq] at hfin
    omega
  have hsend : s.send_segment remaining
      = if ((TCPSegment.mk (wrap s.next_seqno s.isn) syn fin false (s.stream.stream.take payload_sz) :
            TCPSegment).length_in_sequence_space ≠ 0) then
          some ({ s with
                  stream := { s.stream with bytes_popped := s.stream.bytes_popped + payload_sz,
                                            stream := s.stream.stream.drop payload_sz },
                  segments_out := s.segments_out ++
                    [TCPSegment.mk (wrap s.next_seqno s.isn) syn fin false (s.stream.stream.take payload_sz)],
                  send_window := s.send_window ++
                    [TCPSegment.mk (wrap s.next_seqno s.isn) syn fin false (s.stream.stream.take payload_sz)] },
                (TCPSegment.mk (wrap s.next_seqno s.isn) syn fin false (s.stream.stream.take payload_sz) :
                  TCPSegment).length_in_sequence_space)
        else
          some ({ s with
                  stream := { s.stream with bytes_popped := s.stream.bytes_popped + payload_sz,
                                            stream := s.stream.stream.drop payload_sz } },
                (TCPSegment.mk (wrap s.next_seqno s.isn) syn fin false (s.stream.stream.take payload_sz) :
                  TCPSegment).length_in_sequence_space) := by
    simp only [send_segment, hsyn, hsz, ByteStream.read_eq hc, hmin, hfin]
  rw [hsend]
  have hlen : (TCPSegment.mk (wrap s.next_seqno s.isn) syn fin false (s.stream.stream.take payload_sz) : TCPSegment).length_in_sequence_space
      = payload_sz + (if syn = true then 1 else 0) + (if fin = true then 1 else 0) := by
    simp only [TCPSegment.length_in_sequence_space, List.length_take]
    omega
  have hinv' : ByteStream.Inv { s.stream with
      bytes_popped := s.stream.bytes_popped + payload_sz,
      stream := s.stream.stream.drop payload_sz } := by
    simp only [ByteStream.Inv, List.length_drop]
    omega
  by_cases h0 : (TCPSegment.mk (wrap s.next_seqno s.isn) syn fin false (s.stream.stream.take payload_sz) : TCPSegment).length_in_sequence_space ≠ 0
  · rw [if_pos h0]
    refine ⟨{ s with
        stream := { s.stream with bytes_popped := s.stream.bytes_popped + payload_sz,
                                  stream := s.stream.stream.drop payload_sz },
        segments_out := s.segments_out ++
          [TCPSegment.mk (wrap s.next_seqno s.isn) syn fin false
            (s.stream.stream.take payload_sz)],
        send_window := s.send_window ++
          [TCPSegment.mk (wrap s.next_seqno s.isn) syn fin false
            (s.stream.stream.take payload_sz)] },
      [TCPSegment.mk (wrap s.next_seqno s.isn) syn fin false (s.stream.stream.take payload_sz)],
      ?_, ?_, rfl, hinv', ?_, ?_⟩
    · simp [flight]
    · intro h
      simp at h
    · refine ⟨by omega, ?_, trivial⟩
      rw [hlen]
      cases fin with
      | true =>
        have := hfin1 rfl
        simp only [if_true]
        omega
      | false =>
        simp only [Bool.false_eq_true, if_false]
        omega
    · exact ⟨rfl, by omega, trivial⟩
  · rw [if_neg h0]
    have hz : payload_sz = 0 := by
      rw [hlen] at h0
      omega
    subst hz
    refine ⟨{ s with
        stream := { s.stream with bytes_popped := s.stream.bytes_popped + 0,
                                  stream := s.stream.stream.drop 0 } },
      [], ?_, ?_, ?_, hinv', trivial, trivial⟩
    · have : (TCPSegment.mk (wrap s.next_seqno s.isn) syn fin false (s.stream.stream.take 0) : TCPSegment).length_in_sequence_space = 0 := by
        omega
      rw [this]
      rfl
    · intro _
      simp
    · simp

end TCPSender

namespace TCPSender

theorem fits_flight_le : ∀ (q : List TCPSegment) (room : Nat), Fits room q → flight q ≤ room := by
  intro q
  induction q with
  | nil => intro room _; simp [flight]
  | cons seg rest ih =>
    intro room h
    obtain ⟨h1, h2, h3⟩ := h
    have := ih _ h3
    rw [flight_cons]
    omega

theorem fits_flight_pos {q : List TCPSegment} {room : Nat} (h : Fits room q) (hq : q ≠ []) :
    1 ≤ flight q := by
  cases q with
  | nil => exact absurd rfl hq
  | cons seg rest =>
    rw [flight_cons]
    have := h.1
    omega

theorem fits_append : ∀ (q q' : List TCPSegment) (room : Nat), Fits room q →
    Fits (room - flight q) q' → Fits room (q ++ q') := by
  intro q
  induction q with
  | nil => intro q' room _ h; simpa [flight] using h
  | cons seg rest ih =>
    intro q' room h h'
    obtain ⟨h1, h2, h3⟩ := h
    refine ⟨h1, h2, ih q' _ h3 ?_⟩
    rw [flight_cons] at h'
    have e : room - seg.length_in_sequence_space - flight rest
        = room - (seg.length_in_sequence_space + flight rest) := by omega
    rw [e]
    exact h'

theorem chained_append (isn : Nat) : ∀ (q q' : List TCPSegment) (start : Nat),
    Chained isn start q → Chained isn (start + flight q) q' → Chained isn start (q ++ q') := by
  intro q
  induction q with
  | nil => intro q' start _ h; simpa [flight] using h
  | cons seg rest ih =>
    intro q' start h h'
    obtain ⟨h1, h2, h3⟩ := h
    refine ⟨h1, h2, ih q' _ h3 ?_⟩
    rw [flight_cons, ← Nat.add_assoc] at h'
    exact h'

theorem filled_refl (s : TCPSender) (room : Nat) (hinv : ByteStream.Inv s.stream) :
    Filled s room s [] where
  same := fun _ => rfl
  isn_eq := rfl
  window_eq := rfl
  rto_eq := rfl
  cnt_eq := rfl
  queue_eq := by simp
  out_eq := by simp
  next_eq := by simp [flight]
  timer_eq := fun h => absurd rfl h
  stream_inv := hinv
  fits := trivial
  chained := trivial

theorem fill_loop_spec : ∀ (fuel : Nat) (s : TCPSender) (remaining : Nat),
    ByteStream.Inv s.stream → remaining < fuel →
    ∃ s' new, fill_loop fuel s remaining = some s' ∧ Filled s remaining s' new := by
  intro fuel
  induction fuel with
  | zero => intro s remaining _ h; omega
  | succ fuel ih =>
    intro s remaining hinv hf
    by_cases hr : remaining > 0
    · obtain ⟨s1, new1, e1, hsame, hfields, hinv1, hfits1, hch1⟩ :=
        send_segment_spec s remaining hinv
      by_cases h0 : flight new1 = 0
      · have hnil : new1 = [] := by
          by_contra hne
          have := fits_flight_pos hfits1 hne
          omega
        have hs1 := hsame hnil
        subst hs1
        refine ⟨s1, [], ?_, filled_refl s1 remaining hinv⟩
        rw [fill_loop, if_pos hr, e1]
        simp only [h0, if_true]
      · have hne : new1 ≠ [] := by
          intro h
          rw [h] at h0
          exact h0 rfl
        have hle := fits_flight_le _ _ hfits1
        have e_isn : s1.isn = s.isn := by rw [hfields]
        have e_win : s1.receive_window_size = s.receive_window_size := by rw [hfields]
        have e_rto : s1.initial_retransmission_timeout = s.initial_retransmission_timeout := by
          rw [hfields]
        have e_cnt : s1.consecutive_retransmissions_cnt = s.consecutive_retransmissions_cnt := by
          rw [hfields]
        have e_timer : s1.timer = s.timer := by rw [hfields]
        have e_next : s1.next_seqno = s.next_seqno := by rw [hfields]
        have e_queue : s1.send_window = s.send_window ++ new1 := by rw [hfields]
        have e_out : s1.segments_out = s.segments_out ++ new1 := by rw [hfields]
        obtain ⟨s', new2, e2, hfill⟩ := ih
          (s1.timer_when_filling.update_when_filling (flight new1) remaining).1
          (s1.timer_when_filling.update_when_filling (flight new1) remaining).2
          (by
            simp only [update_when_filling, timer_when_filling]
            split <;> exact hinv1)
          (by
            simp only [update_when_filling, ByteStream.wsub_of_le hle]
            omega)
        have ht2 : (s1.timer_when_filling.update_when_filling (flight new1) remaining).1.timer
            = if s.timer.active = true then s.timer
              else Timer.start s.timer s.initial_retransmission_timeout := by
          cases ha : s.timer.active with
          | true => simp [update_when_filling, timer_when_filling, e_timer, ha]
          | false =>
            simp [update_when_filling, timer_when_filling, e_timer, e_rto, ha, Timer.start,
              Timer.reset]
        have hact2 :
            (s1.timer_when_filling.update_when_filling (flight new1) remaining).1.timer.active
              = true := by
          rw [ht2]
          cases ha : s.timer.active with
          | true => simpa using ha
          | false => simp [Timer.start]
        have hq2 : (s1.timer_when_filling.update_when_filling (flight new1) remaining).1.send_window
            = s.send_window ++ new1 := by
          simp only [update_when_filling, timer_when_filling]
          split <;> exact e_queue
        have ho2 : (s1.timer_when_filling.update_when_filling (flight new1)
            remaining).1.segments_out = s.segments_out ++ new1 := by
          simp only [update_when_filling, timer_when_filling]
          split <;> exact e_out
        have hn2 : (s1.timer_when_filling.update_when_filling (flight new1) remaining).1.next_seqno
            = s.next_seqno + flight new1 := by
          simp only [update_when_filling, timer_when_filling]
          split <;> simp [e_next]
        have hi2 : (s1.timer_when_filling.update_when_filling (flight new1) remaining).1.isn
            = s.isn := by
          simp only [update_when_filling, timer_when_filling]
          split <;> exact e_isn
        have hw2 : (s1.timer_when_filling.update_when_filling (flight new1)
            remaining).1.receive_window_size = s.receive_window_size := by
          simp only [update_when_filling, timer_when_filling]
          split <;> exact e_win
        have hr2 : (s1.timer_when_filling.update_when_filling (flight new1)
            remaining).1.initial_retransmission_timeout = s.initial_retransmission_timeout := by
          simp only [update_when_filling, timer_when_filling]
          split <;> exact e_rto
        have hc2 : (s1.timer_when_filling.update_when_filling (flight new1)
            remaining).1.consecutive_retransmissions_cnt = s.consecutive_retransmissions_cnt := by
          simp only [update_when_filling, timer_when_filling]
          split <;> exact e_cnt
        have hrem2 : (s1.timer_when_filling.update_when_filling (flight new1) remaining).2
            = remaining - flight new1 := by
          simp only [update_when_filling, ByteStream.wsub_of_le hle]
        refine ⟨s', new1 ++ new2, ?_, ?_⟩
        · rw [fill_loop, if_pos hr, e1]
          simp only [h0, if_false]
          exact e2
        · exact
            { same := fun h => absurd (List.append_eq_nil.mp h).1 hne
              isn_eq := by rw [hfill.isn_eq, hi2]
              window_eq := by rw [hfill.window_eq, hw2]
              rto_eq := by rw [hfill.rto_eq, hr2]
              cnt_eq := by rw [hfill.cnt_eq, hc2]
              queue_eq := by rw [hfill.queue_eq, hq2, List.append_assoc]
              out_eq := by rw [hfill.out_eq, ho2, List.append_assoc]
              next_eq := by rw [hfill.next_eq, hn2, flight_append, Nat.add_assoc]
              timer_eq := fun _ => by
                by_cases hn : new2 = []
                · rw [hfill.same hn, ht2]
                · rw [hfill.timer_eq hn, if_pos hact2, ht2]
              stream_inv := hfill.stream_inv
              fits := fits_append _ _ _ hfits1 (by rw [← hrem2]; exact hfill.fits)
              chained := chained_append _ _ _ _ hch1 (by
                have := hfill.chained
                rw [hi2, hn2] at this
                exact this) }
    · refine ⟨s, [], ?_, filled_refl s remaining hinv⟩
      rw [fill_loop, if_neg hr]

end TCPSender

namespace TCPSender

theorem window_or_one (s : TCPSender) :
    (if s.receive_window_size = 0 then 1 else s.receive_window_size)
      = max s.receive_window_size 1 := by
  split <;> omega

theorem fits_zero {q : List TCPSegment} (h : Fits 0 q) : q = [] := by
  cases q with
  | nil => rfl
  | cons seg rest =>
    have := h.1
    have := h.2.1
    omega

theorem fill_window_spec (s : TCPSender) (hinv : ByteStream.Inv s.stream) :
    ∃ s' new, s.fill_window = some s' ∧
      Filled s (max s.receive_window_size 1 - flight s.send_window) s' new := by
  simp only [fill_window, window_or_one, bytes_in_flight_eq]
  by_cases h : flight s.send_window > max s.receive_window_size 1
  · rw [if_pos h]
    exact ⟨s, [], rfl, filled_refl s _ hinv⟩
  · rw [if_neg h, ByteStream.wsub_of_le (by omega)]
    exact fill_loop_spec _ s _ hinv (by omega)

theorem fill_window_full (s : TCPSender) (hinv : ByteStream.Inv s.stream)
    (h : max s.receive_window_size 1 ≤ flight s.send_window) : s.fill_window = some s := by
  obtain ⟨s', new, e, hf⟩ := fill_window_spec s hinv
  have h0 : max s.receive_window_size 1 - flight s.send_window = 0 := by omega
  have hfits := hf.fits
  rw [h0] at hfits
  rw [e, hf.same (fits_zero hfits)]

end TCPSender

namespace TCPSender

theorem inv_fresh (capacity retx_timeout isn : Nat) : Inv 1 (init capacity retx_timeout isn) where
  stream_inv := ByteStream.inv_init capacity
  flight_le := by simp [init, flight]
  window_le := by simp [init]
  one_le := Nat.le_refl 1
  timer_iff := by simp [init, Timer.init]

theorem inv_mono {W W' : Nat} {s : TCPSender} (h : Inv W s) (hW : W ≤ W') : Inv W' s where
  stream_inv := h.stream_inv
  flight_le := Nat.le_trans h.flight_le hW
  window_le := Nat.le_trans h.window_le hW
  one_le := Nat.le_trans h.one_le hW
  timer_iff := h.timer_iff

theorem filled_timer_active {s s' : TCPSender} {room : Nat} {new : List TCPSegment}
    (h : Filled s room s' new) (hne : new ≠ []) : s'.timer.active = true := by
  rw [h.timer_eq hne]
  cases ha : s.timer.active with
  | true => simpa using ha
  | false => simp [Timer.start]

theorem inv_filled {W : Nat} {s s' : TCPSender} {new : List TCPSegment} (h : Inv W s)
    (hf : Filled s (max s.receive_window_size 1 - flight s.send_window) s' new) :
    Inv W s' where
  stream_inv := hf.stream_inv
  flight_le := by
    rw [hf.queue_eq, flight_append]
    have := fits_flight_le _ _ hf.fits
    have := h.flight_le
    have := h.window_le
    have := h.one_le
    omega
  window_le := by rw [hf.window_eq]; exact h.window_le
  one_le := h.one_le
  timer_iff := by
    by_cases hn : new = []
    · rw [hf.same hn]
      exact h.timer_iff
    · rw [hf.queue_eq]
      constructor
      · intro _ hc
        exact hn (List.append_eq_nil.mp hc).2
      · intro _
        exact filled_timer_active hf hn

theorem inv_fill_window {W : Nat} {s : TCPSender} (h : Inv W s) :
    ∃ s', s.fill_window = some s' ∧ Inv W s' := by
  obtain ⟨s', new, e, hf⟩ := fill_window_spec s h.stream_inv
  exact ⟨s', e, inv_filled h hf⟩

theorem remove_acked_flight_le (isn next_seqno abs_ackno : Nat) (q : List TCPSegment) :
    flight (remove_acked isn next_seqno abs_ackno q).1 ≤ flight q := by
  induction q with
  | nil => simp [remove_acked]
  | cons seg rest ih =>
    simp only [remove_acked]
    split
    · exact Nat.le_refl _
    · split
      · rw [flight_cons]
        simp only
        omega
      · simp only [flight_cons]
        omega

theorem remove_acked_none (isn next_seqno abs_ackno : Nat) (q : List TCPSegment)
    (h : (remove_acked isn next_seqno abs_ackno q).2 = false) :
    (remove_acked isn next_seqno abs_ackno q).1 = q := by
  induction q with
  | nil => simp [remove_acked]
  | cons seg rest ih =>
    simp only [remove_acked] at h ⊢
    split
    · rfl
    · rename_i h1
      rw [if_neg h1] at h
      split
      · rename_i h2
        rw [if_pos h2] at h
        simp at h
      · rename_i h2
        rw [if_neg h2] at h
        simp only at h ⊢
        rw [ih h]

/-- The sender that `ack_received` hands to `fill_window` when the ack is not
beyond `next_seqno` and segments are outstanding. -/
theorem ack_received_eq (s : TCPSender) (ackno window_size : Nat)
    (ha : ¬ unwrap ackno s.isn s.next_seqno > s.next_seqno) (hq : s.send_window ≠ []) :
    s.ack_received ackno window_size
      = if (remove_acked s.isn s.next_seqno (unwrap ackno s.isn s.next_seqno)
            s.send_window).2 = false then
          ({ s with receive_window_size := window_size,
                    send_window := (remove_acked s.isn s.next_seqno
                      (unwrap ackno s.isn s.next_seqno) s.send_window).1 } :
            TCPSender).fill_window
        else
          ({ s with receive_window_size := window_size,
                    send_window := (remove_acked s.isn s.next_seqno
                      (unwrap ackno s.isn s.next_seqno) s.send_window).1,
                    consecutive_retransmissions_cnt := 0,
                    timer :=
                      if (remove_acked s.isn s.next_seqno (unwrap ackno s.isn s.next_seqno)
                          s.send_window).1.isEmpty = false then
                        Timer.start s.timer.reset s.initial_retransmission_timeout
                      else s.timer.reset } : TCPSender).fill_window := by
  have hq' : s.send_window.isEmpty = false := by
    cases hs : s.send_window with
    | nil => exact absurd hs hq
    | cons _ _ => rfl
  simp only [ack_received, if_neg ha, hq', Bool.false_eq_true, if_false]
  split
  · rfl
  · split <;> rfl

theorem inv_ack_received {W : Nat} {s : TCPSender} (h : Inv W s) (ackno window_size : Nat) :
    ∃ s', s.ack_received ackno window_size = some s' ∧ Inv (max W window_size) s' := by
  have h0 : Inv (max W window_size) { s with receive_window_size := window_size } :=
    { stream_inv := h.stream_inv
      flight_le := Nat.le_trans h.flight_le (Nat.le_max_left _ _)
      window_le := Nat.le_max_right _ _
      one_le := Nat.le_trans h.one_le (Nat.le_max_left _ _)
      timer_iff := h.timer_iff }
  by_cases ha : unwrap ackno s.isn s.next_seqno > s.next_seqno
  · exact ⟨_, by simp only [ack_received, if_pos ha], h0⟩
  by_cases hq : s.send_window = []
  · refine ⟨_, ?_, h0⟩
    simp only [ack_received, if_neg ha, hq, List.isEmpty_nil, if_true]
  rw [ack_received_eq s ackno window_size ha hq]
  have hfl := remove_acked_flight_le s.isn s.next_seqno (unwrap ackno s.isn s.next_seqno)
    s.send_window
  by_cases hr : (remove_acked s.isn s.next_seqno (unwrap ackno s.isn s.next_seqno)
      s.send_window).2 = false
  · rw [if_pos hr, remove_acked_none _ _ _ _ hr]
    exact inv_fill_window h0
  · rw [if_neg hr]
    apply inv_fill_window
    exact
      { stream_inv := h.stream_inv
        flight_le := Nat.le_trans hfl (Nat.le_trans h.flight_le (Nat.le_max_left _ _))
        window_le := Nat.le_max_right _ _
        one_le := Nat.le_trans h.one_le (Nat.le_max_left _ _)
        timer_iff := by
          cases hrem : (remove_acked s.isn s.next_seqno (unwrap ackno s.isn s.next_seqno)
              s.send_window).1 with
          | nil => simp [Timer.reset]
          | cons _ _ => simp [Timer.reset, Timer.start] }

theorem inv_tick {W : Nat} {s : TCPSender} (h : Inv W s) (ms : Nat) :
    ∃ s', s.tick ms = some s' ∧ Inv W s' ∧ s'.send_window = s.send_window ∧
      s'.next_seqno = s.next_seqno := by
  cases hact : s.timer.active with
  | false => exact ⟨s, by simp [tick, hact], h, rfl, rfl⟩
  | true =>
    have hq := h.timer_iff.mp hact
    cases hsw : s.send_window with
    | nil => exact absurd hsw hq
    | cons oldest rest =>
      by_cases hal : s.timer.alarm > ms
      · refine ⟨{ s with timer := { s.timer with alarm := s.timer.alarm - ms } }, ?_, ?_, ?_, rfl⟩
        · simp [tick, hact, Timer.elapse, hal]
        · exact
            { stream_inv := h.stream_inv
              flight_le := h.flight_le
              window_le := h.window_le
              one_le := h.one_le
              timer_iff := by simp [hact, hq] }
        · exact hsw
      · by_cases hw : s.receive_window_size > 0
        · refine ⟨{ s with
              consecutive_retransmissions_cnt := (s.consecutive_retransmissions_cnt + 1) % SEQ_MOD,
              timer := Timer.start s.timer ((s.timer.initial_alarm * 2) % SIZE_MOD),
              segments_out := s.segments_out ++ [oldest] }, ?_, ?_, ?_, rfl⟩
          · simp [tick, hact, Timer.elapse, hal, hsw, hw, Timer.start, Timer.reset]
          · exact
              { stream_inv := h.stream_inv
                flight_le := h.flight_le
                window_le := h.window_le
                one_le := h.one_le
                timer_iff := by simp [Timer.start, hq] }
          · exact hsw
        · refine ⟨{ s with
              timer := Timer.start s.timer s.timer.initial_alarm,
              segments_out := s.segments_out ++ [oldest] }, ?_, ?_, ?_, rfl⟩
          · simp [tick, hact, Timer.elapse, hal, hsw, hw, Timer.start, Timer.reset]
          · exact
              { stream_inv := h.stream_inv
                flight_le := h.flight_le
                window_le := h.window_le
                one_le := h.one_le
                timer_iff := by simp [Timer.start, hq] }
          · exact hsw

theorem window_le_window (W : Nat) (op : Op) : W ≤ op.window W := by
  cases op <;> simp [Op.window]

theorem inv_step {W : Nat} {s : TCPSender} (h : Inv W s) (op : Op) :
    ∃ s', s.step op = some s' ∧ Inv (op.window W) s' := by
  cases op with
  | fill_window => exact inv_fill_window h
  | ack_received ackno window_size => exact inv_ack_received h ackno window_size
  | tick ms =>
    obtain ⟨s', e, h', _⟩ := inv_tick h ms
    exact ⟨s', e, h'⟩
  | send_empty_segment rst =>
    exact ⟨_, rfl,
      { stream_inv := h.stream_inv, flight_le := h.flight_le, window_le := h.window_le,
        one_le := h.one_le, timer_iff := h.timer_iff }⟩
  | write data =>
    exact ⟨_, rfl,
      { stream_inv := ByteStream.inv_write h.stream_inv data, flight_le := h.flight_le,
        window_le := h.window_le, one_le := h.one_le, timer_iff := h.timer_iff }⟩
  | end_input =>
    exact ⟨_, rfl,
      { stream_inv := ByteStream.inv_end_input h.stream_inv, flight_le := h.flight_le,
        window_le := h.window_le, one_le := h.one_le, timer_iff := h.timer_iff }⟩

theorem inv_run : ∀ (ops : List Op) (W : Nat) (s : TCPSender), Inv W s →
    ∃ s', s.run ops = some s' ∧ Inv (ops.foldl Op.window W) s' := by
  intro ops
  induction ops with
  | nil => intro W s h; exact ⟨s, rfl, h⟩
  | cons op ops ih =>
    intro W s h
    obtain ⟨s1, e1, h1⟩ := inv_step h op
    obtain ⟨s2, e2, h2⟩ := ih _ s1 h1
    exact ⟨s2, by simp [run, e1, e2], h2⟩

theorem inv_of_run {capacity retx_timeout isn : Nat} {ops : List Op} {s : TCPSender}
    (h : (init capacity retx_timeout isn).run ops = some s) : Inv (largest_window ops) s := by
  obtain ⟨s', e, h'⟩ := inv_run ops 1 _ (inv_fresh capacity retx_timeout isn)
  rw [h] at e
  cases e
  exact h'

end TCPSender


/-! ## The claims on `fill_window` and on the bytes in flight -/

/-- C14: on a freshly constructed sender with initial sequence number `isn`
(a `WrappingInt32`), whatever its outbound stream `st` holds, the first
`fill_window` returns and pushes exactly one segment onto `segments_out` and
onto the outstanding queue: `syn` set, `seqno = isn`, empty payload, no `fin`.
Afterwards `next_seqno = 1`, `bytes_in_flight = 1`, the timer runs with the
initial timeout, the stream is untouched, and a second `fill_window` changes
nothing. -/
theorem TCPSender.first_fill_window_emits_syn (capacity retx_timeout isn : Nat)
    (st : ByteStream) (hisn : isn < SEQ_MOD) (hst : ByteStream.Inv st) :
    ∃ s1, ({ TCPSender.init capacity retx_timeout isn with stream := st } :
        TCPSender).fill_window = some s1 ∧
      s1.segments_out = [TCPSegment.mk isn true false false []] ∧
      s1.send_window = [TCPSegment.mk isn true false false []] ∧
      s1.next_seqno = 1 ∧ s1.bytes_in_flight = 1 ∧
      s1.timer = Timer.mk true retx_timeout retx_timeout ∧
      s1.stream = st ∧ s1.receive_window_size = 1 ∧
      s1.consecutive_retransmissions = 0 ∧
      s1.fill_window = some s1 := by
  have hr := TCPSender.read_zero hst.2
  have hw : wrap 0 isn = isn := by
    simp only [wrap, Nat.zero_mod, Nat.add_zero]
    exact Nat.mod_eq_of_lt hisn
  refine ⟨{ TCPSender.init capacity retx_timeout isn with
      stream := st, segments_out := [TCPSegment.mk isn true false false []],
      send_window := [TCPSegment.mk isn true false false []], next_seqno := 1,
      timer := Timer.mk true retx_timeout retx_timeout }, ?_, rfl, rfl, rfl, rfl, rfl, rfl, rfl,
    rfl, ?_⟩
  · simp [TCPSender.fill_window, TCPSender.init, TCPSender.bytes_in_flight, wsub,
      TCPSender.fill_loop, TCPSender.send_segment, TCPSender.state, hr, hw,
      TCPSegment.length_in_sequence_space, TCPSender.timer_when_filling,
      TCPSender.update_when_filling, Timer.init, Timer.reset, Timer.start]
  · simp [TCPSender.fill_window, TCPSender.init, TCPSender.bytes_in_flight, wsub,
      TCPSender.fill_loop, TCPSegment.length_in_sequence_space]

/-- Witness of C14: a sender with initial sequence number 7 whose stream
already holds `"hi"`. -/
theorem TCPSender.first_fill_window_emits_syn_witness :
    (7 < SEQ_MOD ∧ ByteStream.Inv (ByteStream.mk ['h', 'i'] 8 0 2 false)) ∧
    ∃ s1, ({ TCPSender.init 8 1000 7 with stream := ByteStream.mk ['h', 'i'] 8 0 2 false } :
        TCPSender).fill_window = some s1 ∧
      s1.segments_out = [TCPSegment.mk 7 true false false []] ∧
      s1.send_window = [TCPSegment.mk 7 true false false []] ∧
      s1.next_seqno = 1 ∧ s1.bytes_in_flight = 1 ∧
      s1.timer = Timer.mk true 1000 1000 ∧
      s1.stream = ByteStream.mk ['h', 'i'] 8 0 2 false ∧ s1.receive_window_size = 1 ∧
      s1.consecutive_retransmissions = 0 ∧
      s1.fill_window = some s1 :=
  ⟨⟨by decide, ⟨rfl, by decide⟩⟩,
    TCPSender.first_fill_window_emits_syn 8 1000 7 (ByteStream.mk ['h', 'i'] 8 0 2 false)
      (by decide) ⟨rfl, by decide⟩⟩

/-- C15: let `w = max(peer_window, 1)`.  On every sender whose stream satisfies
the class invariant of `ByteStream`, `fill_window` returns; if
`bytes_in_flight >= w` it changes nothing; if `bytes_in_flight < w` the segments
it emits, which are what it appends to `segments_out` and to the outstanding
queue, each have a length in sequence space between 1 and the room left when
they are emitted (starting from `w - bytes_in_flight`), and
`bytes_in_flight <= w` when it returns. -/
theorem TCPSender.fill_window_respects_window (s : TCPSender)
    (hinv : ByteStream.Inv s.stream) :
    (max s.receive_window_size 1 ≤ s.bytes_in_flight → s.fill_window = some s) ∧
    (s.bytes_in_flight < max s.receive_window_size 1 →
      ∃ s1 new, s.fill_window = some s1 ∧
        s1.segments_out = s.segments_out ++ new ∧
        s1.send_window = s.send_window ++ new ∧
        TCPSender.Fits (max s.receive_window_size 1 - s.bytes_in_flight) new ∧
        s1.receive_window_size = s.receive_window_size ∧
        s1.bytes_in_flight ≤ max s.receive_window_size 1) := by
  constructor
  · intro h
    rw [TCPSender.bytes_in_flight_eq] at h
    exact TCPSender.fill_window_full s hinv h
  · intro h
    obtain ⟨s1, new, e, hf⟩ := TCPSender.fill_window_spec s hinv
    rw [TCPSender.bytes_in_flight_eq] at h ⊢
    refine ⟨s1, new, e, hf.out_eq, hf.queue_eq, hf.fits, hf.window_eq, ?_⟩
    rw [TCPSender.bytes_in_flight_eq, hf.queue_eq, TCPSender.flight_append]
    have := TCPSender.fits_flight_le _ _ hf.fits
    omega

/-- Witness of C15: the sender that has sent its SYN, was acked with a window of
4 and holds `"abcdef"` in its stream, once with the SYN acked (room 4) and
once with the window full. -/
theorem TCPSender.fill_window_respects_window_witness :
    ByteStream.Inv (ByteStream.mk ['a', 'b', 'c', 'd', 'e', 'f'] 8 0 6 false) ∧
    ((max 4 1 ≤ (TCPSender.mk 0 [] 4 1000 Timer.init
          (ByteStream.mk ['a', 'b', 'c', 'd', 'e', 'f'] 8 0 6 false) 0 1 []).bytes_in_flight →
        (TCPSender.mk 0 [] 4 1000 Timer.init
          (ByteStream.mk ['a', 'b', 'c', 'd', 'e', 'f'] 8 0 6 false) 0 1 []).fill_window
          = some (TCPSender.mk 0 [] 4 1000 Timer.init
          (ByteStream.mk ['a', 'b', 'c', 'd', 'e', 'f'] 8 0 6 false) 0 1 [])) ∧
      ((TCPSender.mk 0 [] 4 1000 Timer.init
          (ByteStream.mk ['a', 'b', 'c', 'd', 'e', 'f'] 8 0 6 false) 0 1 []).bytes_in_flight
          < max 4 1 →
        ∃ s1 new, (TCPSender.mk 0 [] 4 1000 Timer.init
            (ByteStream.mk ['a', 'b', 'c', 'd', 'e', 'f'] 8 0 6 false) 0 1 []).fill_window
            = some s1 ∧
          s1.segments_out = [] ++ new ∧ s1.send_window = [] ++ new ∧
          TCPSender.Fits (max 4 1 - (TCPSender.mk 0 [] 4 1000 Timer.init
            (ByteStream.mk ['a', 'b', 'c', 'd', 'e', 'f'] 8 0 6 false) 0 1 []).bytes_in_flight)
            new ∧
          s1.receive_window_size = 4 ∧ s1.bytes_in_flight ≤ max 4 1)) :=
  ⟨⟨rfl, by decide⟩,
    TCPSender.fill_window_respects_window
      (TCPSender.mk 0 [] 4 1000 Timer.init
        (ByteStream.mk ['a', 'b', 'c', 'd', 'e', 'f'] 8 0 6 false) 0 1 [])
      ⟨rfl, by decide⟩⟩

set_option maxRecDepth 100000 in
/-- C16 fails when the peer shrinks its window: on a sender of capacity 2000
and initial sequence number 0, after `write` of 1462 bytes, `fill_window` (the
SYN), `ack_received(1, 1462)` (which emits segments of 1460 and 2 bytes) and
`ack_received(1, 0)`, the stored window is 0 and 1462 sequence numbers are in
flight, more than `max(0, 1) + 1460 = 1461`. -/
theorem TCPSender.in_flight_exceeds_last_window :
    ((TCPSender.init 2000 1000 0).run
        [.write (List.replicate 1462 'a'), .fill_window, .ack_received 1 1462,
          .ack_received 1 0]).map
        (fun s => (s.bytes_in_flight, s.receive_window_size,
          decide (s.bytes_in_flight ≤ max s.receive_window_size 1 + TCPConfig.MAX_PAYLOAD_SIZE)))
      = some (1462, 0, false) := by
  decide

/-- C16, amended: every sequence of `fill_window`, `ack_received`, `tick` and
`send_empty_segment` calls and of writes to and ends of input of the outbound
stream, on a freshly constructed sender, returns (nothing throws, no `assert`
fails), and in the state reached `bytes_in_flight` is at most `max(W, 1)`, hence
at most `max(W, 1) + MAX_PAYLOAD_SIZE`, where `W` is the largest window that
`ack_received` has stored so far. -/
theorem TCPSender.in_flight_bound (capacity retx_timeout isn : Nat) (ops : List TCPSender.Op) :
    ∃ s, (TCPSender.init capacity retx_timeout isn).run ops = some s ∧
      s.bytes_in_flight ≤ TCPSender.largest_window ops ∧
      s.bytes_in_flight ≤ TCPSender.largest_window ops + TCPConfig.MAX_PAYLOAD_SIZE ∧
      s.receive_window_size ≤ TCPSender.largest_window ops := by
  obtain ⟨s, e, h⟩ := TCPSender.inv_run ops 1 _ (TCPSender.inv_fresh capacity retx_timeout isn)
  refine ⟨s, e, ?_, ?_, h.window_le⟩
  · rw [TCPSender.bytes_in_flight_eq]
    exact h.flight_le
  · rw [TCPSender.bytes_in_flight_eq]
    exact Nat.le_trans h.flight_le (Nat.le_add_right _ _)

/-! ## The outstanding queue under `ack_received` -/

namespace TCPSender

theorem unwrap_wrap (n isn c : Nat) (hisn : isn < SEQ_MOD) (hn : n ≤ c)
    (hc : c - n ≤ 2147483648) : unwrap (wrap n isn) isn c = n := by
  simp only [unwrap, wrap, SEQ_MOD, SIZE_MOD] at *
  split_ifs <;> omega

theorem chained_mem (isn next : Nat) (hisn : isn < SEQ_MOD) :
    ∀ (q : List TCPSegment) (start : Nat), Chained isn start q → start + flight q ≤ next →
      next - start ≤ 2147483648 →
      ∀ seg ∈ q, start ≤ unwrap seg.seqno isn next ∧ 1 ≤ seg.length_in_sequence_space ∧
        unwrap seg.seqno isn next + seg.length_in_sequence_space ≤ start + flight q := by
  intro q
  induction q with
  | nil => intro start _ _ _ seg hseg; simp at hseg
  | cons hd rest ih =>
    intro start hch hle hb seg hseg
    obtain ⟨h1, h2, h3⟩ := hch
    rw [flight_cons] at hle ⊢
    rcases List.mem_cons.mp hseg with e | hmem
    · subst e
      rw [h1, unwrap_wrap start isn next hisn (by omega) hb]
      omega
    · have := ih (start + hd.length_in_sequence_space) h3 (by omega) (by omega) seg hmem
      omega

theorem remove_acked_split (isn next a : Nat) (hisn : isn < SEQ_MOD) :
    ∀ (q : List TCPSegment) (start : Nat), Chained isn start q → start + flight q ≤ next →
      next - start ≤ 2147483648 →
      ∃ removed, q = removed ++ (remove_acked isn next a q).1 ∧
        (∀ seg ∈ removed, unwrap seg.seqno isn next + seg.length_in_sequence_space ≤ a) ∧
        (∀ seg ∈ (remove_acked isn next a q).1,
          a < unwrap seg.seqno isn next + seg.length_in_sequence_space) ∧
        Chained isn (start + flight removed) (remove_acked isn next a q).1 ∧
        ((remove_acked isn next a q).2 = true ↔ removed ≠ []) ∧
        (remove_acked isn next a q).1 = remove_covered_heads isn next a q := by
  intro q
  induction q with
  | nil =>
    intro start _ _ _
    exact ⟨[], by simp [remove_acked, remove_covered_heads, flight, Chained]⟩
  | cons hd rest ih =>
    intro start hch hle hb
    have hmem := chained_mem isn next hisn (hd :: rest) start hch hle hb
    obtain ⟨h1, h2, h3⟩ := hch
    have hu : unwrap hd.seqno isn next = start := by
      rw [h1]
      exact unwrap_wrap start isn next hisn (by omega) hb
    rw [flight_cons] at hle
    by_cases c1 : start ≥ a
    · refine ⟨[], ?_⟩
      have e : remove_acked isn next a (hd :: rest) = (hd :: rest, false) := by
        simp only [remove_acked, hu, if_pos c1]
      have e' : remove_covered_heads isn next a (hd :: rest) = hd :: rest := by
        simp only [remove_covered_heads, hu]
        rw [if_neg (by omega)]
      rw [e, e']
      refine ⟨rfl, by simp, ?_, ?_, by simp, rfl⟩
      · intro seg hseg
        have := hmem seg hseg
        omega
      · simpa [flight] using (⟨h1, h2, h3⟩ : Chained isn start (hd :: rest))
    · by_cases c2 : start + hd.length_in_sequence_space ≤ a
      · obtain ⟨removed, e1, e2, e3, e4, _, e6⟩ :=
          ih (start + hd.length_in_sequence_space) h3 (by omega) (by omega)
        have e : remove_acked isn next a (hd :: rest)
            = ((remove_acked isn next a rest).1, true) := by
          simp only [remove_acked, hu, if_neg c1, if_pos c2]
        have e' : remove_covered_heads isn next a (hd :: rest)
            = remove_covered_heads isn next a rest := by
          simp only [remove_covered_heads, hu, if_pos c2]
        rw [e, e']
        refine ⟨hd :: removed, ?_, ?_, e3, ?_, by simp, e6⟩
        · simp only [List.cons_append]
          rw [← e1]
        · intro seg hseg
          rcases List.mem_cons.mp hseg with e0 | hm
          · subst e0
            rw [hu]
            exact c2
          · exact e2 seg hm
        · rw [flight_cons, ← Nat.add_assoc]
          exact e4
      · have hrest : remove_acked isn next a rest = (rest, false) := by
          cases rest with
          | nil => rfl
          | cons hd2 rest2 =>
            have hu2 : unwrap hd2.seqno isn next = start + hd.length_in_sequence_space := by
              rw [h3.1]
              rw [flight_cons] at hle
              exact unwrap_wrap _ isn next hisn (by omega) (by omega)
            simp only [remove_acked, hu2]
            rw [if_pos (by omega)]
        have e : remove_acked isn next a (hd :: rest) = (hd :: rest, false) := by
          simp only [remove_acked, hu, if_neg c1, if_neg c2, hrest]
        have e' : remove_covered_heads isn next a (hd :: rest) = hd :: rest := by
          simp only [remove_covered_heads, hu, if_neg c2]
        rw [e, e']
        refine ⟨[], rfl, by simp, ?_, ?_, by simp, rfl⟩
        · intro seg hseg
          rcases List.mem_cons.mp hseg with e0 | hm
          · subst e0
            rw [hu]
            omega
          · have := chained_mem isn next hisn rest _ h3 (by omega) (by omega) seg hm
            omega
        · simpa [flight] using (⟨h1, h2, h3⟩ : Chained isn start (hd :: rest))

end TCPSender

namespace TCPSender

theorem ordered_init (capacity retx_timeout isn : Nat) (hisn : isn < SEQ_MOD) :
    Ordered (init capacity retx_timeout isn) where
  isn_lt := hisn
  flight_le_next := by simp [init, flight]
  chained := by simp [init, Chained]

theorem ordered_append {s s1 : TCPSender} {kept new : List TCPSegment} (hisn : s.isn < SEQ_MOD)
    (e_isn : s1.isn = s.isn) (e_q : s1.send_window = kept ++ new)
    (e_next : s1.next_seqno = s.next_seqno + flight new) (hle : flight kept ≤ s.next_seqno)
    (hk : Chained s.isn (s.next_seqno - flight kept) kept)
    (hn : Chained s.isn s.next_seqno new) : Ordered s1 where
  isn_lt := by rw [e_isn]; exact hisn
  flight_le_next := by rw [e_q, e_next, flight_append]; omega
  chained := by
    rw [e_q, e_next, e_isn, flight_append]
    have e : s.next_seqno + flight new - (flight kept + flight new)
        = s.next_seqno - flight kept := by omega
    rw [e]
    apply chained_append _ _ _ _ hk
    have e2 : s.next_seqno - flight kept + flight kept = s.next_seqno := by omega
    rw [e2]
    exact hn

theorem ordered_filled {s s1 : TCPSender} {room : Nat} {new : List TCPSegment} (h : Ordered s)
    (hf : Filled s room s1 new) : Ordered s1 :=
  ordered_append h.isn_lt hf.isn_eq hf.queue_eq hf.next_eq h.flight_le_next h.chained hf.chained

theorem ack_received_spec {W : Nat} {s : TCPSender} (hinv : Inv W s) (hW : W ≤ 2147483648)
    (hord : Ordered s) (ackno window_size : Nat)
    (ha : unwrap ackno s.isn s.next_seqno ≤ s.next_seqno) :
    ∃ s1 removed kept new, s.ack_received ackno window_size = some s1 ∧
      s.send_window = removed ++ kept ∧
      (∀ seg ∈ removed,
        abs_start s seg + seg.length_in_sequence_space ≤ unwrap ackno s.isn s.next_seqno) ∧
      (∀ seg ∈ kept,
        unwrap ackno s.isn s.next_seqno < abs_start s seg + seg.length_in_sequence_space) ∧
      s1.send_window = kept ++ new ∧ s1.segments_out = s.segments_out ++ new ∧
      s1.next_seqno = s.next_seqno + flight new ∧ s1.isn = s.isn ∧
      Chained s.isn (s.next_seqno - flight kept) kept ∧ Chained s.isn s.next_seqno new ∧
      (removed ≠ [] → s1.consecutive_retransmissions_cnt = 0 ∧
        (s1.send_window ≠ [] →
          s1.timer = Timer.mk true s.initial_retransmission_timeout
            s.initial_retransmission_timeout) ∧
        (s1.send_window = [] → s1.timer = Timer.mk false 0 0)) ∧
      (removed = [] →
        s1.consecutive_retransmissions_cnt = s.consecutive_retransmissions_cnt ∧
        s1.timer = s.timer) := by
  have ha' : ¬ unwrap ackno s.isn s.next_seqno > s.next_seqno := by omega
  by_cases hq : s.send_window = []
  · refine ⟨{ s with receive_window_size := window_size }, [], [], [], ?_, ?_, ?_, ?_, ?_, ?_, ?_,
      rfl, trivial, trivial, ?_, ?_⟩
    · simp only [ack_received, if_neg ha', hq, List.isEmpty_nil, if_true]
    · simpa using hq
    · simp
    · simp
    · simpa using hq
    · simp
    · simp [flight]
    · intro h; exact absurd rfl h
    · intro _; exact ⟨rfl, rfl⟩
  have hfn := hord.flight_le_next
  have hfl := hinv.flight_le
  obtain ⟨removed, e1, e2, e3, e4, e5, _⟩ :=
    remove_acked_split s.isn s.next_seqno (unwrap ackno s.isn s.next_seqno) hord.isn_lt
      s.send_window (s.next_seqno - flight s.send_window) hord.chained (by omega) (by omega)
  have hkq : flight removed + flight (remove_acked s.isn s.next_seqno
      (unwrap ackno s.isn s.next_seqno) s.send_window).1 = flight s.send_window := by
    rw [← flight_append, ← e1]
  have e4' : Chained s.isn (s.next_seqno - flight (remove_acked s.isn s.next_seqno
      (unwrap ackno s.isn s.next_seqno) s.send_window).1)
      (remove_acked s.isn s.next_seqno (unwrap ackno s.isn s.next_seqno) s.send_window).1 := by
    have e : s.next_seqno - flight (remove_acked s.isn s.next_seqno
        (unwrap ackno s.isn s.next_seqno) s.send_window).1
        = s.next_seqno - flight s.send_window + flight removed := by omega
    rw [e]
    exact e4
  rw [ack_received_eq s ackno window_size ha' hq]
  by_cases hr : (remove_acked s.isn s.next_seqno (unwrap ackno s.isn s.next_seqno)
      s.send_window).2 = false
  · rw [if_pos hr]
    have hrem : removed = [] := by
      by_contra hne
      rw [e5.mpr hne] at hr
      exact absurd hr (by simp)
    have hkept : (remove_acked s.isn s.next_seqno (unwrap ackno s.isn s.next_seqno)
        s.send_window).1 = s.send_window := remove_acked_none _ _ _ _ hr
    obtain ⟨s1, new, e, hf⟩ := fill_window_spec
      ({ s with receive_window_size := window_size,
                send_window := (remove_acked s.isn s.next_seqno
                  (unwrap ackno s.isn s.next_seqno) s.send_window).1 } : TCPSender)
      hinv.stream_inv
    refine ⟨s1, removed, _, new, e, e1, e2, e3, hf.queue_eq, hf.out_eq, hf.next_eq, hf.isn_eq,
      e4', hf.chained, fun h => absurd hrem h, fun _ => ⟨hf.cnt_eq, ?_⟩⟩
    by_cases hn : new = []
    · rw [hf.same hn]
    · have := hf.timer_eq hn
      have hact : s.timer.active = true := hinv.timer_iff.mpr hq
      simp only [hact, if_true] at this
      exact this
  · rw [if_neg hr]
    have hrt : (remove_acked s.isn s.next_seqno (unwrap ackno s.isn s.next_seqno)
        s.send_window).2 = true := by simpa using hr
    have hrem : removed ≠ [] := e5.mp hrt
    obtain ⟨s1, new, e, hf⟩ := fill_window_spec
      ({ s with receive_window_size := window_size,
                send_window := (remove_acked s.isn s.next_seqno
                  (unwrap ackno s.isn s.next_seqno) s.send_window).1,
                consecutive_retransmissions_cnt := 0,
                timer :=
                  if (remove_acked s.isn s.next_seqno (unwrap ackno s.isn s.next_seqno)
                      s.send_window).1.isEmpty = false then
                    Timer.start s.timer.reset s.initial_retransmission_timeout
                  else s.timer.reset } : TCPSender)
      hinv.stream_inv
    refine ⟨s1, removed, _, new, e, e1, e2, e3, hf.queue_eq, hf.out_eq, hf.next_eq, hf.isn_eq,
      e4', hf.chained, fun _ => ⟨hf.cnt_eq, ?_, ?_⟩, fun h => absurd h hrem⟩
    · intro hne
      by_cases hn : new = []
      · rw [hf.same hn] at hne ⊢
        cases hk : (remove_acked s.isn s.next_seqno (unwrap ackno s.isn s.next_seqno)
            s.send_window).1 with
        | nil => simp [hk] at hne
        | cons _ _ => simp [Timer.start]
      · have := hf.timer_eq hn
        rw [this]
        cases hk : (remove_acked s.isn s.next_seqno (unwrap ackno s.isn s.next_seqno)
            s.send_window).1 with
        | nil => simp [Timer.start, Timer.reset]
        | cons _ _ => simp [Timer.start, Timer.reset]
    · intro hemp
      have hq1 := hf.queue_eq
      rw [hemp] at hq1
      have hn : new = [] := (List.append_eq_nil.mp hq1.symm).2
      have hk : (remove_acked s.isn s.next_seqno (unwrap ackno s.isn s.next_seqno)
          s.send_window).1 = [] := (List.append_eq_nil.mp hq1.symm).1
      rw [hf.same hn]
      simp [hk, Timer.reset]

theorem ordered_ack_received {W : Nat} {s s1 : TCPSender} (hinv : Inv W s)
    (hW : W ≤ 2147483648) (hord : Ordered s) (ackno window_size : Nat)
    (e : s.ack_received ackno window_size = some s1) : Ordered s1 := by
  by_cases ha : unwrap ackno s.isn s.next_seqno > s.next_seqno
  · simp only [ack_received, if_pos ha] at e
    cases e
    exact ⟨hord.isn_lt, hord.flight_le_next, hord.chained⟩
  · obtain ⟨s1', removed, kept, new, e', e1, _, _, e4, _, e6, e7, e8, e9, _, _⟩ :=
      ack_received_spec hinv hW hord ackno window_size (by omega)
    rw [e] at e'
    cases e'
    have hfn := hord.flight_le_next
    have : flight kept ≤ flight s.send_window := by
      rw [e1, flight_append]
      omega
    exact ordered_append hord.isn_lt e7 e4 e6 (by omega) e8 e9

theorem ordered_step {W : Nat} {s s1 : TCPSender} (hinv : Inv W s) (hW : W ≤ 2147483648)
    (hord : Ordered s) (op : Op) (e : s.step op = some s1) : Ordered s1 := by
  cases op with
  | fill_window =>
    obtain ⟨s', new, e', hf⟩ := fill_window_spec s hinv.stream_inv
    simp only [step] at e
    rw [e] at e'
    cases e'
    exact ordered_filled hord hf
  | ack_received ackno window_size => exact ordered_ack_received hinv hW hord ackno window_size e
  | tick ms =>
    obtain ⟨s', e', _, hq, hn⟩ := inv_tick hinv ms
    simp only [step] at e
    rw [e] at e'
    cases e'
    have hi : s1.isn = s.isn := by
      simp only [tick] at e
      split at e
      · cases e; rfl
      · split at e
        · cases e
        · split at e
          · split at e
            · cases e
            · cases e; split <;> rfl
          · cases e; rfl
    exact ⟨by rw [hi]; exact hord.isn_lt, by rw [hq, hn]; exact hord.flight_le_next,
      by rw [hq, hn, hi]; exact hord.chained⟩
  | send_empty_segment rst =>
    simp only [step] at e
    cases e
    exact ⟨hord.isn_lt, hord.flight_le_next, hord.chained⟩
  | write data =>
    simp only [step] at e
    cases e
    exact ⟨hord.isn_lt, hord.flight_le_next, hord.chained⟩
  | end_input =>
    simp only [step] at e
    cases e
    exact ⟨hord.isn_lt, hord.flight_le_next, hord.chained⟩

theorem typed_window_le {W : Nat} {op : Op} (h : op.Typed) (hW : W ≤ 65535) :
    op.window W ≤ 65535 := by
  cases op <;> simp only [Op.window] <;> try exact hW
  simp only [Op.Typed] at h
  omega

theorem reach_run : ∀ (ops : List Op) (W : Nat) (s s1 : TCPSender), Inv W s → W ≤ 65535 →
    Ordered s → (∀ op ∈ ops, op.Typed) → s.run ops = some s1 →
    ∃ W1, W1 ≤ 65535 ∧ Inv W1 s1 ∧ Ordered s1 := by
  intro ops
  induction ops with
  | nil =>
    intro W s s1 hinv hW hord _ e
    simp only [run] at e
    cases e
    exact ⟨W, hW, hinv, hord⟩
  | cons op ops ih =>
    intro W s s1 hinv hW hord ht e
    obtain ⟨s', e', hinv'⟩ := inv_step hinv op
    simp only [run, e', Option.some_bind] at e
    exact ih _ s' s1 hinv' (typed_window_le (ht op (List.mem_cons_self _ _)) hW)
      (ordered_step hinv (by omega) hord op e')
      (fun o ho => ht o (List.mem_cons_of_mem _ ho)) e

theorem reach_init {capacity retx_timeout isn : Nat} {ops : List Op} {s : TCPSender}
    (hisn : isn < SEQ_MOD) (ht : ∀ op ∈ ops, op.Typed)
    (e : (init capacity retx_timeout isn).run ops = some s) :
    ∃ W, W ≤ 65535 ∧ Inv W s ∧ Ordered s :=
  reach_run ops 1 _ s (inv_fresh capacity retx_timeout isn) (by omega)
    (ordered_init capacity retx_timeout isn hisn) ht e

end TCPSender

/-! ## The claims on `ack_received` -/

/-- C17: on every sender reached from the constructor (initial sequence number
a `WrappingInt32`, arguments of the calls within their C++ types), for every
ack whose absolute value `a = unwrap(ackno, isn, next_seqno)` is at most
`next_seqno`, `ack_received` returns and splits the outstanding queue into a
prefix `removed` and the rest `kept`: every removed segment has
`abs_start + length_in_sequence_space <= a`, no kept segment has, and the queue
afterwards is `kept` followed by the segments `new` that the closing
`fill_window` emitted.  A segment with `abs_start < a < abs_start + length` is
still in the queue, and `bytes_in_flight` is the sum of the full lengths of
`kept` and `new`. -/
theorem TCPSender.ack_removes_fully_acked (capacity retx_timeout isn : Nat)
    (ops : List TCPSender.Op) (s : TCPSender) (ackno window_size : Nat)
    (hisn : isn < SEQ_MOD) (htyped : ∀ op ∈ ops, op.Typed)
    (hs : (TCPSender.init capacity retx_timeout isn).run ops = some s)
    (ha : unwrap ackno s.isn s.next_seqno ≤ s.next_seqno) :
    ∃ s1 removed kept new, s.ack_received ackno window_size = some s1 ∧
      s.send_window = removed ++ kept ∧
      (∀ seg ∈ removed,
        s.abs_start seg + seg.length_in_sequence_space ≤ unwrap ackno s.isn s.next_seqno) ∧
      (∀ seg ∈ kept,
        unwrap ackno s.isn s.next_seqno < s.abs_start seg + seg.length_in_sequence_space) ∧
      s1.send_window = kept ++ new ∧ s1.segments_out = s.segments_out ++ new ∧
      s1.bytes_in_flight = TCPSender.flight kept + TCPSender.flight new ∧
      (∀ seg ∈ s.send_window, s.abs_start seg < unwrap ackno s.isn s.next_seqno →
        unwrap ackno s.isn s.next_seqno < s.abs_start seg + seg.length_in_sequence_space →
        seg ∈ s1.send_window) := by
  obtain ⟨W, hW, hinv, hord⟩ := TCPSender.reach_init hisn htyped hs
  obtain ⟨s1, removed, kept, new, e, e1, e2, e3, e4, e5, _⟩ :=
    TCPSender.ack_received_spec hinv (by omega) hord ackno window_size ha
  refine ⟨s1, removed, kept, new, e, e1, e2, e3, e4, e5, ?_, ?_⟩
  · rw [TCPSender.bytes_in_flight_eq, e4, TCPSender.flight_append]
  · intro seg hseg _ h2
    rw [e1] at hseg
    rw [e4]
    rcases List.mem_append.mp hseg with h | h
    · have := e2 seg h
      omega
    · exact List.mem_append.mpr (Or.inl h)

/-- Witness of C17: with `"abc"` outstanding at sequence numbers 1 to 3, the ack
3 covers the segment only in part. -/
theorem TCPSender.ack_removes_fully_acked_witness :
    ((0 < SEQ_MOD ∧ ∀ op ∈ TCPSender.scenario_abc_calls, op.Typed) ∧
      (TCPSender.init 8 1000 0).run TCPSender.scenario_abc_calls
        = some TCPSender.scenario_abc_outstanding ∧
      unwrap 3 TCPSender.scenario_abc_outstanding.isn
        TCPSender.scenario_abc_outstanding.next_seqno
        ≤ TCPSender.scenario_abc_outstanding.next_seqno) ∧
    ∃ s1 removed kept new, TCPSender.scenario_abc_outstanding.ack_received 3 5 = some s1 ∧
      TCPSender.scenario_abc_outstanding.send_window = removed ++ kept ∧
      (∀ seg ∈ removed,
        TCPSender.scenario_abc_outstanding.abs_start seg + seg.length_in_sequence_space
          ≤ unwrap 3 TCPSender.scenario_abc_outstanding.isn
            TCPSender.scenario_abc_outstanding.next_seqno) ∧
      (∀ seg ∈ kept,
        unwrap 3 TCPSender.scenario_abc_outstanding.isn
            TCPSender.scenario_abc_outstanding.next_seqno
          < TCPSender.scenario_abc_outstanding.abs_start seg + seg.length_in_sequence_space) ∧
      s1.send_window = kept ++ new ∧
      s1.segments_out = TCPSender.scenario_abc_outstanding.segments_out ++ new ∧
      s1.bytes_in_flight = TCPSender.flight kept + TCPSender.flight new ∧
      (∀ seg ∈ TCPSender.scenario_abc_outstanding.send_window,
        TCPSender.scenario_abc_outstanding.abs_start seg
          < unwrap 3 TCPSender.scenario_abc_outstanding.isn
            TCPSender.scenario_abc_outstanding.next_seqno →
        unwrap 3 TCPSender.scenario_abc_outstanding.isn
            TCPSender.scenario_abc_outstanding.next_seqno
          < TCPSender.scenario_abc_outstanding.abs_start seg + seg.length_in_sequence_space →
        seg ∈ s1.send_window) :=
  ⟨⟨⟨by decide, by decide⟩, by decide, by decide⟩,
    TCPSender.ack_removes_fully_acked 8 1000 0 TCPSender.scenario_abc_calls
      TCPSender.scenario_abc_outstanding 3 5 (by decide) (by decide) (by decide) (by decide)⟩

/-- C18: on every sender reached from the constructor (initial sequence number
a `WrappingInt32`, arguments of the calls within their C++ types), for every
ack whose absolute value `a` is at most `next_seqno`, `ack_received` returns.
If some outstanding segment is fully acknowledged
(`abs_start + length_in_sequence_space <= a`, the segments that are removed),
then afterwards `consecutive_retransmissions = 0` and the timer runs with the
full initial timeout when segments are outstanding and is stopped when none
are.  If no outstanding segment is fully acknowledged,
`consecutive_retransmissions` and the timer (its current timeout and its
remaining time) are unchanged. -/
theorem TCPSender.ack_resets_timer_on_new_data_only (capacity retx_timeout isn : Nat)
    (ops : List TCPSender.Op) (s : TCPSender) (ackno window_size : Nat)
    (hisn : isn < SEQ_MOD) (htyped : ∀ op ∈ ops, op.Typed)
    (hs : (TCPSender.init capacity retx_timeout isn).run ops = some s)
    (ha : unwrap ackno s.isn s.next_seqno ≤ s.next_seqno) :
    ∃ s1, s.ack_received ackno window_size = some s1 ∧
      ((∃ seg ∈ s.send_window,
          s.abs_start seg + seg.length_in_sequence_space ≤ unwrap ackno s.isn s.next_seqno) →
        s1.consecutive_retransmissions = 0 ∧
        (s1.send_window ≠ [] →
          s1.timer = Timer.mk true s.initial_retransmission_timeout
            s.initial_retransmission_timeout) ∧
        (s1.send_window = [] → s1.timer.active = false)) ∧
      ((∀ seg ∈ s.send_window,
          unwrap ackno s.isn s.next_seqno < s.abs_start seg + seg.length_in_sequence_space) →
        s1.consecutive_retransmissions = s.consecutive_retransmissions ∧
        s1.timer = s.timer) := by
  obtain ⟨W, hW, hinv, hord⟩ := TCPSender.reach_init hisn htyped hs
  obtain ⟨s1, removed, kept, new, e, e1, e2, e3, _, _, _, _, _, _, e10, e11⟩ :=
    TCPSender.ack_received_spec hinv (by omega) hord ackno window_size ha
  refine ⟨s1, e, ?_, ?_⟩
  · intro ⟨seg, hseg, hcov⟩
    have hrem : removed ≠ [] := by
      intro hnil
      rw [e1, hnil, List.nil_append] at hseg
      have := e3 seg hseg
      omega
    obtain ⟨c1, c2, c3⟩ := e10 hrem
    refine ⟨c1, c2, fun h => ?_⟩
    rw [c3 h]
  · intro hall
    have hrem : removed = [] := by
      cases hr : removed with
      | nil => rfl
      | cons hd tl =>
        have h1 := e2 hd (by rw [hr]; exact List.mem_cons_self _ _)
        have h2 := hall hd (by rw [e1, hr]; exact List.mem_cons_self _ _)
        omega
    exact e11 hrem

/-- Witness of C18: with `"abc"` outstanding at sequence numbers 1 to 3, the ack
4 acknowledges all of it. -/
theorem TCPSender.ack_resets_timer_on_new_data_only_witness :
    ((0 < SEQ_MOD ∧ ∀ op ∈ TCPSender.scenario_abc_calls, op.Typed) ∧
      (TCPSender.init 8 1000 0).run TCPSender.scenario_abc_calls
        = some TCPSender.scenario_abc_outstanding ∧
      unwrap 4 TCPSender.scenario_abc_outstanding.isn
        TCPSender.scenario_abc_outstanding.next_seqno
        ≤ TCPSender.scenario_abc_outstanding.next_seqno) ∧
    ∃ s1, TCPSender.scenario_abc_outstanding.ack_received 4 5 = some s1 ∧
      ((∃ seg ∈ TCPSender.scenario_abc_outstanding.send_window,
          TCPSender.scenario_abc_outstanding.abs_start seg + seg.length_in_sequence_space
            ≤ unwrap 4 TCPSender.scenario_abc_outstanding.isn
              TCPSender.scenario_abc_outstanding.next_seqno) →
        s1.consecutive_retransmissions = 0 ∧
        (s1.send_window ≠ [] →
          s1.timer = Timer.mk true
            TCPSender.scenario_abc_outstanding.initial_retransmission_timeout
            TCPSender.scenario_abc_outstanding.initial_retransmission_timeout) ∧
        (s1.send_window = [] → s1.timer.active = false)) ∧
      ((∀ seg ∈ TCPSender.scenario_abc_outstanding.send_window,
          unwrap 4 TCPSender.scenario_abc_outstanding.isn
              TCPSender.scenario_abc_outstanding.next_seqno
            < TCPSender.scenario_abc_outstanding.abs_start seg
              + seg.length_in_sequence_space) →
        s1.consecutive_retransmissions
          = TCPSender.scenario_abc_outstanding.consecutive_retransmissions ∧
        s1.timer = TCPSender.scenario_abc_outstanding.timer) :=
  ⟨⟨⟨by decide, by decide⟩, by decide, by decide⟩,
    TCPSender.ack_resets_timer_on_new_data_only 8 1000 0 TCPSender.scenario_abc_calls
      TCPSender.scenario_abc_outstanding 4 5 (by decide) (by decide) (by decide) (by decide)⟩

/-- C20 fails on an empty outstanding queue: on a sender of capacity 20 and
initial sequence number 0, after `fill_window` (the SYN), `ack_received(1, 10)`
(the SYN is acked, nothing is outstanding) and `write("abc")`, the call
`ack_received(1, 10)` has absolute ack `1 = next_seqno`, a window of 10 and 3
buffered bytes, and emits nothing: `segments_out` still holds only the SYN and
the 3 bytes stay in the stream.  Storing the window, removing, updating and then
running `fill_window` would have emitted the segment `"abc"`. -/
theorem TCPSender.ack_on_empty_queue_does_not_refill :
    (((TCPSender.init 20 1000 0).run
        [.fill_window, .ack_received 1 10, .write ['a', 'b', 'c']]).bind fun s =>
      (s.ack_received 1 10).map fun s1 =>
        (unwrap 1 s.isn s.next_seqno, s.next_seqno, s.send_window, s.stream.buffer_size,
          s1.segments_out, s1.stream.buffer_size))
      = some (1, 1, [], 3, [TCPSegment.mk 0 true false false []], 3) ∧
    (((TCPSender.init 20 1000 0).run
        [.fill_window, .ack_received 1 10, .write ['a', 'b', 'c']]).bind fun s =>
      (s.ack_received_by_steps 1 10).map fun s1 => (s1.segments_out, s1.stream.buffer_size))
      = some ([TCPSegment.mk 0 true false false [],
          TCPSegment.mk 1 false false false ['a', 'b', 'c']], 0) := by
  constructor
  · rfl
  · decide

/-- C20, amended: `ack_received` refills the window only when segments are
outstanding.  On every sender reached from the constructor (initial sequence
number a `WrappingInt32`, arguments of the calls within their C++ types) and for
every ack: if the outstanding queue is not empty, `ack_received` returns the
state obtained by storing the window, ignoring an ack beyond `next_seqno`,
removing the fully acknowledged heads of the queue, updating timer and counter
when one was removed, and then running `fill_window`
(`ack_received_by_steps`); if the outstanding queue is empty, `ack_received`
only stores the window and emits nothing, whatever the stream holds. -/
theorem TCPSender.ack_received_refills_when_outstanding (capacity retx_timeout isn : Nat)
    (ops : List TCPSender.Op) (s : TCPSender) (ackno window_size : Nat)
    (hisn : isn < SEQ_MOD) (htyped : ∀ op ∈ ops, op.Typed)
    (hs : (TCPSender.init capacity retx_timeout isn).run ops = some s) :
    (s.send_window ≠ [] →
      ∃ s1, s.ack_received ackno window_size = some s1 ∧
        s.ack_received_by_steps ackno window_size = some s1) ∧
    (s.send_window = [] →
      s.ack_received ackno window_size = some { s with receive_window_size := window_size }) := by
  obtain ⟨W, hW, hinv, hord⟩ := TCPSender.reach_init hisn htyped hs
  constructor
  · intro hq
    obtain ⟨s1, e, _⟩ := TCPSender.inv_ack_received hinv ackno window_size
    refine ⟨s1, e, ?_⟩
    rw [← e]
    by_cases ha : unwrap ackno s.isn s.next_seqno > s.next_seqno
    · simp only [TCPSender.ack_received, TCPSender.ack_received_by_steps, if_pos ha]
    · have hfn := hord.flight_le_next
      have hfl := hinv.flight_le
      obtain ⟨removed, e1, _, _, _, e5, e6⟩ :=
        TCPSender.remove_acked_split s.isn s.next_seqno (unwrap ackno s.isn s.next_seqno)
          hord.isn_lt s.send_window (s.next_seqno - TCPSender.flight s.send_window)
          hord.chained (by omega) (by omega)
      have hlen : (TCPSender.remove_covered_heads s.isn s.next_seqno
          (unwrap ackno s.isn s.next_seqno) s.send_window).length < s.send_window.length ↔
          (TCPSender.remove_acked s.isn s.next_seqno (unwrap ackno s.isn s.next_seqno)
            s.send_window).2 = true := by
        rw [e5, ← e6]
        have hl := congrArg List.length e1
        rw [List.length_append] at hl
        constructor
        · intro h hnil
          rw [hnil] at hl
          simp at hl
          omega
        · intro h
          have : 0 < removed.length := List.length_pos.mpr h
          omega
      rw [TCPSender.ack_received_eq s ackno window_size ha hq]
      simp only [TCPSender.ack_received_by_steps, if_neg ha]
      by_cases hr : (TCPSender.remove_acked s.isn s.next_seqno
          (unwrap ackno s.isn s.next_seqno) s.send_window).2 = false
      · have hnl : ¬ (TCPSender.remove_covered_heads s.isn s.next_seqno
            (unwrap ackno s.isn s.next_seqno) s.send_window).length < s.send_window.length := by
          rw [hlen, hr]
          simp
        rw [if_pos hr, if_neg hnl, e6]
      · have hl : (TCPSender.remove_covered_heads s.isn s.next_seqno
            (unwrap ackno s.isn s.next_seqno) s.send_window).length < s.send_window.length := by
          rw [hlen]
          simpa using hr
        rw [if_neg hr, if_pos hl, e6]
        cases hk : TCPSender.remove_covered_heads s.isn s.next_seqno
            (unwrap ackno s.isn s.next_seqno) s.send_window with
        | nil => simp [Timer.start, Timer.reset]
        | cons _ _ => simp [Timer.start, Timer.reset]
  · intro hq
    by_cases ha : unwrap ackno s.isn s.next_seqno > s.next_seqno
    · simp only [TCPSender.ack_received, if_pos ha]
    · simp only [TCPSender.ack_received, if_neg ha, hq, List.isEmpty_nil, if_true]

/-- Witness of C20, amended: with `"abc"` outstanding, the ack 4 with a window
of 5 removes it and the refill emits `"def"`. -/
theorem TCPSender.ack_received_refills_when_outstanding_witness :
    ((0 < SEQ_MOD ∧ ∀ op ∈ TCPSender.scenario_abc_calls, op.Typed) ∧
      (TCPSender.init 8 1000 0).run TCPSender.scenario_abc_calls
        = some TCPSender.scenario_abc_outstanding) ∧
    (TCPSender.scenario_abc_outstanding.send_window ≠ [] →
      ∃ s1, TCPSender.scenario_abc_outstanding.ack_received 4 5 = some s1 ∧
        TCPSender.scenario_abc_outstanding.ack_received_by_steps 4 5 = some s1) ∧
    (TCPSender.scenario_abc_outstanding.send_window = [] →
      TCPSender.scenario_abc_outstanding.ack_received 4 5
        = some { TCPSender.scenario_abc_outstanding with receive_window_size := 5 }) :=
  ⟨⟨⟨by decide, by decide⟩, by decide⟩,
    TCPSender.ack_received_refills_when_outstanding 8 1000 0 TCPSender.scenario_abc_calls
      TCPSender.scenario_abc_outstanding 4 5 (by decide) (by decide) (by decide)⟩

/-- C19: on every sender, an ack whose absolute value
`unwrap(ackno, isn, next_seqno)` is greater than `next_seqno` makes
`ack_received` return (nothing throws) with only the stored window changed:
the outstanding queue, `segments_out`, `next_seqno`, `bytes_in_flight`,
`consecutive_retransmissions`, the timer and the stream are what they were. -/
theorem TCPSender.impossible_ack_ignored (s : TCPSender) (ackno window_size : Nat)
    (h : unwrap ackno s.isn s.next_seqno > s.next_seqno) :
    ∃ s1, s.ack_received ackno window_size = some s1 ∧
      s1 = { s with receive_window_size := window_size } ∧
      s1.send_window = s.send_window ∧ s1.segments_out = s.segments_out ∧
      s1.next_seqno = s.next_seqno ∧ s1.bytes_in_flight = s.bytes_in_flight ∧
      s1.consecutive_retransmissions = s.consecutive_retransmissions ∧
      s1.timer = s.timer ∧ s1.stream = s.stream := by
  refine ⟨{ s with receive_window_size := window_size }, ?_, rfl, rfl, rfl, rfl, rfl, rfl, rfl,
    rfl⟩
  simp only [TCPSender.ack_received, if_pos h]

/-- Witness of C19: the sender that has sent its SYN (`next_seqno = 1`) gets
the ack 5 with a window of 9. -/
theorem TCPSender.impossible_ack_ignored_witness :
    unwrap 5 0 1 > 1 ∧
    ∃ s1, (TCPSender.mk 0 [TCPSegment.mk 0 true false false []] 1 1000
        (Timer.mk true 1000 1000) (ByteStream.init 8) 0 1
        [TCPSegment.mk 0 true false false []]).ack_received 5 9 = some s1 ∧
      s1 = { (TCPSender.mk 0 [TCPSegment.mk 0 true false false []] 1 1000
        (Timer.mk true 1000 1000) (ByteStream.init 8) 0 1
        [TCPSegment.mk 0 true false false []]) with receive_window_size := 9 } ∧
      s1.send_window = [TCPSegment.mk 0 true false false []] ∧
      s1.segments_out = [TCPSegment.mk 0 true false false []] ∧
      s1.next_seqno = 1 ∧
      s1.bytes_in_flight = (TCPSender.mk 0 [TCPSegment.mk 0 true false false []] 1 1000
        (Timer.mk true 1000 1000) (ByteStream.init 8) 0 1
        [TCPSegment.mk 0 true false false []]).bytes_in_flight ∧
      s1.consecutive_retransmissions = TCPSender.consecutive_retransmissions
        (TCPSender.mk 0 [TCPSegment.mk 0 true false false []] 1 1000
        (Timer.mk true 1000 1000) (ByteStream.init 8) 0 1
        [TCPSegment.mk 0 true false false []]) ∧
      s1.timer = Timer.mk true 1000 1000 ∧ s1.stream = ByteStream.init 8 :=
  ⟨by decide,
    TCPSender.impossible_ack_ignored
      (TCPSender.mk 0 [TCPSegment.mk 0 true false false []] 1 1000
        (Timer.mk true 1000 1000) (ByteStream.init 8) 0 1
        [TCPSegment.mk 0 true false false []]) 5 9 (by decide)⟩

/-! ## The retransmission timer under `tick` -/

namespace TCPSender

theorem tick_idle (s : TCPSender) (ms : Nat) (h : s.timer.active = false) :
    s.tick ms = some s := by
  simp [tick, h]

theorem tick_running (s : TCPSender) (ms : Nat) (ha : s.timer.active = true)
    (hal : s.timer.alarm > ms) :
    s.tick ms = some { s with timer := { s.timer with alarm := s.timer.alarm - ms } } := by
  simp [tick, ha, Timer.elapse, hal]

theorem tick_expired (s : TCPSender) (ms : Nat) (head : TCPSegment) (rest : List TCPSegment)
    (ha : s.timer.active = true) (hal : s.timer.alarm ≤ ms) (hq : s.send_window = head :: rest) :
    s.tick ms = some { s with
      consecutive_retransmissions_cnt :=
        if s.receive_window_size > 0 then (s.consecutive_retransmissions_cnt + 1) % SEQ_MOD
        else s.consecutive_retransmissions_cnt,
      timer :=
        Timer.mk true
          (if s.receive_window_size > 0 then (s.timer.initial_alarm * 2) % SIZE_MOD
            else s.timer.initial_alarm)
          (if s.receive_window_size > 0 then (s.timer.initial_alarm * 2) % SIZE_MOD
            else s.timer.initial_alarm),
      segments_out := s.segments_out ++ [head] } := by
  have hal' : ¬ s.timer.alarm > ms := by omega
  by_cases hw : s.receive_window_size > 0
  · simp [tick, ha, Timer.elapse, hal', hq, hw, Timer.start, Timer.reset]
  · simp [tick, ha, Timer.elapse, hal', hq, hw, Timer.start, Timer.reset]

end TCPSender

/-! ## The claims on `tick` and on the zero-window probe -/

/-- C21: on every sender reached from the constructor, every `tick(ms)` returns
and leaves `next_seqno`, `bytes_in_flight` and the outstanding queue unchanged.
When the timer is active and `ms` is at least the time remaining on it, the
call pushes exactly one segment onto `segments_out`, the head of the
outstanding queue; otherwise it pushes nothing. -/
theorem TCPSender.tick_retransmits_earliest_on_expiry (capacity retx_timeout isn : Nat)
    (ops : List TCPSender.Op) (s : TCPSender) (ms : Nat)
    (hs : (TCPSender.init capacity retx_timeout isn).run ops = some s) :
    ∃ s1, s.tick ms = some s1 ∧
      s1.next_seqno = s.next_seqno ∧ s1.bytes_in_flight = s.bytes_in_flight ∧
      s1.send_window = s.send_window ∧
      ((s.timer.active = true ∧ s.timer.alarm ≤ ms) →
        ∃ head rest, s.send_window = head :: rest ∧
          s1.segments_out = s.segments_out ++ [head]) ∧
      (¬ (s.timer.active = true ∧ s.timer.alarm ≤ ms) →
        s1.segments_out = s.segments_out) := by
  have hinv := TCPSender.inv_of_run hs
  cases hact : s.timer.active with
  | false =>
    refine ⟨s, TCPSender.tick_idle s ms hact, rfl, rfl, rfl, ?_, fun _ => rfl⟩
    intro h
    exact absurd h.1 (by simp)
  | true =>
    have hq := hinv.timer_iff.mp hact
    cases hsw : s.send_window with
    | nil => exact absurd hsw hq
    | cons head rest =>
      by_cases hal : s.timer.alarm > ms
      · refine ⟨_, TCPSender.tick_running s ms hact hal, rfl, rfl, hsw, ?_, fun _ => rfl⟩
        intro h
        omega
      · refine ⟨_, TCPSender.tick_expired s ms head rest hact (by omega) hsw, rfl, rfl, hsw,
          fun _ => ⟨head, rest, rfl, rfl⟩, ?_⟩
        intro h
        exact absurd ⟨rfl, by omega⟩ h

/-- Witness of C21: initial timeout 1000; after `fill_window` and `tick(999)`,
which sent nothing, one millisecond remains and `tick(2)` retransmits the
SYN. -/
theorem TCPSender.tick_retransmits_earliest_on_expiry_witness :
    ((TCPSender.init 8 1000 0).run [.fill_window, .tick 999]
        = some (TCPSender.mk 0 [TCPSegment.mk 0 true false false []] 1 1000
            (Timer.mk true 1 1000) (ByteStream.init 8) 0 1
            [TCPSegment.mk 0 true false false []])) ∧
    ∃ s1, (TCPSender.mk 0 [TCPSegment.mk 0 true false false []] 1 1000
        (Timer.mk true 1 1000) (ByteStream.init 8) 0 1
        [TCPSegment.mk 0 true false false []]).tick 2 = some s1 ∧
      s1.next_seqno = 1 ∧
      s1.bytes_in_flight = (TCPSender.mk 0 [TCPSegment.mk 0 true false false []] 1 1000
        (Timer.mk true 1 1000) (ByteStream.init 8) 0 1
        [TCPSegment.mk 0 true false false []]).bytes_in_flight ∧
      s1.send_window = [TCPSegment.mk 0 true false false []] ∧
      (((true = true) ∧ 1 ≤ 2) →
        ∃ head rest, [TCPSegment.mk 0 true false false []] = head :: rest ∧
          s1.segments_out = [TCPSegment.mk 0 true false false []] ++ [head]) ∧
      (¬ ((true = true) ∧ 1 ≤ 2) →
        s1.segments_out = [TCPSegment.mk 0 true false false []]) :=
  ⟨by decide,
    TCPSender.tick_retransmits_earliest_on_expiry 8 1000 0 [.fill_window, .tick 999]
      (TCPSender.mk 0 [TCPSegment.mk 0 true false false []] 1 1000
        (Timer.mk true 1 1000) (ByteStream.init 8) 0 1
        [TCPSegment.mk 0 true false false []]) 2 (by decide)⟩

/-- C23: on every sender reached from the constructor whose stored window is 0,
a `tick(ms)` in which the timer expires (it is active and `ms` is at least the
time remaining) retransmits the earliest outstanding segment, restarts the
timer with the timeout it had before the expiry, not doubled, and leaves
`consecutive_retransmissions` as it was. -/
theorem TCPSender.no_backoff_on_zero_window (capacity retx_timeout isn : Nat)
    (ops : List TCPSender.Op) (s : TCPSender) (ms : Nat)
    (hs : (TCPSender.init capacity retx_timeout isn).run ops = some s)
    (hw : s.receive_window_size = 0) (hact : s.timer.active = true)
    (hexp : s.timer.alarm ≤ ms) :
    ∃ s1 head rest, s.tick ms = some s1 ∧ s.send_window = head :: rest ∧
      s1.segments_out = s.segments_out ++ [head] ∧
      s1.timer = Timer.mk true s.timer.initial_alarm s.timer.initial_alarm ∧
      s1.consecutive_retransmissions = s.consecutive_retransmissions ∧
      s1.send_window = s.send_window ∧ s1.next_seqno = s.next_seqno := by
  have hinv := TCPSender.inv_of_run hs
  have hq := hinv.timer_iff.mp hact
  cases hsw : s.send_window with
  | nil => exact absurd hsw hq
  | cons head rest =>
    refine ⟨_, head, rest, TCPSender.tick_expired s ms head rest hact hexp hsw, rfl, rfl, ?_, ?_,
      hsw, rfl⟩
    · simp [hw]
    · simp [hw, TCPSender.consecutive_retransmissions]

/-- Witness of C23: the SYN is outstanding, the peer has advertised a window of
0 without acknowledging it, and the timeout of 1000 expires. -/
theorem TCPSender.no_backoff_on_zero_window_witness :
    ((TCPSender.init 8 1000 0).run [.fill_window, .ack_received 0 0]
        = some (TCPSender.mk 0 [TCPSegment.mk 0 true false false []] 0 1000
            (Timer.mk true 1000 1000) (ByteStream.init 8) 0 1
            [TCPSegment.mk 0 true false false []]) ∧
      (TCPSender.mk 0 [TCPSegment.mk 0 true false false []] 0 1000
        (Timer.mk true 1000 1000) (ByteStream.init 8) 0 1
        [TCPSegment.mk 0 true false false []]).receive_window_size = 0 ∧
      (Timer.mk true 1000 1000).active = true ∧ (Timer.mk true 1000 1000).alarm ≤ 1000) ∧
    ∃ s1 head rest, (TCPSender.mk 0 [TCPSegment.mk 0 true false false []] 0 1000
        (Timer.mk true 1000 1000) (ByteStream.init 8) 0 1
        [TCPSegment.mk 0 true false false []]).tick 1000 = some s1 ∧
      [TCPSegment.mk 0 true false false []] = head :: rest ∧
      s1.segments_out = [TCPSegment.mk 0 true false false []] ++ [head] ∧
      s1.timer = Timer.mk true 1000 1000 ∧
      s1.consecutive_retransmissions = 0 ∧
      s1.send_window = [TCPSegment.mk 0 true false false []] ∧ s1.next_seqno = 1 :=
  ⟨⟨by decide, rfl, rfl, by decide⟩,
    TCPSender.no_backoff_on_zero_window 8 1000 0 [.fill_window, .ack_received 0 0]
      (TCPSender.mk 0 [TCPSegment.mk 0 true false false []] 0 1000
        (Timer.mk true 1000 1000) (ByteStream.init 8) 0 1
        [TCPSegment.mk 0 true false false []]) 1000 (by decide) rfl rfl (by decide)⟩

/-- C24: on every sender (its stream satisfying the class invariant of
`ByteStream`) whose SYN has been sent and acknowledged with nothing in flight
(`next_seqno` is not 0 and the outstanding queue is empty), whose stored window
is 0 and whose stream buffers at least one byte `b`, `fill_window` returns with
exactly one segment emitted: no `syn`, no `fin`, payload the single byte `b`,
stamped with `wrap(next_seqno, isn)`; afterwards `bytes_in_flight = 1` and the
rest of the buffer is still in the stream. -/
theorem TCPSender.zero_window_probe (s : TCPSender) (b : Char) (rest : List Char)
    (hinv : ByteStream.Inv s.stream) (hsyn : s.next_seqno ≠ 0) (hq : s.send_window = [])
    (hw : s.receive_window_size = 0) (hbuf : s.stream.stream = b :: rest) :
    ∃ s1, s.fill_window = some s1 ∧
      s1.segments_out
        = s.segments_out ++ [TCPSegment.mk (wrap s.next_seqno s.isn) false false false [b]] ∧
      s1.send_window = [TCPSegment.mk (wrap s.next_seqno s.isn) false false false [b]] ∧
      s1.bytes_in_flight = 1 ∧ s1.next_seqno = s.next_seqno + 1 ∧
      s1.stream.stream = rest ∧ s1.stream.bytes_read = s.stream.bytes_read + 1 := by
  obtain ⟨hp, hc⟩ := hinv
  have hr : s.stream.read 1
      = some ([b], { s.stream with bytes_popped := s.stream.bytes_popped + 1, stream := rest }) := by
    rw [ByteStream.read_eq hc]
    simp [hbuf]
  have hst : decide (s.state = TCPSender.State.CLOSED) = false := by
    simp only [TCPSender.state, if_neg hsyn, decide_eq_false_iff_not]
    split_ifs <;> simp
  have hsz : min TCPConfig.MAX_PAYLOAD_SIZE (min (wsub 1 0) s.stream.buffer_size) = 1 := by
    simp only [TCPConfig.MAX_PAYLOAD_SIZE, wsub, ByteStream.buffer_size, hbuf, List.length_cons]
    simp
  have hseg : s.send_segment 1
      = some ({ s with
          stream := { s.stream with bytes_popped := s.stream.bytes_popped + 1, stream := rest },
          segments_out := s.segments_out ++
            [TCPSegment.mk (wrap s.next_seqno s.isn) false false false [b]],
          send_window := s.send_window ++
            [TCPSegment.mk (wrap s.next_seqno s.isn) false false false [b]] }, 1) := by
    simp [TCPSender.send_segment, hst, hsz, hr, TCPSegment.length_in_sequence_space]
  have hfill : s.fill_window
      = some ((({ s with
          stream := { s.stream with bytes_popped := s.stream.bytes_popped + 1, stream := rest },
          segments_out := s.segments_out ++
            [TCPSegment.mk (wrap s.next_seqno s.isn) false false false [b]],
          send_window := s.send_window ++
            [TCPSegment.mk (wrap s.next_seqno s.isn) false false false [b]] } :
          TCPSender).timer_when_filling.update_when_filling 1 1).1) := by
    simp [TCPSender.fill_window, hw, TCPSender.bytes_in_flight, hq, wsub, TCPSender.fill_loop,
      hseg, TCPSender.update_when_filling]
  refine ⟨_, hfill, ?_, ?_, ?_, ?_, ?_, ?_⟩
  · simp only [TCPSender.update_when_filling, TCPSender.timer_when_filling]
    split <;> rfl
  · simp only [TCPSender.update_when_filling, TCPSender.timer_when_filling, hq]
    split <;> rfl
  · simp only [TCPSender.bytes_in_flight, TCPSender.update_when_filling,
      TCPSender.timer_when_filling, hq]
    split <;> simp [TCPSegment.length_in_sequence_space]
  · simp only [TCPSender.update_when_filling, TCPSender.timer_when_filling]
    split <;> rfl
  · simp only [TCPSender.update_when_filling, TCPSender.timer_when_filling]
    split <;> rfl
  · simp only [TCPSender.update_when_filling, TCPSender.timer_when_filling,
      ByteStream.bytes_read]
    split <;> rfl

/-- Witness of C24: the SYN is acknowledged with a window of 0 and `"xy"` waits
in the stream. -/
theorem TCPSender.zero_window_probe_witness :
    (ByteStream.Inv (ByteStream.mk ['x', 'y'] 8 0 2 false) ∧ (1 : Nat) ≠ 0) ∧
    ∃ s1, (TCPSender.mk 0 [] 0 1000 Timer.init (ByteStream.mk ['x', 'y'] 8 0 2 false) 0 1
        [TCPSegment.mk 0 true false false []]).fill_window = some s1 ∧
      s1.segments_out
        = [TCPSegment.mk 0 true false false []] ++
          [TCPSegment.mk (wrap 1 0) false false false ['x']] ∧
      s1.send_window = [TCPSegment.mk (wrap 1 0) false false false ['x']] ∧
      s1.bytes_in_flight = 1 ∧ s1.next_seqno = 1 + 1 ∧
      s1.stream.stream = ['y'] ∧ s1.stream.bytes_read = 0 + 1 :=
  ⟨⟨⟨rfl, by decide⟩, by decide⟩,
    TCPSender.zero_window_probe
      (TCPSender.mk 0 [] 0 1000 Timer.init (ByteStream.mk ['x', 'y'] 8 0 2 false) 0 1
        [TCPSegment.mk 0 true false false []]) 'x' ['y'] ⟨rfl, by decide⟩ (by decide) rfl rfl rfl⟩

/-! ## The backed-off timeout -/

namespace TCPSender

end TCPSender

/-- C25: for every 32-bit `s`, 32-bit `isn` and 64-bit `checkpoint`,
`unwrap(s, isn, checkpoint)` is a 64-bit `n` with `wrap(n, isn) = s` such that
no `n'` in `[0, 2^64)` with `wrap(n', isn) = s` is strictly closer to
`checkpoint`, and an `n'` as close is not smaller than `n`; it gives the values
that the tests of `wrapping_integers_unwrap.cc` expect, among them
`unwrap(1, 0, UINT32_MAX) = 2^32 + 1` and `unwrap(15, 16, 0) = UINT32_MAX`. -/
theorem unwrap_closest_to_checkpoint (s isn checkpoint : Nat) (hs : s < SEQ_MOD)
    (hisn : isn < SEQ_MOD) (hc : checkpoint < SIZE_MOD) :
    unwrap s isn checkpoint < SIZE_MOD ∧ wrap (unwrap s isn checkpoint) isn = s ∧
    (∀ n', n' < SIZE_MOD → wrap n' isn = s →
      Nat.dist (unwrap s isn checkpoint) checkpoint ≤ Nat.dist n' checkpoint ∧
      (Nat.dist n' checkpoint = Nat.dist (unwrap s isn checkpoint) checkpoint →
        unwrap s isn checkpoint ≤ n')) ∧
    unwrap 1 0 0 = 1 ∧
    unwrap 1 0 4294967295 = 4294967296 + 1 ∧
    unwrap (4294967295 - 1) 0 (3 * 4294967296) = 3 * 4294967296 - 2 ∧
    unwrap (4294967295 - 10) 0 (3 * 4294967296) = 3 * 4294967296 - 11 ∧
    unwrap 4294967295 10 (3 * 4294967296) = 3 * 4294967296 - 11 ∧
    unwrap 4294967295 0 0 = 4294967295 ∧
    unwrap 16 16 0 = 0 ∧
    unwrap 15 16 0 = 4294967295 ∧
    unwrap 0 2147483647 0 = 2147483647 + 2 ∧
    unwrap 4294967295 2147483647 0 = 2147483648 ∧
    unwrap 4294967295 2147483648 0 = 2147483647 := by
  refine ⟨?_, ?_, ?_, by decide, by decide, by decide, by decide, by decide, by decide,
    by decide, by decide, by decide, by decide, by decide⟩
  · simp only [unwrap, SEQ_MOD, SIZE_MOD] at *
    split_ifs <;> omega
  · simp only [unwrap, wrap, SEQ_MOD, SIZE_MOD] at *
    split_ifs <;> omega
  · intro n' hn' hw
    simp only [unwrap, wrap, Nat.dist, SEQ_MOD, SIZE_MOD] at *
    split_ifs <;> omega

/-- Witness of C25: the second test of `wrapping_integers_unwrap.cc`. -/
theorem unwrap_closest_to_checkpoint_witness :
    ((1 : Nat) < SEQ_MOD ∧ (0 : Nat) < SEQ_MOD ∧ (4294967295 : Nat) < SIZE_MOD) ∧
    unwrap 1 0 4294967295 < SIZE_MOD ∧ wrap (unwrap 1 0 4294967295) 0 = 1 ∧
    (∀ n', n' < SIZE_MOD → wrap n' 0 = 1 →
      Nat.dist (unwrap 1 0 4294967295) 4294967295 ≤ Nat.dist n' 4294967295 ∧
      (Nat.dist n' 4294967295 = Nat.dist (unwrap 1 0 4294967295) 4294967295 →
        unwrap 1 0 4294967295 ≤ n')) ∧
    unwrap 1 0 0 = 1 ∧
    unwrap 1 0 4294967295 = 4294967296 + 1 ∧
    unwrap (4294967295 - 1) 0 (3 * 4294967296) = 3 * 4294967296 - 2 ∧
    unwrap (4294967295 - 10) 0 (3 * 4294967296) = 3 * 4294967296 - 11 ∧
    unwrap 4294967295 10 (3 * 4294967296) = 3 * 4294967296 - 11 ∧
    unwrap 4294967295 0 0 = 4294967295 ∧
    unwrap 16 16 0 = 0 ∧
    unwrap 15 16 0 = 4294967295 ∧
    unwrap 0 2147483647 0 = 2147483647 + 2 ∧
    unwrap 4294967295 2147483647 0 = 2147483648 ∧
    unwrap 4294967295 2147483648 0 = 2147483647 :=
  ⟨⟨by decide, by decide, by decide⟩,
    unwrap_closest_to_checkpoint 1 0 4294967295 (by decide) (by decide) (by decide)⟩

/-! ## The stream is first-in first-out -/

namespace ByteStream

theorem fifo_step {s : ByteStream} {l : Log} (h : Fifo s l) (c : Call) :
    ∃ s' l', s.step_log l c = some (s', l') ∧ Fifo s' l' ∧
      ((∀ len, c ≠ Call.pop_output len) → l.returned = l.removed →
        l'.returned = l'.removed) := by
  obtain ⟨⟨h1, h2⟩, h3, h4, h5⟩ := h
  have hpop : s.bytes_popped ≤ l.accepted.length := by omega
  cases c with
  | write data =>
    refine ⟨_, _, rfl, ⟨inv_write ⟨h1, h2⟩ data, ?_, ?_, ?_⟩, fun _ e => e⟩
    · simp only [write, h3, List.drop_append_of_le_length hpop]
    · simp only [write, wsub_of_le h2, List.length_append, List.length_take, h4]
      omega
    · simp only [write, h5, List.take_append_of_le_length hpop]
  | peek_output len =>
    refine ⟨s, l, ?_, ⟨⟨h1, h2⟩, h3, h4, h5⟩, fun _ e => e⟩
    simp [step_log, peek_output, h2]
  | pop_output len =>
    refine ⟨{ s with bytes_popped := s.bytes_popped + min len s.stream.length,
                     stream := s.stream.drop (min len s.stream.length) },
      { l with removed := l.removed ++ s.stream.take (min len s.stream.length) }, ?_,
      ⟨?_, ?_, h4, ?_⟩, fun hc _ => absurd rfl (hc len)⟩
    · simp [step_log, pop_output, h2]
    · simp only [Inv, List.length_drop]
      omega
    · simp only [h3, List.drop_drop]
    · simp only [h5, h3]
      rw [List.take_add]
  | read len =>
    refine ⟨{ s with bytes_popped := s.bytes_popped + min len s.stream.length,
                     stream := s.stream.drop (min len s.stream.length) },
      { l with removed := l.removed ++ s.stream.take (min len s.stream.length),
               returned := l.returned ++ s.stream.take (min len s.stream.length) }, ?_,
      ⟨?_, ?_, h4, ?_⟩, fun _ e => by simp only [e]⟩
    · simp [step_log, read_eq h2]
    · simp only [Inv, List.length_drop]
      omega
    · simp only [h3, List.drop_drop]
    · simp only [h5, h3]
      rw [List.take_add]
  | end_input =>
    exact ⟨_, _, rfl, ⟨⟨h1, h2⟩, h3, h4, h5⟩, fun _ e => e⟩

theorem fifo_run : ∀ (calls : List Call) (s : ByteStream) (l : Log), Fifo s l →
    ∃ s' l', s.run_log l calls = some (s', l') ∧ Fifo s' l' ∧
      (NoPop calls → l.returned = l.removed → l'.returned = l'.removed) := by
  intro calls
  induction calls with
  | nil => intro s l h; exact ⟨s, l, rfl, h, fun _ e => e⟩
  | cons c cs ih =>
    intro s l h
    obtain ⟨s1, l1, e1, h1, k1⟩ := fifo_step h c
    obtain ⟨s2, l2, e2, h2, k2⟩ := ih s1 l1 h1
    refine ⟨s2, l2, by simp [run_log, e1, e2], h2, ?_⟩
    intro hn e
    exact k2 (fun c' hc' => hn c' (List.mem_cons_of_mem _ hc'))
      (k1 (hn c (List.mem_cons_self _ _)) e)

end ByteStream

/-- C29 fails when `pop_output` is among the calls: on a stream of capacity 4,
after `write("ab")` and `pop_output(1)`, `read(1)` returns `"b"`; the accepted
bytes are `"ab"`, of which `"b"` is not a prefix. -/
theorem ByteStream.read_after_pop_is_not_a_prefix :
    ((ByteStream.init 4).run_log ⟨[], [], []⟩
        [.write ['a', 'b'], .pop_output 1, .read 1]).map
        (fun p => (p.2.accepted, p.2.returned, decide (p.2.returned <+: p.2.accepted)))
      = some (['a', 'b'], ['b'], false) := by
  decide

/-- C29, amended: every sequence of `write`, `peek_output`, `pop_output`, `read`
and `end_input` calls on a fresh stream returns (no `assert` fails), and
afterwards the buffer is the concatenation of the accepted prefixes of all
writes, which has `bytes_written` bytes, with its first `bytes_read` bytes
dropped; the bytes removed by `pop_output` and `read`, concatenated in call
order, are those first `bytes_read` bytes, a prefix of the accepted bytes; and
when the sequence has no `pop_output` call, they are the concatenation of
everything returned by `read`, which then is that prefix. -/
theorem ByteStream.first_in_first_out (capacity : Nat) (calls : List ByteStream.Call) :
    ∃ s l, (ByteStream.init capacity).run_log ⟨[], [], []⟩ calls = some (s, l) ∧
      s.stream = l.accepted.drop s.bytes_read ∧
      l.accepted.length = s.bytes_written ∧
      l.removed = l.accepted.take s.bytes_read ∧ l.removed <+: l.accepted ∧
      (ByteStream.NoPop calls → l.returned = l.removed ∧ l.returned <+: l.accepted) := by
  obtain ⟨s, l, e, ⟨_, h2, h3, h4⟩, k⟩ :=
    ByteStream.fifo_run calls (ByteStream.init capacity) ⟨[], [], []⟩
      ⟨ByteStream.inv_init capacity, by simp [ByteStream.init], by simp [ByteStream.init],
        by simp [ByteStream.init]⟩
  have hp : l.removed <+: l.accepted := by
    rw [h4]
    exact List.take_prefix _ _
  refine ⟨s, l, e, h2, h3, h4, hp, fun hn => ?_⟩
  have := k hn rfl
  exact ⟨this, this ▸ hp⟩

/-! ## The memory bound of the reassembler -/

namespace Window

end Window

namespace StreamReassembler

end StreamReassembler

namespace Window

end Window

namespace StreamReassembler

end StreamReassembler

namespace StreamReassembler

theorem dinv_init (capacity N : Nat) (hcap : capacity < SIZE_MOD) :
    DInv capacity N (init capacity) where
  winv := winv_init capacity
  capacity_eq := rfl
  pushed_lt := by simpa [init, ByteStream.init] using hcap
  keys_lt := by intro k hk; simp [init, Window.find] at hk
  eof_at := by intro h; simp [init] at h
  drained := by intro h; simp [init, Window.find] at h

theorem dinv_read {capacity N : Nat} {r : StreamReassembler} (h : DInv capacity N r)
    (len : Nat) : ∃ r' out, r.step (.read len) = some (r', out) ∧ DInv capacity N r' := by
  obtain ⟨r', out, e, hw⟩ := winv_read h.winv len
  have e' := step_read h.winv.1.2 len
  rw [e'] at e
  cases e
  exact ⟨_, _, e', hw, h.capacity_eq, h.pushed_lt, h.keys_lt, h.eof_at, h.drained⟩

theorem dinv_push {capacity N : Nat} {r : StreamReassembler} (h : DInv capacity N r)
    (data : List Char) (index : Nat) (eof : Bool)
    (hfit : index + data.length + capacity < SIZE_MOD)
    (hend : eof = true → index + data.length = N) :
    ∃ r', r.push_substring data index eof = some r' ∧ DInv capacity N r' := by
  have hE : index + data.length < SIZE_MOD := by omega
  obtain ⟨r', e, hw⟩ := winv_push h.winv data index eof hE
  refine ⟨r', e, ?_⟩
  obtain ⟨hinv, hcap, hkeys⟩ := h.winv
  by_cases hd : data = []
  · subst hd
    cases eof with
    | false =>
      rw [push_empty_no_eof] at e
      cases e
      exact h
    | true =>
      rw [push_empty_eof] at e
      cases e
      have hN : index = N := by simpa using hend rfl
      exact
        { winv := hw
          capacity_eq := h.capacity_eq
          pushed_lt := h.pushed_lt
          keys_lt := h.keys_lt
          eof_at := fun _ => hN
          drained := by
            intro hf
            obtain ⟨h1, h2⟩ := h.drained hf
            refine ⟨rfl, ?_⟩
            have := h.eof_at h1
            simp only [ByteStream.end_input]
            omega }
  · rcases push_spec r data index eof hinv hcap hd hE with
      ⟨_, hp⟩ | ⟨_, _, w1, r3, hw1, hdr, hp⟩
    · rw [hp] at e
      cases e
      exact ⟨hw, h.capacity_eq, h.pushed_lt, h.keys_lt, h.eof_at, h.drained⟩
    · rw [hp] at e
      cases e
      have hcapeq := h.capacity_eq
      have hA : wadd r.output.bytes_popped r.capacity = r.output.bytes_popped + r.capacity := by
        apply wadd_of_lt
        have := h.pushed_lt
        have := hinv.1
        omega
      have hw1keys : ∀ k, Window.find w1 k ≠ none → k + 1 + capacity < SIZE_MOD := by
        intro k hk
        rw [hw1] at hk
        split at hk
        · rename_i ha
          have := ha.2.2.2.2.1
          omega
        · exact h.keys_lt k hk
      obtain ⟨written, _, hl, hf⟩ := hdr.written
      exact
        { winv := hw
          capacity_eq := by
            simp only [refreshed]
            rw [hdr.capacity_eq]
            exact hcapeq
          pushed_lt := by
            simp only [refreshed]
            by_cases hz : written.length = 0
            · have := h.pushed_lt
              omega
            · have hj := hf (written.length - 1) (by omega)
              have hne : Window.find w1 (r.output.bytes_pushed + (written.length - 1)) ≠ none := by
                simp only [staged] at hj
                rw [hj]
                simp [List.getElem?_eq_some]
                omega
              have := hw1keys _ hne
              omega
          keys_lt := by
            intro k hk
            simp only [refreshed] at hk
            rw [hdr.window k] at hk
            split at hk
            · exact absurd rfl hk
            · exact hw1keys k hk
          eof_at := by
            intro he
            simp only [refreshed] at he ⊢
            rw [hdr.eof_eq] at he
            rw [hdr.eof_idx_eq]
            simp only [staged] at he ⊢
            split
            · rename_i hc
              exact hend hc.1
            · rename_i hc
              have : r.eof = true := by
                cases hr : r.eof with
                | true => rfl
                | false =>
                  rw [hr] at he
                  simp only [Bool.false_or, Bool.and_eq_true, decide_eq_true_eq] at he
                  exact absurd he hc
              exact h.eof_at this
          drained := by
            intro hfind
            simp only [refreshed] at hfind ⊢
            have hinv3 := hdr.out_inv
            have hpop := hdr.popped_eq
            have hoc := hdr.out_capacity_eq
            simp only [staged] at hpop hoc
            have hle : r3.output.bytes_pushed ≤ r.output.bytes_popped + r.capacity := by
              have := hinv3.1
              have := hinv3.2
              omega
            rcases hdr.stable with hs | hs | hs | hs
            · rw [hA] at hs
              exact absurd hle hs
            · exact ⟨hs.2, hs.1.symm⟩
            · rw [hA] at hs
              have hk := hw.2.2 r3.output.bytes_pushed hfind
              simp only [refreshed] at hk
              rw [hpop, hdr.capacity_eq] at hk
              simp only [staged] at hk
              omega
            · exact absurd hs hfind }

theorem dinv_step (capacity N : Nat) (r : StreamReassembler) (_got : List Char) (op : Op)
    (h : DInv capacity N r) (hop : op.NoWrap capacity ∧ op.EndsAt N) :
    ∃ r' out, r.step op = some (r', out) ∧ DInv capacity N r' := by
  cases op with
  | push data index eof =>
    obtain ⟨r', e, h'⟩ := dinv_push h data index eof hop.1 hop.2
    exact ⟨r', [], by simp [step, e], h'⟩
  | read len => exact dinv_read h len

end StreamReassembler

/-- C28 fails when `bytes_read + capacity` wraps around: on a reassembler of
capacity `2 ^ 64 - 2`, after `"abc"` is pushed at 0 and read, the first
unacceptable index is `3 + (2 ^ 64 - 2) = 1` in `size_t`; the push of `"abcde"`
at 0 then stores `'d'` and `'e'` at 3 and 4 and the drain loop, bounded by 1,
does not run: the window holds the byte at `bytes_written = 3` and no eof is
known. -/
theorem StreamReassembler.byte_left_waiting_on_wrap :
    (StreamReassembler.run (StreamReassembler.init 18446744073709551614) []
        [.push ['a', 'b', 'c'] 0 false, .read 3, .push ['a', 'b', 'c', 'd', 'e'] 0 false]).map
        (fun p => (p.1.output.bytes_written,
          p.1.receving_window.find p.1.output.bytes_written, p.1.eof, p.2))
      = some (3, some 'd', false, ['a', 'b', 'c']) := by
  rfl

/-- C28, amended: every sequence of output reads and of `push_substring` calls
whose end index plus the capacity is below `2 ^ 64` (neither `index + |data|`
nor `bytes_read + capacity` wraps around) and whose eof-flagged substrings all
end at the same index `N` returns, and in the state reached the window holds
the byte at index `bytes_written` only if eof is known and
`eof_index = bytes_written`. -/
theorem StreamReassembler.no_committable_byte_waits (capacity N : Nat)
    (ops : List StreamReassembler.Op) (hcap : capacity < SIZE_MOD)
    (hops : ∀ op ∈ ops, op.NoWrap capacity ∧ op.EndsAt N) :
    ∃ r got, StreamReassembler.run (StreamReassembler.init capacity) [] ops = some (r, got) ∧
      (r.receving_window.find r.output.bytes_written ≠ none →
        r.eof = true ∧ r.eof_idx = r.output.bytes_written) := by
  obtain ⟨r, got, e, h⟩ := StreamReassembler.run_induction
    (fun r _ => StreamReassembler.DInv capacity N r)
    (fun op => op.NoWrap capacity ∧ op.EndsAt N)
    (StreamReassembler.dinv_step capacity N)
    ops (StreamReassembler.init capacity) [] (StreamReassembler.dinv_init capacity N hcap) hops
  exact ⟨r, got, e, h.drained⟩

/-- Witness of C28, amended: capacity 8 and a stream that ends at index 1;
`"bcd"` pushed at 1 without the flag waits in the window, and `"a"` at 0 with the
eof flag is then committed, leaving `'b'` at `bytes_written = eof_index = 1`. -/
theorem StreamReassembler.no_committable_byte_waits_witness :
    ((8 : Nat) < SIZE_MOD ∧
      ∀ op ∈ [StreamReassembler.Op.push ['b', 'c', 'd'] 1 false,
          StreamReassembler.Op.push ['a'] 0 true],
        op.NoWrap 8 ∧ op.EndsAt 1) ∧
    ∃ r got, StreamReassembler.run (StreamReassembler.init 8) []
        [StreamReassembler.Op.push ['b', 'c', 'd'] 1 false,
          StreamReassembler.Op.push ['a'] 0 true] = some (r, got) ∧
      (r.receving_window.find r.output.bytes_written ≠ none →
        r.eof = true ∧ r.eof_idx = r.output.bytes_written) :=
  ⟨⟨by decide, by decide⟩,
    StreamReassembler.no_committable_byte_waits 8 1
      [StreamReassembler.Op.push ['b', 'c', 'd'] 1 false,
        StreamReassembler.Op.push ['a'] 0 true] (by decide) (by decide)⟩

/-! ## The shape of the outstanding queue -/

namespace TCPSender

theorem abutting_of_chained (s : TCPSender) (hisn : s.isn < SEQ_MOD) :
    ∀ (q : List TCPSegment) (start : Nat), Chained s.isn start q →
      start + flight q = s.next_seqno → s.next_seqno - start ≤ 2147483648 →
      Abutting s start q ∧
      List.Pairwise (fun a b => s.abs_start a < s.abs_start b) q := by
  intro q
  induction q with
  | nil =>
    intro start _ h _
    simp only [flight_nil, Nat.add_zero] at h
    exact ⟨h, List.Pairwise.nil⟩
  | cons hd rest ih =>
    intro start hch hsum hb
    have hmem := chained_mem s.isn s.next_seqno hisn (hd :: rest) start hch (by omega) hb
    obtain ⟨h1, h2, h3⟩ := hch
    rw [flight_cons] at hsum
    have hu : s.abs_start hd = start := by
      simp only [abs_start, h1]
      exact unwrap_wrap start s.isn s.next_seqno hisn (by omega) hb
    obtain ⟨ha, hp⟩ := ih (start + hd.length_in_sequence_space) h3 (by omega) (by omega)
    refine ⟨⟨hu, h2, ha⟩, List.Pairwise.cons ?_ hp⟩
    intro b hb'
    have := chained_mem s.isn s.next_seqno hisn rest (start + hd.length_in_sequence_space) h3
      (by omega) (by omega) b hb'
    simp only [abs_start] at hu ⊢
    omega

theorem placed_step {W : Nat} {s s1 : TCPSender} (hinv : Inv W s) (hW : W ≤ 2147483648)
    (hord : Ordered s) (op : Op) (e : s.step op = some s1) :
    s1.next_seqno = s.next_seqno + flight (placed_by s op s1) := by
  cases op with
  | fill_window =>
    obtain ⟨s', new, e', hf⟩ := fill_window_spec s hinv.stream_inv
    simp only [step] at e
    rw [e] at e'
    cases e'
    simp only [placed_by, hf.out_eq, List.drop_left, hf.next_eq]
  | ack_received ackno window_size =>
    simp only [step] at e
    by_cases ha : unwrap ackno s.isn s.next_seqno > s.next_seqno
    · simp only [ack_received, if_pos ha] at e
      cases e
      simp [placed_by, flight]
    · obtain ⟨s1', removed, kept, new, e', _, _, _, _, e5, e6, _⟩ :=
        ack_received_spec hinv hW hord ackno window_size (by omega)
      rw [e] at e'
      cases e'
      simp only [placed_by, e5, List.drop_left, e6]
  | tick ms =>
    obtain ⟨s', e', _, _, hn⟩ := inv_tick hinv ms
    simp only [step] at e
    rw [e] at e'
    cases e'
    simp [placed_by, flight, hn]
  | send_empty_segment rst =>
    simp only [step] at e
    cases e
    simp [placed_by, flight, send_empty_segment]
  | write data =>
    simp only [step] at e
    cases e
    simp [placed_by, flight]
  | end_input =>
    simp only [step] at e
    cases e
    simp [placed_by, flight]

theorem reach_placed : ∀ (ops : List Op) (W : Nat) (s s1 : TCPSender)
    (placed placed1 : List TCPSegment), Inv W s → W ≤ 65535 → Ordered s →
    (∀ op ∈ ops, op.Typed) → s.next_seqno = flight placed →
    s.run_placed placed ops = some (s1, placed1) →
    s.run ops = some s1 ∧ s1.next_seqno = flight placed1 ∧
      ∃ W1, W1 ≤ 65535 ∧ Inv W1 s1 ∧ Ordered s1 := by
  intro ops
  induction ops with
  | nil =>
    intro W s s1 placed placed1 hinv hW hord _ hn e
    simp only [run_placed, Option.some.injEq, Prod.mk.injEq] at e
    obtain ⟨rfl, rfl⟩ := e
    exact ⟨rfl, hn, W, hW, hinv, hord⟩
  | cons op ops ih =>
    intro W s s1 placed placed1 hinv hW hord ht hn e
    obtain ⟨s', e', hinv'⟩ := inv_step hinv op
    simp only [run_placed, e', Option.some_bind] at e
    have hstep := placed_step hinv (by omega) hord op e'
    obtain ⟨r1, r2, r3⟩ := ih _ s' s1 _ placed1 hinv'
      (typed_window_le (ht op (List.mem_cons_self _ _)) hW)
      (ordered_step hinv (by omega) hord op e')
      (fun o ho => ht o (List.mem_cons_of_mem _ ho))
      (by rw [hstep, hn, flight_append]) e
    exact ⟨by simp only [run, e', Option.some_bind, r1], r2, r3⟩

end TCPSender

/-- C27: on every sender reached from the constructor by `fill_window`,
`ack_received`, `tick` and `send_empty_segment` calls and writes to the stream
(initial sequence number a `WrappingInt32`, arguments of the calls within their
C++ types, which keeps fewer than `2 ^ 31` sequence numbers in flight), the
outstanding segments are in strictly increasing absolute-sequence order, the
first starts at `next_seqno - bytes_in_flight`, each starts where the previous
one ends, and the last one ends at `next_seqno`; `bytes_in_flight <= next_seqno`,
and `next_seqno` is the total length in sequence space of all segments ever
placed in the outstanding queue. -/
theorem TCPSender.outstanding_queue_shape (capacity retx_timeout isn : Nat)
    (ops : List TCPSender.Op) (s : TCPSender) (placed : List TCPSegment)
    (hisn : isn < SEQ_MOD) (htyped : ∀ op ∈ ops, op.Typed)
    (hs : (TCPSender.init capacity retx_timeout isn).run_placed [] ops = some (s, placed)) :
    (TCPSender.init capacity retx_timeout isn).run ops = some s ∧
    s.bytes_in_flight < 2147483648 ∧
    List.Pairwise (fun a b => s.abs_start a < s.abs_start b) s.send_window ∧
    TCPSender.Abutting s (s.next_seqno - s.bytes_in_flight) s.send_window ∧
    s.bytes_in_flight ≤ s.next_seqno ∧
    s.next_seqno = TCPSender.flight placed := by
  obtain ⟨hrun, hn, W, hW, hinv, hord⟩ :=
    TCPSender.reach_placed ops 1 _ s [] placed (TCPSender.inv_fresh capacity retx_timeout isn)
      (by omega) (TCPSender.ordered_init capacity retx_timeout isn hisn) htyped
      (by simp [TCPSender.init, TCPSender.flight]) hs
  have hfl := hinv.flight_le
  have hfn := hord.flight_le_next
  obtain ⟨ha, hp⟩ := TCPSender.abutting_of_chained s hord.isn_lt s.send_window
    (s.next_seqno - TCPSender.flight s.send_window) hord.chained (by omega) (by omega)
  rw [TCPSender.bytes_in_flight_eq]
  exact ⟨hrun, by omega, hp, ha, hfn, hn⟩

/-- Witness of C27: after `scenario_abc_calls` the SYN and `"abc"` have been
placed in the queue and `"abc"` is outstanding from 1 to `next_seqno = 4`. -/
theorem TCPSender.outstanding_queue_shape_witness :
    ((0 < SEQ_MOD ∧ ∀ op ∈ TCPSender.scenario_abc_calls, op.Typed) ∧
      (TCPSender.init 8 1000 0).run_placed [] TCPSender.scenario_abc_calls
        = some (TCPSender.scenario_abc_outstanding,
            [TCPSegment.mk 0 true false false [],
              TCPSegment.mk 1 false false false ['a', 'b', 'c']])) ∧
    (TCPSender.init 8 1000 0).run TCPSender.scenario_abc_calls
      = some TCPSender.scenario_abc_outstanding ∧
    TCPSender.scenario_abc_outstanding.bytes_in_flight < 2147483648 ∧
    List.Pairwise
      (fun a b => TCPSender.scenario_abc_outstanding.abs_start a
        < TCPSender.scenario_abc_outstanding.abs_start b)
      TCPSender.scenario_abc_outstanding.send_window ∧
    TCPSender.Abutting TCPSender.scenario_abc_outstanding
      (TCPSender.scenario_abc_outstanding.next_seqno
        - TCPSender.scenario_abc_outstanding.bytes_in_flight)
      TCPSender.scenario_abc_outstanding.send_window ∧
    TCPSender.scenario_abc_outstanding.bytes_in_flight
      ≤ TCPSender.scenario_abc_outstanding.next_seqno ∧
    TCPSender.scenario_abc_outstanding.next_seqno
      = TCPSender.flight [TCPSegment.mk 0 true false false [],
          TCPSegment.mk 1 false false false ['a', 'b', 'c']] :=
  ⟨⟨⟨by decide, by decide⟩, by decide⟩,
    TCPSender.outstanding_queue_shape 8 1000 0 TCPSender.scenario_abc_calls
      TCPSender.scenario_abc_outstanding
      [TCPSegment.mk 0 true false false [], TCPSegment.mk 1 false false false ['a', 'b', 'c']]
      (by decide) (by decide) (by decide)⟩

/-! ## Sequence-number accounting and the FIN -/

namespace TCPSender

theorem state_closed (s : TCPSender) : s.state = .CLOSED ↔ s.next_seqno = 0 := by
  simp only [state]
  split_ifs <;> simp_all

theorem state_acked2 (s : TCPSender) :
    s.state = .SYN_ACKED_2 ↔
      s.next_seqno ≠ 0 ∧ s.next_seqno ≠ s.bytes_in_flight ∧ s.stream.eof = true ∧
      s.next_seqno < s.stream.bytes_written + 2 := by
  simp only [state]
  split_ifs <;> simp_all

theorem seg_size_le (s : TCPSender) (remaining : Nat) :
    s.seg_size remaining ≤ s.stream.stream.length ∧
    s.seg_size remaining + (if s.seg_syn remaining = true then 1 else 0) ≤ remaining := by
  simp only [seg_size, ByteStream.buffer_size]
  cases hsyn : s.seg_syn remaining with
  | true =>
    have h1 : 1 ≤ remaining := by
      simp only [seg_syn, Bool.and_eq_true, decide_eq_true_eq] at hsyn
      exact hsyn.2
    simp only [if_true, ByteStream.wsub_of_le h1]
    omega
  | false =>
    simp only [Bool.false_eq_true, if_false, ByteStream.wsub_of_le (Nat.zero_le _)]
    omega

theorem seg_length (s : TCPSender) (remaining : Nat) :
    (s.seg_built remaining).length_in_sequence_space
      = s.seg_size remaining + (if s.seg_syn remaining = true then 1 else 0)
        + (if s.seg_fin remaining = true then 1 else 0) := by
  have := (seg_size_le s remaining).1
  simp only [seg_built, TCPSegment.length_in_sequence_space, List.length_take]
  omega

theorem seg_length_le (s : TCPSender) (remaining : Nat) :
    (s.seg_built remaining).length_in_sequence_space ≤ remaining := by
  rw [seg_length]
  have := (seg_size_le s remaining).2
  cases hfin : s.seg_fin remaining with
  | true =>
    simp only [seg_fin, Bool.and_eq_true, decide_eq_true_eq] at hfin
    simp only [if_true]
    omega
  | false =>
    simp only [Bool.false_eq_true, if_false]
    omega

theorem send_segment_built (s : TCPSender) (remaining : Nat) (hinv : ByteStream.Inv s.stream) :
    s.send_segment remaining
      = some (if (s.seg_built remaining).length_in_sequence_space ≠ 0 then
          { s with stream := s.seg_stream remaining,
                   segments_out := s.segments_out ++ [s.seg_built remaining],
                   send_window := s.send_window ++ [s.seg_built remaining] }
          else { s with stream := s.seg_stream remaining },
        (s.seg_built remaining).length_in_sequence_space) := by
  have hmin : min (s.seg_size remaining) s.stream.stream.length = s.seg_size remaining := by
    have := (seg_size_le s remaining).1
    omega
  have h := ByteStream.read_eq hinv.2 (s.seg_size remaining)
  rw [hmin] at h
  simp only [seg_size, seg_syn] at h
  by_cases hc : (s.seg_built remaining).length_in_sequence_space ≠ 0
  · rw [if_pos hc]
    simp only [send_segment, h]
    exact if_pos hc
  · rw [if_neg hc]
    simp only [send_segment, h]
    exact if_neg hc

theorem seg_stream_self (s : TCPSender) (remaining : Nat)
    (h : (s.seg_built remaining).length_in_sequence_space = 0) :
    ({ s with stream := s.seg_stream remaining } : TCPSender) = s := by
  rw [seg_length] at h
  have hz : s.seg_size remaining = 0 := by omega
  simp only [seg_stream, hz, Nat.add_zero, List.drop_zero]

theorem fill_loop_stop (fuel : Nat) (s : TCPSender) (remaining : Nat)
    (hinv : ByteStream.Inv s.stream)
    (h : remaining = 0 ∨ (s.seg_built remaining).length_in_sequence_space = 0) :
    fill_loop (fuel + 1) s remaining = some s := by
  by_cases hr : remaining > 0
  · have h0 : (s.seg_built remaining).length_in_sequence_space = 0 := by
      rcases h with h | h
      · omega
      · exact h
    rw [fill_loop, if_pos hr, send_segment_built s remaining hinv]
    simp only [h0, ne_eq, not_true_eq_false, if_false, if_true]
    rw [seg_stream_self s remaining h0]
  · rw [fill_loop, if_neg hr]

theorem fill_loop_round (fuel : Nat) (s : TCPSender) (remaining : Nat)
    (hinv : ByteStream.Inv s.stream) (hr : remaining > 0)
    (h : (s.seg_built remaining).length_in_sequence_space ≠ 0) :
    fill_loop (fuel + 1) s remaining
      = fill_loop fuel (s.after_segment remaining)
          (remaining - (s.seg_built remaining).length_in_sequence_space) := by
  rw [fill_loop, if_pos hr, send_segment_built s remaining hinv]
  simp only [h, ne_eq, not_false_eq_true, if_true, if_false, update_when_filling,
    ByteStream.wsub_of_le (seg_length_le s remaining), timer_when_filling, after_segment]
  congr 1
  split <;> rfl

end TCPSender

namespace TCPSender

theorem seg_syn_true {s : TCPSender} {remaining : Nat} (h : s.seg_syn remaining = true) :
    s.next_seqno = 0 ∧ 1 ≤ remaining ∧ s.seg_fin remaining = false := by
  simp only [seg_syn, Bool.and_eq_true, decide_eq_true_eq, state_closed] at h
  refine ⟨h.1, h.2, ?_⟩
  cases hf : s.seg_fin remaining with
  | false => rfl
  | true =>
    simp only [seg_fin, Bool.and_eq_true, decide_eq_true_eq, state_acked2] at hf
    exact absurd h.1 hf.1.1

theorem seg_syn_false {s : TCPSender} {remaining : Nat} (h : s.seg_syn remaining = false)
    (hr : 1 ≤ remaining) : s.next_seqno ≠ 0 := by
  intro h0
  have : s.seg_syn remaining = true := by
    simp only [seg_syn, Bool.and_eq_true, decide_eq_true_eq, state_closed]
    exact ⟨h0, hr⟩
  rw [h] at this
  exact absurd this (by simp)

theorem seg_fin_true {s : TCPSender} {remaining : Nat} (ha : Acct s)
    (h : s.seg_fin remaining = true) :
    s.next_seqno ≠ 0 ∧ s.next_seqno ≠ flight s.send_window ∧
    (s.seg_stream remaining).eof = true ∧ s.fin_sent = false ∧
    s.seg_syn remaining = false ∧ s.seg_size remaining < remaining := by
  have hf := h
  simp only [seg_fin, Bool.and_eq_true, decide_eq_true_eq, state_acked2, bytes_in_flight_eq] at hf
  obtain ⟨⟨h1, h2, h3, h4⟩, h5⟩ := hf
  have hsyn : s.seg_syn remaining = false := by
    cases hs : s.seg_syn remaining with
    | false => rfl
    | true => exact absurd (seg_syn_true hs).1 h1
  refine ⟨h1, h2, h3, ?_, hsyn, ?_⟩
  · cases hfs : s.fin_sent with
    | false => rfl
    | true =>
      obtain ⟨_, hnil⟩ := ha.fin_eof hfs
      have hseq := ha.seqno
      have hinv := ha.stream_inv.1
      simp only [hfs, if_true, if_neg h1] at hseq
      simp only [seg_stream, ByteStream.bytes_written] at h4
      simp only [hnil, List.length_nil] at hinv
      omega
  · simp only [hsyn, Bool.false_eq_true, if_false] at h5
    omega

theorem fin_sent_after (s : TCPSender) (remaining : Nat) :
    (s.after_segment remaining).fin_sent = (s.fin_sent || s.seg_fin remaining) := by
  simp [fin_sent, after_segment, seg_built, List.any_append]

theorem acct_after {s : TCPSender} {remaining : Nat} (ha : Acct s) (hr : 1 ≤ remaining)
    (_hne : (s.seg_built remaining).length_in_sequence_space ≠ 0) :
    Acct (s.after_segment remaining) := by
  have hsz := seg_size_le s remaining
  have hinv := ha.stream_inv
  have hseq := ha.seqno
  refine
    { seqno := ?_
      fin_eof := ?_
      flight_le := ?_
      queue_sub := ?_
      stream_inv := ?_ }
  · rw [fin_sent_after]
    simp only [after_segment, seg_length, seg_stream]
    cases hsyn : s.seg_syn remaining with
    | true =>
      obtain ⟨h0, _, hfin⟩ := seg_syn_true hsyn
      simp only [h0, if_true] at hseq
      have hfs : s.fin_sent = false := by
        cases hfs : s.fin_sent with
        | false => rfl
        | true =>
          simp only [hfs, if_true] at hseq
          omega
      simp only [hfs, Bool.false_eq_true, if_false] at hseq
      simp only [hfin, hfs, h0, Bool.or_false, Bool.false_eq_true, if_false, if_true]
      rw [if_neg (by omega)]
      omega
    | false =>
      have hn0 := seg_syn_false hsyn hr
      simp only [if_neg hn0] at hseq
      simp only [Bool.false_eq_true, if_false, Nat.add_zero]
      cases hfin : s.seg_fin remaining with
      | true =>
        have hfs := (seg_fin_true ha hfin).2.2.2.1
        simp only [hfs, Bool.false_eq_true, if_false] at hseq
        simp only [hfs, Bool.false_or, if_true]
        rw [if_neg (by omega)]
        omega
      | false =>
        simp only [Bool.or_false, Bool.false_eq_true, if_false, Nat.add_zero]
        rw [if_neg (by omega)]
        split at hseq <;> rename_i hfs <;> simp only [hfs, if_true, if_false, Bool.false_eq_true]
          <;> omega
  · intro h
    rw [fin_sent_after, Bool.or_eq_true] at h
    rcases h with h | h
    · obtain ⟨he, hnil⟩ := ha.fin_eof h
      simp only [after_segment, seg_stream, hnil, List.drop_nil]
      exact ⟨he, trivial⟩
    · have := (seg_fin_true ha h).2.2.1
      simp only [ByteStream.eof, Bool.and_eq_true, List.isEmpty_iff] at this
      exact this
  · simp only [after_segment, flight_append, flight_cons, flight_nil]
    have := ha.flight_le
    omega
  · intro seg hseg
    simp only [after_segment, List.mem_append, List.mem_singleton] at hseg ⊢
    rcases hseg with h | h
    · exact Or.inl (ha.queue_sub seg h)
    · exact Or.inr h
  · simp only [after_segment, seg_stream, ByteStream.Inv, List.length_drop]
    obtain ⟨h1, h2⟩ := hinv
    omega

theorem fin_sent_stop {s : TCPSender} (ha : Acct s) (h : s.fin_sent = true) (remaining : Nat) :
    (s.seg_built remaining).length_in_sequence_space = 0 := by
  obtain ⟨_, hnil⟩ := ha.fin_eof h
  have hseq := ha.seqno
  simp only [h, if_true] at hseq
  have hn0 : s.next_seqno ≠ 0 := by omega
  have hsyn : s.seg_syn remaining = false := by
    cases hs : s.seg_syn remaining with
    | false => rfl
    | true => exact absurd (seg_syn_true hs).1 hn0
  have hfin : s.seg_fin remaining = false := by
    cases hf : s.seg_fin remaining with
    | false => rfl
    | true =>
      have := (seg_fin_true ha hf).2.2.2.1
      rw [h] at this
      exact absurd this (by simp)
  have hsz := (seg_size_le s remaining).1
  simp only [hnil, List.length_nil] at hsz
  rw [seg_length, hsyn, hfin]
  simp only [Bool.false_eq_true, if_false]
  omega

end TCPSender

namespace TCPSender

theorem sent_refl (s : TCPSender) (room : Nat) (ha : Acct s) : Sent s room s [] where
  same := fun _ => rfl
  out_eq := by simp
  queue_eq := by simp
  next_eq := by simp [flight]
  isn_eq := rfl
  end_eq := rfl
  pushed_eq := rfl
  consumed := by simp
  popped_eq := by simp
  acct := ha
  fin_rule := by
    intro before seg after h
    simp at h

theorem fill_loop_sent : ∀ (fuel : Nat) (s : TCPSender) (remaining : Nat),
    Acct s → remaining < fuel →
    ∃ s' new, fill_loop fuel s remaining = some s' ∧ Sent s remaining s' new := by
  intro fuel
  induction fuel with
  | zero => intro s remaining _ h; omega
  | succ fuel ih =>
    intro s remaining ha hf
    have hinv := ha.stream_inv
    by_cases hstop : remaining = 0 ∨ (s.seg_built remaining).length_in_sequence_space = 0
    · exact ⟨s, [], fill_loop_stop fuel s remaining hinv hstop, sent_refl s remaining ha⟩
    · have hr : remaining > 0 := by omega
      have hne : (s.seg_built remaining).length_in_sequence_space ≠ 0 := fun h =>
        hstop (Or.inr h)
      have hle := seg_length_le s remaining
      have ha2 := acct_after ha hr hne
      obtain ⟨s', new2, e2, hs2⟩ := ih (s.after_segment remaining)
        (remaining - (s.seg_built remaining).length_in_sequence_space) ha2 (by omega)
      refine ⟨s', s.seg_built remaining :: new2, ?_, ?_⟩
      · rw [fill_loop_round fuel s remaining hinv hr hne]
        exact e2
      · have hsz := (seg_size_le s remaining).1
        exact
          { same := fun h => by simp at h
            out_eq := by
              rw [hs2.out_eq]
              simp [after_segment]
            queue_eq := by
              rw [hs2.queue_eq]
              simp [after_segment]
            next_eq := by
              rw [hs2.next_eq, flight_cons]
              simp only [after_segment]
              omega
            isn_eq := by rw [hs2.isn_eq]; rfl
            end_eq := by rw [hs2.end_eq]; rfl
            pushed_eq := by rw [hs2.pushed_eq]; rfl
            consumed := by
              have := hs2.consumed
              simp only [after_segment, seg_stream] at this
              simp only [List.map_cons, List.flatten_cons, List.append_assoc, ← this, seg_built,
                List.take_append_drop]
            popped_eq := by
              rw [hs2.popped_eq]
              simp only [after_segment, seg_stream, List.map_cons, List.flatten_cons,
                List.length_append, seg_built, List.length_take]
              omega
            acct := hs2.acct
            fin_rule := by
              intro before seg after hsplit hfin
              cases before with
              | nil =>
                simp only [List.nil_append, List.cons.injEq] at hsplit
                obtain ⟨hseg, hafter⟩ := hsplit
                subst hseg
                have hfin' : s.seg_fin remaining = true := hfin
                obtain ⟨f1, f2, f3, f4, f5, f6⟩ := seg_fin_true ha hfin'
                have hfs2 : (s.after_segment remaining).fin_sent = true := by
                  rw [fin_sent_after, hfin', Bool.or_true]
                have hstop2 := fill_loop_stop (fuel - 1) (s.after_segment remaining)
                  (remaining - (s.seg_built remaining).length_in_sequence_space)
                  ha2.stream_inv (Or.inr (fin_sent_stop ha2 hfs2 _))
                have hfuel : fuel - 1 + 1 = fuel := by omega
                rw [hfuel, e2] at hstop2
                cases hstop2
                have hnew2 : new2 = [] := by
                  have := hs2.out_eq
                  exact List.append_right_eq_self.mp this.symm
                refine ⟨by rw [← hafter, hnew2], f2, ?_, f4, by simp, ?_⟩
                · exact f3
                · simp only [flight_nil, Nat.sub_zero, seg_built, List.length_take]
                  omega
              | cons b before' =>
                simp only [List.cons_append, List.cons.injEq] at hsplit
                obtain ⟨hb, hrest⟩ := hsplit
                subst hb
                obtain ⟨g1, g2, g3, g4, g5, g6⟩ := hs2.fin_rule before' seg after hrest hfin
                rw [fin_sent_after, Bool.or_eq_false_iff] at g4
                refine ⟨g1, ?_, g3, g4.1, ?_, ?_⟩
                · intro he
                  apply g2
                  simp only [after_segment, flight_append, flight_cons, flight_nil]
                  omega
                · intro x hx
                  rcases List.mem_cons.mp hx with rfl | hx
                  · exact g4.2
                  · exact g5 x hx
                · rw [flight_cons]
                  omega }

theorem fill_window_sent (s : TCPSender) (ha : Acct s) :
    ∃ s' new, s.fill_window = some s' ∧
      Sent s (max s.receive_window_size 1 - flight s.send_window) s' new := by
  simp only [fill_window, window_or_one, bytes_in_flight_eq]
  by_cases h : flight s.send_window > max s.receive_window_size 1
  · rw [if_pos h]
    exact ⟨s, [], rfl, sent_refl s _ ha⟩
  · rw [if_neg h, ByteStream.wsub_of_le (by omega)]
    exact fill_loop_sent _ s _ ha (by omega)

end TCPSender

namespace TCPSender

theorem acct_fresh (capacity retx_timeout isn : Nat) : Acct (init capacity retx_timeout isn) where
  seqno := by simp [init, fin_sent, ByteStream.init]
  fin_eof := by intro h; simp [init, fin_sent] at h
  flight_le := by simp [init, flight]
  queue_sub := by intro seg h; simp [init] at h
  stream_inv := ByteStream.inv_init capacity

theorem acct_congr {s s1 : TCPSender} (ha : Acct s) (h1 : s1.next_seqno = s.next_seqno)
    (h2 : s1.stream = s.stream) (h3 : s1.fin_sent = s.fin_sent)
    (h4 : flight s1.send_window ≤ flight s.send_window)
    (h5 : ∀ seg ∈ s1.send_window, seg ∈ s1.segments_out) : Acct s1 where
  seqno := by rw [h1, h2, h3]; exact ha.seqno
  fin_eof := by rw [h2, h3]; exact ha.fin_eof
  flight_le := by rw [h1]; exact Nat.le_trans h4 ha.flight_le
  queue_sub := h5
  stream_inv := by rw [h2]; exact ha.stream_inv

theorem remove_acked_subset (isn next_seqno abs_ackno : Nat) (q : List TCPSegment) :
    ∀ seg ∈ (remove_acked isn next_seqno abs_ackno q).1, seg ∈ q := by
  induction q with
  | nil => intro seg h; simp [remove_acked] at h
  | cons hd rest ih =>
    intro seg h
    simp only [remove_acked] at h
    split at h
    · exact h
    · split at h
      · exact List.mem_cons_of_mem _ (ih seg h)
      · rcases List.mem_cons.mp h with rfl | h'
        · exact List.mem_cons_self _ _
        · exact List.mem_cons_of_mem _ (ih seg h')

theorem acct_fill_window {s s1 : TCPSender} (e : s.fill_window = some s1) (ha : Acct s) :
    Acct s1 ∧ s1.stream.end_ = s.stream.end_ := by
  obtain ⟨s', new, e', hs⟩ := fill_window_sent s ha
  rw [e] at e'
  cases e'
  exact ⟨hs.acct, hs.end_eq⟩

theorem acct_ack_received {s s1 : TCPSender} (ha : Acct s) (ackno window_size : Nat)
    (e : s.ack_received ackno window_size = some s1) :
    Acct s1 ∧ s1.stream.end_ = s.stream.end_ := by
  by_cases hgt : unwrap ackno s.isn s.next_seqno > s.next_seqno
  · simp only [ack_received, if_pos hgt] at e
    cases e
    exact ⟨acct_congr ha rfl rfl rfl (Nat.le_refl _) ha.queue_sub, rfl⟩
  by_cases hq : s.send_window = []
  · simp only [ack_received, if_neg hgt, hq, List.isEmpty_nil, if_true] at e
    cases e
    exact ⟨acct_congr ha rfl rfl rfl (by simp [flight]) (by intro seg h; simp at h), rfl⟩
  rw [ack_received_eq s ackno window_size hgt hq] at e
  have hsub := remove_acked_subset s.isn s.next_seqno (unwrap ackno s.isn s.next_seqno)
    s.send_window
  have hfl := remove_acked_flight_le s.isn s.next_seqno (unwrap ackno s.isn s.next_seqno)
    s.send_window
  split at e
  · have := acct_fill_window e
      (acct_congr ha rfl rfl rfl hfl (fun seg h => ha.queue_sub seg (hsub seg h)))
    exact this
  · have := acct_fill_window e
      (acct_congr ha rfl rfl rfl hfl (fun seg h => ha.queue_sub seg (hsub seg h)))
    exact this

theorem acct_tick {W : Nat} {s s1 : TCPSender} (hinv : Inv W s) (ha : Acct s) (ms : Nat)
    (e : s.tick ms = some s1) : Acct s1 ∧ s1.stream.end_ = s.stream.end_ := by
  cases hact : s.timer.active with
  | false =>
    rw [tick_idle s ms hact] at e
    cases e
    exact ⟨ha, rfl⟩
  | true =>
    have hq := hinv.timer_iff.mp hact
    cases hsw : s.send_window with
    | nil => exact absurd hsw hq
    | cons head rest =>
      by_cases hal : s.timer.alarm > ms
      · rw [tick_running s ms hact hal] at e
        cases e
        exact ⟨acct_congr ha rfl rfl rfl (Nat.le_refl _) ha.queue_sub, rfl⟩
      · rw [tick_expired s ms head rest hact (by omega) hsw] at e
        cases e
        have hmem : head ∈ s.segments_out :=
          ha.queue_sub head (by rw [hsw]; exact List.mem_cons_self _ _)
        refine ⟨acct_congr ha rfl rfl ?_ (Nat.le_refl _) ?_, rfl⟩
        · simp only [fin_sent, List.any_append, List.any_cons, List.any_nil, Bool.or_false]
          cases hf : head.fin with
          | false => simp
          | true =>
            have : s.segments_out.any (fun seg => seg.fin) = true :=
              List.any_eq_true.mpr ⟨head, hmem, hf⟩
            simp [this]
        · intro seg hseg
          exact List.mem_append_left _ (ha.queue_sub seg hseg)

theorem acct_step {W : Nat} {s s1 : TCPSender} (hinv : Inv W s) (ha : Acct s) (op : Op)
    (hw : op.isWrite = true → s.stream.end_ = false) (e : s.step op = some s1) :
    Acct s1 ∧ (op ≠ Op.end_input → s1.stream.end_ = s.stream.end_) := by
  cases op with
  | fill_window =>
    obtain ⟨h1, h2⟩ := acct_fill_window e ha
    exact ⟨h1, fun _ => h2⟩
  | ack_received ackno window_size =>
    obtain ⟨h1, h2⟩ := acct_ack_received ha ackno window_size e
    exact ⟨h1, fun _ => h2⟩
  | tick ms =>
    obtain ⟨h1, h2⟩ := acct_tick hinv ha ms e
    exact ⟨h1, fun _ => h2⟩
  | send_empty_segment rst =>
    simp only [step] at e
    cases e
    refine ⟨acct_congr ha rfl rfl ?_ (Nat.le_refl _) ?_, fun _ => rfl⟩
    · simp [fin_sent, send_empty_segment, List.any_append]
    · intro seg hseg
      exact List.mem_append_left _ (ha.queue_sub seg hseg)
  | write data =>
    simp only [step] at e
    cases e
    have hend := hw rfl
    have hfs : s.fin_sent = false := by
      cases h : s.fin_sent with
      | false => rfl
      | true =>
        have := (ha.fin_eof h).1
        rw [hend] at this
        exact absurd this (by simp)
    refine ⟨?_, fun _ => rfl⟩
    exact
      { seqno := by
          have := ha.seqno
          simpa [ByteStream.write, fin_sent] using this
        fin_eof := by
          intro h
          have : s.fin_sent = true := h
          rw [hfs] at this
          exact absurd this (by simp)
        flight_le := ha.flight_le
        queue_sub := ha.queue_sub
        stream_inv := ByteStream.inv_write ha.stream_inv data }
  | end_input =>
    simp only [step] at e
    cases e
    refine ⟨?_, fun h => absurd rfl h⟩
    exact
      { seqno := ha.seqno
        fin_eof := by
          intro h
          exact ⟨rfl, (ha.fin_eof h).2⟩
        flight_le := ha.flight_le
        queue_sub := ha.queue_sub
        stream_inv := ByteStream.inv_end_input ha.stream_inv }

theorem quiet_of_no_write : ∀ (ops : List Op), (∀ op ∈ ops, op.isWrite = false) →
    quiet_after_end ops = true := by
  intro ops
  induction ops with
  | nil => intro _; rfl
  | cons op ops ih =>
    intro h
    have hrest := ih (fun o ho => h o (List.mem_cons_of_mem _ ho))
    cases op <;> simp only [quiet_after_end, hrest]
    simp only [List.all_eq_true, Bool.not_eq_true']
    exact fun o ho => h o (List.mem_cons_of_mem _ ho)

theorem acct_run : ∀ (ops : List Op) (W : Nat) (s s1 : TCPSender), Inv W s → Acct s →
    quiet_after_end ops = true →
    (s.stream.end_ = true → ∀ op ∈ ops, op.isWrite = false) →
    s.run ops = some s1 → Acct s1 := by
  intro ops
  induction ops with
  | nil =>
    intro W s s1 _ ha _ _ e
    simp only [run] at e
    cases e
    exact ha
  | cons op ops ih =>
    intro W s s1 hinv ha hq hend e
    obtain ⟨s', e', hinv'⟩ := inv_step hinv op
    simp only [run, e', Option.some_bind] at e
    have hw : op.isWrite = true → s.stream.end_ = false := by
      intro h
      cases he : s.stream.end_ with
      | false => rfl
      | true =>
        have := hend he op (List.mem_cons_self _ _)
        rw [h] at this
        exact absurd this (by simp)
    obtain ⟨ha', hend'⟩ := acct_step hinv ha op hw e'
    by_cases hop : op = Op.end_input
    · subst hop
      have hall : ∀ o ∈ ops, o.isWrite = false := by
        simpa [quiet_after_end] using hq
      exact ih _ s' s1 hinv' ha' (quiet_of_no_write ops hall) (fun _ => hall) e
    · have hq' : quiet_after_end ops = true := by
        cases op <;> first | exact absurd rfl hop | simpa [quiet_after_end] using hq
      refine ih _ s' s1 hinv' ha' hq' ?_ e
      intro he o ho
      rw [hend' hop] at he
      exact hend he o (List.mem_cons_of_mem _ ho)

theorem acct_of_run {capacity retx_timeout isn : Nat} {ops : List Op} {s : TCPSender}
    (hq : quiet_after_end ops = true)
    (h : (init capacity retx_timeout isn).run ops = some s) : Acct s :=
  acct_run ops 1 _ s (inv_fresh capacity retx_timeout isn) (acct_fresh capacity retx_timeout isn)
    hq (by intro he; simp [init, ByteStream.init] at he) h

end TCPSender

namespace TCPSender

theorem fin_only_round {s : TCPSender} (ha : Acct s) (hn0 : s.next_seqno ≠ 0)
    (hack : s.next_seqno ≠ flight s.send_window) (heof : s.stream.eof = true)
    (hfs : s.fin_sent = false) (remaining : Nat) (hr : 1 ≤ remaining) :
    s.seg_built remaining = TCPSegment.mk (wrap s.next_seqno s.isn) false true false [] := by
  have hnil : s.stream.stream = [] := by
    simp only [ByteStream.eof, Bool.and_eq_true, List.isEmpty_iff] at heof
    exact heof.2
  have hsyn : s.seg_syn remaining = false := by
    cases hs : s.seg_syn remaining with
    | false => rfl
    | true => exact absurd (seg_syn_true hs).1 hn0
  have hsz : s.seg_size remaining = 0 := by
    have := (seg_size_le s remaining).1
    simp only [hnil, List.length_nil] at this
    omega
  have hst : s.seg_stream remaining = s.stream := by
    simp only [seg_stream, hsz, Nat.add_zero, List.drop_zero]
  have hseq := ha.seqno
  have hinv := ha.stream_inv.1
  simp only [hfs, Bool.false_eq_true, if_false, if_neg hn0, hnil, List.length_nil] at hseq hinv
  have hfin : s.seg_fin remaining = true := by
    simp only [seg_fin, hst, Bool.and_eq_true, decide_eq_true_eq, state_acked2,
      bytes_in_flight_eq, hsz, hsyn, ByteStream.bytes_written]
    refine ⟨⟨hn0, hack, heof, by omega⟩, ?_⟩
    simp only [Bool.false_eq_true, if_false]
    omega
  simp only [seg_built, hsyn, hfin, hsz, List.take_zero]

theorem fill_loop_stop_pos (fuel : Nat) (hfuel : 1 ≤ fuel) (s : TCPSender) (remaining : Nat)
    (hinv : ByteStream.Inv s.stream)
    (h : remaining = 0 ∨ (s.seg_built remaining).length_in_sequence_space = 0) :
    fill_loop fuel s remaining = some s := by
  cases fuel with
  | zero => omega
  | succ fuel => exact fill_loop_stop fuel s remaining hinv h

end TCPSender

/-- C26 fails when the outbound stream is written after its input ended: after
the SYN is sent and acknowledged (window 4), `end_input` and `fill_window` send
the FIN; `write("ab")` is then accepted by the stream, which does not look at
its end flag, and the next `fill_window` reads `"ab"`, finds the stream at EOF
with `next_seqno = 2 < bytes_written + 2` and room left, and emits `"ab"` with
`fin` set, although a segment with `fin` was sent before. -/
theorem TCPSender.fin_emitted_after_fin_sent :
    (((TCPSender.init 8 1000 0).run
        [.fill_window, .ack_received 1 4, .end_input, .fill_window, .write ['a', 'b']]).bind
      fun s => s.fill_window.map fun s1 =>
        (s.segments_out.map (fun seg => seg.fin),
          (s1.segments_out.drop s.segments_out.length).map
            (fun seg => (seg.fin, seg.payload))))
      = some ([false, true], [(true, ['a', 'b'])]) := by
  rfl

/-- C26, amended: on every sender reached from the constructor by calls among
which no write to the stream follows the end of its input, `fill_window`
returns, and a segment it emits carries `fin` only if it is the last one
emitted, the SYN
was sent and acknowledged before the call, the stream is at EOF after that
segment's payload has been read, no segment sent before carries `fin`, and the
room left in the window when it is emitted is strictly greater than its payload
length; so a segment whose payload exactly fills the room left carries no
`fin`.  When the SYN is acknowledged, the stream is at EOF, no FIN has been
sent and the window has room, `fill_window` emits exactly the FIN segment. -/
theorem TCPSender.fin_placement (capacity retx_timeout isn : Nat) (ops : List TCPSender.Op)
    (s : TCPSender) (hquiet : TCPSender.quiet_after_end ops = true)
    (hs : (TCPSender.init capacity retx_timeout isn).run ops = some s) :
    ∃ s1 new, s.fill_window = some s1 ∧ s1.segments_out = s.segments_out ++ new ∧
      s1.send_window = s.send_window ++ new ∧
      (∀ before seg after, new = before ++ seg :: after → seg.fin = true →
        after = [] ∧ s.next_seqno ≠ 0 ∧ s.next_seqno ≠ s.bytes_in_flight ∧
        s1.stream.eof = true ∧ (∀ x ∈ s.segments_out ++ before, x.fin = false) ∧
        seg.payload.length
          < max s.receive_window_size 1 - s.bytes_in_flight - TCPSender.flight before) ∧
      (∀ before seg after, new = before ++ seg :: after →
        seg.payload.length
          = max s.receive_window_size 1 - s.bytes_in_flight - TCPSender.flight before →
        seg.fin = false) ∧
      (s.next_seqno ≠ 0 → s.next_seqno ≠ s.bytes_in_flight → s.stream.eof = true →
        (∀ x ∈ s.segments_out, x.fin = false) →
        s.bytes_in_flight < max s.receive_window_size 1 →
        new = [TCPSegment.mk (wrap s.next_seqno s.isn) false true false []]) := by
  have ha := TCPSender.acct_of_run hquiet hs
  obtain ⟨s1, new, e, hsent⟩ := TCPSender.fill_window_sent s ha
  have hrule : ∀ before seg after, new = before ++ seg :: after → seg.fin = true →
      after = [] ∧ s.next_seqno ≠ 0 ∧ s.next_seqno ≠ s.bytes_in_flight ∧
      s1.stream.eof = true ∧ (∀ x ∈ s.segments_out ++ before, x.fin = false) ∧
      seg.payload.length
        < max s.receive_window_size 1 - s.bytes_in_flight - TCPSender.flight before := by
    intro before seg after hsplit hfin
    obtain ⟨g1, g2, g3, g4, g5, g6⟩ := hsent.fin_rule before seg after hsplit hfin
    have hfl := ha.flight_le
    rw [TCPSender.bytes_in_flight_eq]
    refine ⟨g1, by omega, g2, g3, ?_, g6⟩
    intro x hx
    rcases List.mem_append.mp hx with h | h
    · simp only [TCPSender.fin_sent, List.any_eq_false] at g4
      simpa using g4 x h
    · exact g5 x h
  refine ⟨s1, new, e, hsent.out_eq, hsent.queue_eq, hrule, ?_, ?_⟩
  · intro before seg after hsplit hlen
    cases hf : seg.fin with
    | false => rfl
    | true =>
      have := (hrule before seg after hsplit hf).2.2.2.2.2
      omega
  · intro hn0 hack heof hnofin hroom
    rw [TCPSender.bytes_in_flight_eq] at hack hroom
    have hfs : s.fin_sent = false := by
      simp only [TCPSender.fin_sent, List.any_eq_false]
      intro x hx
      simpa using hnofin x hx
    have hr : 1 ≤ max s.receive_window_size 1 - TCPSender.flight s.send_window := by omega
    have hb := TCPSender.fin_only_round ha hn0 hack heof hfs _ hr
    have hlen : (s.seg_built (max s.receive_window_size 1
        - TCPSender.flight s.send_window)).length_in_sequence_space ≠ 0 := by
      rw [hb]
      simp [TCPSegment.length_in_sequence_space]
    have ha2 := TCPSender.acct_after ha hr hlen
    have hfs2 : (s.after_segment (max s.receive_window_size 1
        - TCPSender.flight s.send_window)).fin_sent = true := by
      simp [TCPSender.fin_sent, TCPSender.after_segment, hb, List.any_append]
    have e2 : s.fill_window = some (s.after_segment (max s.receive_window_size 1
        - TCPSender.flight s.send_window)) := by
      simp only [TCPSender.fill_window, TCPSender.window_or_one, TCPSender.bytes_in_flight_eq]
      rw [if_neg (by omega), ByteStream.wsub_of_le (by omega),
        TCPSender.fill_loop_round _ s _ ha.stream_inv (by omega) hlen]
      exact TCPSender.fill_loop_stop_pos _ hr _ _ ha2.stream_inv
        (Or.inr (TCPSender.fin_sent_stop ha2 hfs2 _))
    rw [e] at e2
    cases e2
    have hout := hsent.out_eq
    simp only [TCPSender.after_segment, hb] at hout
    exact (List.append_cancel_left hout).symm

/-- Witness of C26: the SYN is acknowledged with a window of 3, then `"abc"` is
written and the input ended; `fill_window` emits `"abc"`, which exactly fills
the window, without `fin`, and after the ack of `"abc"` the FIN goes out. -/
theorem TCPSender.fin_placement_witness :
    (TCPSender.quiet_after_end
        [.fill_window, .ack_received 1 3, .write ['a', 'b', 'c'], .end_input] = true ∧
      (TCPSender.init 8 1000 0).run
        [.fill_window, .ack_received 1 3, .write ['a', 'b', 'c'], .end_input]
        = some (TCPSender.mk 0 [] 3 1000 (Timer.mk false 0 0)
            (ByteStream.mk ['a', 'b', 'c'] 8 0 3 true) 0 1
            [TCPSegment.mk 0 true false false []]) ∧
      ((TCPSender.init 8 1000 0).run
        [.fill_window, .ack_received 1 3, .write ['a', 'b', 'c'], .end_input, .fill_window,
          .ack_received 4 3]).map (fun s => s.segments_out)
        = some [TCPSegment.mk 0 true false false [],
            TCPSegment.mk 1 false false false ['a', 'b', 'c'],
            TCPSegment.mk 4 false true false []]) ∧
    ∃ s1 new, (TCPSender.mk 0 [] 3 1000 (Timer.mk false 0 0)
        (ByteStream.mk ['a', 'b', 'c'] 8 0 3 true) 0 1
        [TCPSegment.mk 0 true false false []]).fill_window = some s1 ∧
      s1.segments_out = [TCPSegment.mk 0 true false false []] ++ new ∧
      s1.send_window = [] ++ new ∧
      (∀ before seg after, new = before ++ seg :: after → seg.fin = true →
        after = [] ∧ (1 : Nat) ≠ 0 ∧
        1 ≠ (TCPSender.mk 0 [] 3 1000 (Timer.mk false 0 0)
          (ByteStream.mk ['a', 'b', 'c'] 8 0 3 true) 0 1
          [TCPSegment.mk 0 true false false []]).bytes_in_flight ∧
        s1.stream.eof = true ∧
        (∀ x ∈ [TCPSegment.mk 0 true false false []] ++ before, x.fin = false) ∧
        seg.payload.length
          < max 3 1 - (TCPSender.mk 0 [] 3 1000 (Timer.mk false 0 0)
              (ByteStream.mk ['a', 'b', 'c'] 8 0 3 true) 0 1
              [TCPSegment.mk 0 true false false []]).bytes_in_flight
            - TCPSender.flight before) ∧
      (∀ before seg after, new = before ++ seg :: after →
        seg.payload.length
          = max 3 1 - (TCPSender.mk 0 [] 3 1000 (Timer.mk false 0 0)
              (ByteStream.mk ['a', 'b', 'c'] 8 0 3 true) 0 1
              [TCPSegment.mk 0 true false false []]).bytes_in_flight
            - TCPSender.flight before →
        seg.fin = false) ∧
      ((1 : Nat) ≠ 0 →
        1 ≠ (TCPSender.mk 0 [] 3 1000 (Timer.mk false 0 0)
          (ByteStream.mk ['a', 'b', 'c'] 8 0 3 true) 0 1
          [TCPSegment.mk 0 true false false []]).bytes_in_flight →
        (ByteStream.mk ['a', 'b', 'c'] 8 0 3 true).eof = true →
        (∀ x ∈ [TCPSegment.mk 0 true false false []], x.fin = false) →
        (TCPSender.mk 0 [] 3 1000 (Timer.mk false 0 0)
          (ByteStream.mk ['a', 'b', 'c'] 8 0 3 true) 0 1
          [TCPSegment.mk 0 true false false []]).bytes_in_flight < max 3 1 →
        new = [TCPSegment.mk (wrap 1 0) false true false []]) :=
  ⟨⟨by decide, by decide, by decide⟩,
    TCPSender.fin_placement 8 1000 0
      [.fill_window, .ack_received 1 3, .write ['a', 'b', 'c'], .end_input]
      (TCPSender.mk 0 [] 3 1000 (Timer.mk false 0 0)
        (ByteStream.mk ['a', 'b', 'c'] 8 0 3 true) 0 1
        [TCPSegment.mk 0 true false false []]) (by decide) (by decide)⟩

/-! ## The timer tracks the outstanding queue -/

namespace TCPSender

/-- C31: every sequence of operations on a fresh sender (`fill_window`,
`ack_received`, `tick`, `send_empty_segment`, and writes to or the end of input
of the outbound stream) runs to a state, so no call on the way throws, and in
that state the retransmission timer is active if and only if the outstanding
queue is non-empty.  Hence `Timer::elapse` returns whenever `tick` calls it,
which is when the timer is active; when it reports the expiry the queue whose
`front()` is taken is non-empty; and every further `tick` returns. -/
theorem timer_tracks_outstanding_queue (capacity retx_timeout isn : Nat) (ops : List Op) :
    ∃ s, (init capacity retx_timeout isn).run ops = some s ∧
      (s.timer.active = true ↔ s.send_window ≠ []) ∧
      (∀ ms, s.timer.active = true → ∃ p, s.timer.elapse ms = some p) ∧
      (∀ ms timer, s.timer.elapse ms = some (timer, true) → s.send_window ≠ []) ∧
      (∀ ms, ∃ s1, s.tick ms = some s1 ∧
        (s1.timer.active = true ↔ s1.send_window ≠ [])) := by
  obtain ⟨s, e, h⟩ := inv_run ops 1 _ (inv_fresh capacity retx_timeout isn)
  refine ⟨s, e, h.timer_iff, ?_, ?_, ?_⟩
  · intro ms hact
    simp only [Timer.elapse, hact, Bool.true_eq_false, if_false]
    split
    · exact ⟨_, rfl⟩
    · exact ⟨_, rfl⟩
  · intro ms timer he
    apply h.timer_iff.mp
    cases hact : s.timer.active with
    | true => rfl
    | false => simp [Timer.elapse, hact] at he
  · intro ms
    obtain ⟨s1, e1, h1, _⟩ := inv_tick h ms
    exact ⟨s1, e1, h1.timer_iff⟩

end TCPSender

/-! ## Sequence-number accounting over a run -/

namespace TCPSender

theorem syn_sent_after (s : TCPSender) (remaining : Nat) :
    (s.after_segment remaining).syn_sent = (s.syn_sent || s.seg_syn remaining) := by
  simp [syn_sent, after_segment, seg_built, List.any_append]

theorem syn_after {s : TCPSender} {remaining : Nat} (hr : 1 ≤ remaining)
    (hne : (s.seg_built remaining).length_in_sequence_space ≠ 0)
    (h : s.syn_sent = true ↔ s.next_seqno ≠ 0) :
    (s.after_segment remaining).syn_sent = true ↔ (s.after_segment remaining).next_seqno ≠ 0 := by
  rw [syn_sent_after]
  have hn : (s.after_segment remaining).next_seqno ≠ 0 := by
    simp only [after_segment]
    omega
  constructor
  · intro _
    exact hn
  · intro _
    cases hs : s.seg_syn remaining with
    | true => simp
    | false =>
      rw [h.mpr (seg_syn_false hs hr)]
      rfl

theorem stream_after_inv {s : TCPSender} (remaining : Nat) (hinv : ByteStream.Inv s.stream) :
    ByteStream.Inv (s.after_segment remaining).stream := by
  have hsz := seg_size_le s remaining
  simp only [after_segment, seg_stream, ByteStream.Inv, List.length_drop]
  obtain ⟨h1, h2⟩ := hinv
  omega

theorem fill_loop_syn : ∀ (fuel : Nat) (s : TCPSender) (remaining : Nat) (s' : TCPSender),
    ByteStream.Inv s.stream → (s.syn_sent = true ↔ s.next_seqno ≠ 0) →
    fill_loop fuel s remaining = some s' → (s'.syn_sent = true ↔ s'.next_seqno ≠ 0) := by
  intro fuel
  induction fuel with
  | zero => intro s remaining s' _ _ e; simp [fill_loop] at e
  | succ fuel ih =>
    intro s remaining s' hinv h e
    by_cases hstop : remaining = 0 ∨ (s.seg_built remaining).length_in_sequence_space = 0
    · rw [fill_loop_stop fuel s remaining hinv hstop] at e
      cases e
      exact h
    · have hr : remaining > 0 := by omega
      have hne : (s.seg_built remaining).length_in_sequence_space ≠ 0 := fun h =>
        hstop (Or.inr h)
      rw [fill_loop_round fuel s remaining hinv hr hne] at e
      exact ih _ _ s' (stream_after_inv remaining hinv) (syn_after hr hne h) e

theorem fill_window_syn {s s1 : TCPSender} (e : s.fill_window = some s1)
    (hinv : ByteStream.Inv s.stream) (h : s.syn_sent = true ↔ s.next_seqno ≠ 0) :
    s1.syn_sent = true ↔ s1.next_seqno ≠ 0 := by
  simp only [fill_window, window_or_one, bytes_in_flight_eq] at e
  by_cases hgt : flight s.send_window > max s.receive_window_size 1
  · rw [if_pos hgt] at e
    cases e
    exact h
  · rw [if_neg hgt] at e
    exact fill_loop_syn _ s _ s1 hinv h e

theorem payloads_nil : payloads [] = [] := rfl

theorem payloads_cons (seg : TCPSegment) (q : List TCPSegment) :
    payloads (seg :: q) = seg.payload ++ payloads q := by
  simp [payloads]

theorem payloads_append (q q' : List TCPSegment) :
    payloads (q ++ q') = payloads q ++ payloads q' := by
  simp [payloads]

theorem fill_loop_consumed : ∀ (fuel : Nat) (s : TCPSender) (remaining : Nat) (s' : TCPSender),
    ByteStream.Inv s.stream → fill_loop fuel s remaining = some s' →
    ∃ new, s'.segments_out = s.segments_out ++ new ∧
      s.stream.stream = payloads new ++ s'.stream.stream ∧
      s'.stream.bytes_popped = s.stream.bytes_popped + (payloads new).length := by
  intro fuel
  induction fuel with
  | zero => intro s remaining s' _ e; simp [fill_loop] at e
  | succ fuel ih =>
    intro s remaining s' hinv e
    by_cases hstop : remaining = 0 ∨ (s.seg_built remaining).length_in_sequence_space = 0
    · rw [fill_loop_stop fuel s remaining hinv hstop] at e
      cases e
      exact ⟨[], by simp, by simp [payloads_nil], by simp [payloads_nil]⟩
    · have hr : remaining > 0 := by omega
      have hne : (s.seg_built remaining).length_in_sequence_space ≠ 0 := fun h =>
        hstop (Or.inr h)
      rw [fill_loop_round fuel s remaining hinv hr hne] at e
      obtain ⟨new2, h1, h2, h3⟩ := ih _ _ s' (stream_after_inv remaining hinv) e
      have hsz := (seg_size_le s remaining).1
      refine ⟨s.seg_built remaining :: new2, ?_, ?_, ?_⟩
      · rw [h1]
        simp [after_segment]
      · simp only [after_segment, seg_stream] at h2
        rw [payloads_cons, List.append_assoc, ← h2]
        simp [seg_built]
      · rw [h3, payloads_cons, List.length_append]
        simp only [after_segment, seg_stream, seg_built, List.length_take]
        omega

theorem fill_emitted {s s1 : TCPSender} (e : s.fill_window = some s1)
    (hinv : ByteStream.Inv s.stream) :
    Emitted s s1 (s1.segments_out.drop s.segments_out.length) := by
  obtain ⟨s', new, e', hf⟩ := fill_window_spec s hinv
  rw [e] at e'
  cases e'
  have hc : ∃ new2, s1.segments_out = s.segments_out ++ new2 ∧
      s.stream.stream = payloads new2 ++ s1.stream.stream ∧
      s1.stream.bytes_popped = s.stream.bytes_popped + (payloads new2).length := by
    have e2 := e
    simp only [fill_window, window_or_one, bytes_in_flight_eq] at e2
    by_cases hgt : flight s.send_window > max s.receive_window_size 1
    · rw [if_pos hgt] at e2
      cases e2
      exact ⟨[], by simp, by simp [payloads_nil], by simp [payloads_nil]⟩
    · rw [if_neg hgt] at e2
      exact fill_loop_consumed _ s _ s1 hinv e2
  obtain ⟨new2, h1, h2, h3⟩ := hc
  have hnew : new2 = new := List.append_cancel_left (h1.symm.trans hf.out_eq)
  subst hnew
  rw [hf.out_eq, List.drop_left]
  exact
    { out_eq := hf.out_eq
      isn_eq := hf.isn_eq
      next_eq := hf.next_eq
      chained := hf.chained
      consumed := h2
      popped_eq := h3
      queue_sub := by
        intro seg hseg
        rw [hf.queue_eq] at hseg
        exact List.mem_append.mp hseg
      syn_iff := fill_window_syn e hinv }

theorem emitted_nil {s s1 : TCPSender} (h1 : s1.segments_out = s.segments_out)
    (h2 : s1.isn = s.isn) (h3 : s1.next_seqno = s.next_seqno) (h4 : s1.stream = s.stream)
    (h5 : ∀ seg ∈ s1.send_window, seg ∈ s.send_window) :
    Emitted s s1 (s1.segments_out.drop s.segments_out.length) := by
  rw [h1, List.drop_length]
  exact
    { out_eq := by rw [h1, List.append_nil]
      isn_eq := h2
      next_eq := by rw [h3]; simp [flight]
      chained := trivial
      consumed := by rw [h4]; rfl
      popped_eq := by rw [h4]; simp [payloads]
      queue_sub := fun seg hseg => Or.inl (h5 seg hseg)
      syn_iff := by
        intro h
        simp only [syn_sent, h1, h3]
        exact h }

theorem ack_emitted {s s1 : TCPSender} (hinv : ByteStream.Inv s.stream) (ackno window_size : Nat)
    (e : s.ack_received ackno window_size = some s1) :
    Emitted s s1 (s1.segments_out.drop s.segments_out.length) := by
  by_cases hgt : unwrap ackno s.isn s.next_seqno > s.next_seqno
  · simp only [ack_received, if_pos hgt] at e
    cases e
    exact emitted_nil rfl rfl rfl rfl (fun _ h => h)
  by_cases hq : s.send_window = []
  · simp only [ack_received, if_neg hgt, hq, List.isEmpty_nil, if_true] at e
    cases e
    exact emitted_nil rfl rfl rfl rfl (fun _ h => by simp at h)
  rw [ack_received_eq s ackno window_size hgt hq] at e
  have hsub := remove_acked_subset s.isn s.next_seqno (unwrap ackno s.isn s.next_seqno)
    s.send_window
  split at e
  · have := fill_emitted e hinv
    exact
      { out_eq := this.out_eq
        isn_eq := this.isn_eq
        next_eq := this.next_eq
        chained := this.chained
        consumed := this.consumed
        popped_eq := this.popped_eq
        queue_sub := fun seg hseg => (this.queue_sub seg hseg).imp (hsub seg) id
        syn_iff := this.syn_iff }
  · have := fill_emitted e hinv
    exact
      { out_eq := this.out_eq
        isn_eq := this.isn_eq
        next_eq := this.next_eq
        chained := this.chained
        consumed := this.consumed
        popped_eq := this.popped_eq
        queue_sub := fun seg hseg => (this.queue_sub seg hseg).imp (hsub seg) id
        syn_iff := this.syn_iff }

theorem traced_emitted {s s1 : TCPSender} {t : Trace} {new : List TCPSegment}
    (ht : Traced s t) (he : Emitted s s1 new) :
    Traced s1 { placed := t.placed ++ new, accepted := t.accepted ++ [] } where
  syn_iff := he.syn_iff ht.syn_iff
  queue_sub := by
    intro seg hseg
    rw [he.out_eq]
    rcases he.queue_sub seg hseg with h | h
    · exact List.mem_append_left _ (ht.queue_sub seg h)
    · exact List.mem_append_right _ h
  chained := by
    rw [he.isn_eq]
    refine chained_append s.isn t.placed new 0 ht.chained ?_
    rw [Nat.zero_add, ← ht.next_eq]
    exact he.chained
  next_eq := by rw [he.next_eq, ht.next_eq, flight_append]
  accepted_eq := by
    simp only [List.append_nil, payloads_append, List.append_assoc, ← he.consumed]
    exact ht.accepted_eq
  popped_eq := by
    simp only [payloads_append, List.length_append]
    rw [he.popped_eq, ht.popped_eq]

theorem traced_same {s s1 : TCPSender} {t : Trace} (ht : Traced s t)
    (h1 : s1.syn_sent = s.syn_sent) (h2 : s1.isn = s.isn) (h3 : s1.next_seqno = s.next_seqno)
    (h4 : s1.stream.stream = s.stream.stream)
    (h5 : s1.stream.bytes_popped = s.stream.bytes_popped)
    (h6 : ∀ seg ∈ s1.send_window, seg ∈ s1.segments_out) :
    Traced s1 { placed := t.placed ++ [], accepted := t.accepted ++ [] } where
  syn_iff := by rw [h1, h3]; exact ht.syn_iff
  queue_sub := h6
  chained := by rw [h2, List.append_nil]; exact ht.chained
  next_eq := by rw [h3, List.append_nil]; exact ht.next_eq
  accepted_eq := by simp only [List.append_nil, h4]; exact ht.accepted_eq
  popped_eq := by simp only [List.append_nil, h5]; exact ht.popped_eq

theorem traced_step {W : Nat} {s s1 : TCPSender} {t : Trace} (hinv : Inv W s)
    (ht : Traced s t) (op : Op) (e : s.step op = some s1) :
    Traced s1
      { placed := t.placed ++ placed_by s op s1, accepted := t.accepted ++ accepted_by s op } := by
  cases op with
  | fill_window => exact traced_emitted ht (fill_emitted e hinv.stream_inv)
  | ack_received ackno window_size =>
    exact traced_emitted ht (ack_emitted hinv.stream_inv ackno window_size e)
  | tick ms =>
    simp only [step] at e
    cases hact : s.timer.active with
    | false =>
      rw [tick_idle s ms hact] at e
      cases e
      exact traced_same ht rfl rfl rfl rfl rfl ht.queue_sub
    | true =>
      have hq := hinv.timer_iff.mp hact
      cases hsw : s.send_window with
      | nil => exact absurd hsw hq
      | cons head rest =>
        by_cases hal : s.timer.alarm > ms
        · rw [tick_running s ms hact hal] at e
          cases e
          exact traced_same ht rfl rfl rfl rfl rfl ht.queue_sub
        · rw [tick_expired s ms head rest hact (by omega) hsw] at e
          cases e
          have hmem : head ∈ s.segments_out :=
            ht.queue_sub head (by rw [hsw]; exact List.mem_cons_self _ _)
          refine traced_same ht ?_ rfl rfl rfl rfl ?_
          · simp only [syn_sent, List.any_append, List.any_cons, List.any_nil, Bool.or_false]
            cases hf : head.syn with
            | false => simp
            | true =>
              have : s.segments_out.any (fun seg => seg.syn) = true :=
                List.any_eq_true.mpr ⟨head, hmem, hf⟩
              simp [this]
          · intro seg hseg
            exact List.mem_append_left _ (ht.queue_sub seg hseg)
  | send_empty_segment rst =>
    simp only [step] at e
    cases e
    refine traced_same ht ?_ rfl rfl rfl rfl ?_
    · simp [syn_sent, send_empty_segment, List.any_append]
    · intro seg hseg
      exact List.mem_append_left _ (ht.queue_sub seg hseg)
  | write data =>
    simp only [step] at e
    cases e
    exact
      { syn_iff := ht.syn_iff
        queue_sub := ht.queue_sub
        chained := by simp only [placed_by, List.append_nil]; exact ht.chained
        next_eq := by simp only [placed_by, List.append_nil]; exact ht.next_eq
        accepted_eq := by
          simp only [placed_by, accepted_by, List.append_nil, ByteStream.write, ht.accepted_eq,
            List.append_assoc]
        popped_eq := by
          simp only [placed_by, List.append_nil, ByteStream.write]
          exact ht.popped_eq }
  | end_input =>
    simp only [step] at e
    cases e
    exact traced_same ht rfl rfl rfl rfl rfl ht.queue_sub

theorem step_chained {W : Nat} {s s1 : TCPSender} (hinv : Inv W s) (op : Op)
    (e : s.step op = some s1) :
    s1.isn = s.isn ∧ Chained s.isn s.next_seqno (placed_by s op s1) ∧
      s1.next_seqno = s.next_seqno + flight (placed_by s op s1) := by
  cases op with
  | fill_window =>
    have := fill_emitted e hinv.stream_inv
    exact ⟨this.isn_eq, this.chained, this.next_eq⟩
  | ack_received ackno window_size =>
    have := ack_emitted hinv.stream_inv ackno window_size e
    exact ⟨this.isn_eq, this.chained, this.next_eq⟩
  | tick ms =>
    simp only [step] at e
    cases hact : s.timer.active with
    | false =>
      rw [tick_idle s ms hact] at e
      cases e
      exact ⟨rfl, trivial, rfl⟩
    | true =>
      have hq := hinv.timer_iff.mp hact
      cases hsw : s.send_window with
      | nil => exact absurd hsw hq
      | cons head rest =>
        by_cases hal : s.timer.alarm > ms
        · rw [tick_running s ms hact hal] at e
          cases e
          exact ⟨rfl, trivial, rfl⟩
        · rw [tick_expired s ms head rest hact (by omega) hsw] at e
          cases e
          exact ⟨rfl, trivial, rfl⟩
  | send_empty_segment rst =>
    simp only [step] at e
    cases e
    exact ⟨rfl, trivial, rfl⟩
  | write data =>
    simp only [step] at e
    cases e
    exact ⟨rfl, trivial, rfl⟩
  | end_input =>
    simp only [step] at e
    cases e
    exact ⟨rfl, trivial, rfl⟩

theorem traced_run : ∀ (ops : List Op) (W : Nat) (s : TCPSender) (t : Trace), Inv W s →
    Traced s t →
    ∃ s1 t1, s.run_traced t ops = some (s1, t1) ∧ s.run ops = some s1 ∧
      Traced s1 t1 ∧ Inv (ops.foldl Op.window W) s1 ∧ s1.isn = s.isn := by
  intro ops
  induction ops with
  | nil =>
    intro W s t hinv ht
    exact ⟨s, t, rfl, rfl, ht, hinv, rfl⟩
  | cons op ops ih =>
    intro W s t hinv ht
    obtain ⟨s', e', hinv'⟩ := inv_step hinv op
    have ht' := traced_step hinv ht op e'
    obtain ⟨s1, t1, e1, e2, h2, h3, h4⟩ := ih _ s' _ hinv' ht'
    refine ⟨s1, t1, ?_, ?_, h2, h3, h4.trans (step_chained hinv op e').1⟩
    · simp only [run_traced, e', Option.some_bind]
      exact e1
    · simp only [run, e', Option.some_bind]
      exact e2

theorem traced_fresh (capacity retx_timeout isn : Nat) :
    Traced (init capacity retx_timeout isn) { placed := [], accepted := [] } where
  syn_iff := by simp [init, syn_sent]
  queue_sub := by intro seg h; simp [init] at h
  chained := trivial
  next_eq := by simp [init, flight]
  accepted_eq := by simp [init, payloads, ByteStream.init]
  popped_eq := by simp [init, payloads, ByteStream.init]

theorem chained_split (isn : Nat) : ∀ (before : List TCPSegment) (seg : TCPSegment)
    (after : List TCPSegment) (start : Nat), Chained isn start (before ++ seg :: after) →
    seg.seqno = wrap (start + flight before) isn := by
  intro before
  induction before with
  | nil =>
    intro seg after start h
    simpa [flight] using h.1
  | cons x rest ih =>
    intro seg after start h
    have := ih seg after _ h.2.2
    rw [this, flight_cons]
    congr 1
    omega

theorem flight_count : ∀ (q : List TCPSegment),
    flight q = syn_count q + (payloads q).length + fin_count q := by
  intro q
  induction q with
  | nil => simp [flight, syn_count, fin_count, payloads]
  | cons seg q ih =>
    rw [flight_cons, ih, payloads_cons, List.length_append]
    simp only [syn_count, fin_count, List.countP_cons, TCPSegment.length_in_sequence_space]
    omega

end TCPSender

/-- C32 fails when the outbound stream is written after its input ended: after
the SYN is sent and acknowledged (window 4), `end_input` and `fill_window` send
the FIN at sequence number 1; `write("ab")` is then accepted by the stream,
which does not look at its end flag, and the next `fill_window` finds the
stream at EOF again behind `"ab"` with `next_seqno = 2 < bytes_written + 2`,
so it sends `"ab"` with a second FIN.  Then `next_seqno = 5`, while a SYN, 2
bytes read and a FIN add up to 4. -/
theorem TCPSender.second_fin_breaks_accounting :
    ((TCPSender.init 8 1000 0).run
        [.fill_window, .ack_received 1 4, .end_input, .fill_window, .write ['a', 'b'],
          .fill_window]).map
      (fun s => (s.next_seqno, s.syn_sent, s.stream.bytes_read, s.fin_sent,
        s.segments_out.map (fun seg => (seg.seqno, seg.syn, seg.fin, seg.payload)),
        decide (s.next_seqno = (if s.syn_sent = true then 1 else 0) + s.stream.bytes_read
          + (if s.fin_sent = true then 1 else 0))))
      = some (5, true, 2, true,
          [(0, true, false, []), (1, false, true, []), (2, false, true, ['a', 'b'])],
          false) := by
  rfl

/-- C32, amended: every sequence of `fill_window`, `ack_received`, `tick` and
`send_empty_segment` calls on a fresh sender, with writes to the outbound stream
and the end of its input among them, returns a state `s`; let `t` be the trace
of the segments placed in the outstanding queue and of the bytes the stream
accepted.  If no write follows the end of input, `next_seqno` is 1 if a SYN has
been sent, plus `bytes_read` of the stream, plus 1 if a FIN has been sent.  In
every case `next_seqno` is the number of segments placed with `syn`, plus
`bytes_read`, plus the number of segments placed with `fin`; `next_seqno` is
the total length of the segments placed, each of them is stamped `wrap` of the
total length of the segments placed before it, and the segments that a further
call places are stamped from the `next_seqno` before the call on and move
`next_seqno` to their end; the payloads of the segments placed, concatenated in
the order of emission, are the first `bytes_read` bytes the stream accepted,
and the bytes accepted are these payloads followed by the bytes still
buffered; `tick` and `send_empty_segment` return and leave `next_seqno` as it
is. -/
theorem TCPSender.sequence_number_accounting (capacity retx_timeout isn : Nat)
    (ops : List TCPSender.Op) :
    ∃ s t, (TCPSender.init capacity retx_timeout isn).run_traced
          { placed := [], accepted := [] } ops = some (s, t) ∧
      (TCPSender.init capacity retx_timeout isn).run ops = some s ∧
      (TCPSender.quiet_after_end ops = true →
        s.next_seqno = (if s.syn_sent = true then 1 else 0) + s.stream.bytes_read
          + (if s.fin_sent = true then 1 else 0)) ∧
      s.next_seqno = TCPSender.syn_count t.placed + s.stream.bytes_read
        + TCPSender.fin_count t.placed ∧
      s.next_seqno = TCPSender.flight t.placed ∧
      (∀ before seg after, t.placed = before ++ seg :: after →
        seg.seqno = wrap (TCPSender.flight before) isn) ∧
      (∀ op s1, s.step op = some s1 →
        TCPSender.Chained isn s.next_seqno (TCPSender.placed_by s op s1) ∧
        s1.next_seqno = s.next_seqno + TCPSender.flight (TCPSender.placed_by s op s1)) ∧
      TCPSender.payloads t.placed = t.accepted.take s.stream.bytes_read ∧
      t.accepted = TCPSender.payloads t.placed ++ s.stream.stream ∧
      (∀ ms, ∃ s1, s.tick ms = some s1 ∧ s1.next_seqno = s.next_seqno) ∧
      (∀ rst, (s.send_empty_segment rst).next_seqno = s.next_seqno) := by
  obtain ⟨s, t, e1, e2, ht, hinv, hisn⟩ :=
    TCPSender.traced_run ops 1 _ _ (TCPSender.inv_fresh capacity retx_timeout isn)
      (TCPSender.traced_fresh capacity retx_timeout isn)
  have hisn' : s.isn = isn := hisn
  refine ⟨s, t, e1, e2, ?_, ?_, ht.next_eq, ?_, ?_, ?_, ht.accepted_eq, ?_, fun _ => rfl⟩
  · intro hq
    have hseq := (TCPSender.acct_of_run hq e2).seqno
    have hsyn := ht.syn_iff
    simp only [ByteStream.bytes_read]
    by_cases h0 : s.next_seqno = 0
    · have : s.syn_sent = false := by
        cases h : s.syn_sent with
        | false => rfl
        | true => exact absurd h0 (hsyn.mp h)
      rw [this]
      rw [if_pos h0] at hseq
      simpa using hseq
    · rw [hsyn.mpr h0]
      rw [if_neg h0] at hseq
      simpa using hseq
  · rw [ByteStream.bytes_read, ht.popped_eq, ht.next_eq]
    exact TCPSender.flight_count t.placed
  · intro before seg after hsplit
    have hc := ht.chained
    rw [hsplit, hisn'] at hc
    have := TCPSender.chained_split isn before seg after 0 hc
    rwa [Nat.zero_add] at this
  · intro op s1 e
    have := TCPSender.step_chained hinv op e
    rw [hisn'] at this
    exact this.2
  · rw [ht.accepted_eq, ByteStream.bytes_read, ht.popped_eq, List.take_left]
  · intro ms
    obtain ⟨s1, e, _, _, hn⟩ := TCPSender.inv_tick hinv ms
    exact ⟨s1, e, hn⟩

/-- Witness for C32: a write, the SYN, its acknowledgement, the data, the end
of input, the FIN, a retransmission and an empty segment; no write follows the
end of input, and `next_seqno` is 4, for the SYN, two bytes and the FIN. -/
theorem TCPSender.sequence_number_accounting_witness :
    TCPSender.quiet_after_end
        [.write ['a', 'b'], .fill_window, .ack_received 1 4, .end_input,
          .fill_window, .tick 100, .send_empty_segment false] = true ∧
    ((TCPSender.init 8 100 0).run_traced { placed := [], accepted := [] }
        [.write ['a', 'b'], .fill_window, .ack_received 1 4, .end_input,
          .fill_window, .tick 100, .send_empty_segment false]).map
      (fun p => (p.1.next_seqno, p.1.syn_sent, p.1.stream.bytes_read, p.1.fin_sent,
        p.2.placed.map (fun seg => (seg.seqno, seg.syn, seg.fin, seg.payload)), p.2.accepted))
      = some (4, true, 2, true,
          [(0, true, false, []), (1, false, false, ['a', 'b']), (3, false, true, [])],
          ['a', 'b']) ∧
    ∃ s t, (TCPSender.init 8 100 0).run_traced { placed := [], accepted := [] }
          [.write ['a', 'b'], .fill_window, .ack_received 1 4, .end_input,
            .fill_window, .tick 100, .send_empty_segment false]
        = some (s, t) ∧
      (TCPSender.init 8 100 0).run
          [.write ['a', 'b'], .fill_window, .ack_received 1 4, .end_input,
            .fill_window, .tick 100, .send_empty_segment false] = some s ∧
      (TCPSender.quiet_after_end
          [.write ['a', 'b'], .fill_window, .ack_received 1 4, .end_input,
            .fill_window, .tick 100, .send_empty_segment false] = true →
        s.next_seqno = (if s.syn_sent = true then 1 else 0) + s.stream.bytes_read
          + (if s.fin_sent = true then 1 else 0)) ∧
      s.next_seqno = TCPSender.syn_count t.placed + s.stream.bytes_read
        + TCPSender.fin_count t.placed ∧
      s.next_seqno = TCPSender.flight t.placed ∧
      (∀ before seg after, t.placed = before ++ seg :: after →
        seg.seqno = wrap (TCPSender.flight before) 0) ∧
      (∀ op s1, s.step op = some s1 →
        TCPSender.Chained 0 s.next_seqno (TCPSender.placed_by s op s1) ∧
        s1.next_seqno = s.next_seqno + TCPSender.flight (TCPSender.placed_by s op s1)) ∧
      TCPSender.payloads t.placed = t.accepted.take s.stream.bytes_read ∧
      t.accepted = TCPSender.payloads t.placed ++ s.stream.stream ∧
      (∀ ms, ∃ s1, s.tick ms = some s1 ∧ s1.next_seqno = s.next_seqno) ∧
      (∀ rst, (s.send_empty_segment rst).next_seqno = s.next_seqno) :=
  ⟨by decide, by rfl,
    TCPSender.sequence_number_accounting 8 100 0
      [.write ['a', 'b'], .fill_window, .ack_received 1 4, .end_input,
        .fill_window, .tick 100, .send_empty_segment false]⟩
